import Mathlib

/-!
# Password generator and strength analyser

A shallow embedding of `src/main.cpp` (class `PasswordGenerator`).

* A `std::string` / `std::vector<char>` is a `List Char`; one `Char` stands for one `char`.
  The keys and values of a component's `config`, the strength labels and the feedback
  messages are `String`.
* The random engine `gen` is the sequence of raw values it is going to yield; every
  function that draws from it takes the engine and returns the engine that is left.
* A thrown C++ exception is the `Except.error` result.
* `int` values are `Int`; loop counters that run `for (int i = 0; i < n; i++)` make
  `n.toNat` iterations (none when `n` is negative).
-/

namespace PasswordGenerator

/-! ## Character class registry (main.cpp 16-20) -/

def lowercase : List Char := "abcdefghijklmnopqrstuvwxyz".toList
def uppercase : List Char := "ABCDEFGHIJKLMNOPQRSTUVWXYZ".toList
def digits : List Char := "0123456789".toList
def special_chars : List Char := "!@#$%^&*()_+-=[]\x7b\x7d|;:,.<>?".toList
def ambiguous_chars : List Char := "il1Lo0O".toList

/-! ## Random source -/

/-- The engine `std::mt19937 gen`, as the sequence of raw values it yields from now on
(an exhausted sequence yields 0). Quantifying over all engines covers every outcome of
the random draws. -/
abbrev Gen := List Nat

/-- One call `dis(gen)` of a `std::uniform_int_distribution<> dis(lo, hi)`: consumes one raw
value and maps it into the closed range `[lo, hi]`. -/
def uniformInt (lo hi : Int) (g : Gen) : Int × Gen :=
  (lo + ((g.headD 0 : Nat) : Int) % (hi - lo + 1), g.tail)

/-- The exceptions thrown by the engine. -/
inductive Exception where
  | invalid_argument (what : String)
  | out_of_range (what : String)
deriving DecidableEq, Repr

/-- The call `std::iter_swap` on positions `i` and `j` of a vector. -/
def swapAt (v : List Char) (i j : Nat) : List Char :=
  (v.set i (v.getD j ' ')).set j (v.getD i ' ')

/-- The loop of `std::shuffle`: for each position `i` from the current one to the last,
swap the element at `i` with the one at a position drawn uniformly in `[0, i]`. -/
def shuffleLoop : Nat → Nat → List Char → Gen → List Char × Gen
  | 0, _, v, g => (v, g)
  | steps + 1, i, v, g =>
    let d := uniformInt 0 i g
    shuffleLoop steps (i + 1) (swapAt v i d.1.toNat) d.2

/-- The call `std::shuffle(v.begin(), v.end(), gen)`. -/
def shuffle (v : List Char) (g : Gen) : List Char × Gen :=
  shuffleLoop (v.length - 1) 1 v g

/-! ## Constrained password generator (main.cpp 74-147) -/

/-- The function `removeAmbiguous` (lines 74-82): keeps the characters that
`ambiguous_chars.find` does not find. -/
def removeAmbiguous (chars : List Char) : List Char :=
  chars.filter (fun c => !(ambiguous_chars.contains c))

/-- The loop `for (int i = 0; i < n; i++) out.push_back(chars[dis(gen)]);` with
`dis(0, chars.length() - 1)`; `out` is the vector (or string) being appended to. -/
def pushRandomChars (chars : List Char) : Nat → List Char → Gen → List Char × Gen
  | 0, out, g => (out, g)
  | n + 1, out, g =>
    let d := uniformInt 0 ((chars.length : Int) - 1) g
    pushRandomChars chars n (out ++ [chars.getD d.1.toNat ' ']) d.2

/-- The locals `char_pool`, `required_chars` of `generatePassword`, with the engine. -/
structure GenState where
  char_pool : List Char
  required_chars : List Char
  gen : Gen

/-- One of the four blocks `if (use_x) { char_pool += chars; draw min_x characters }`. -/
def addClass (use : Bool) (chars : List Char) (minimum : Int) (s : GenState) : GenState :=
  if use then
    let d := pushRandomChars chars minimum.toNat s.required_chars s.gen
    { char_pool := s.char_pool ++ chars, required_chars := d.1, gen := d.2 }
  else s

/-- The state of `generatePassword` after the four class blocks (lines 93-129). -/
def classBlocks (use_uppercase use_lowercase use_digits use_special exclude_ambiguous : Bool)
    (min_uppercase min_lowercase min_digits min_special : Int) (g : Gen) : GenState :=
  let s : GenState := { char_pool := [], required_chars := [], gen := g }
  let s := addClass use_lowercase
    (if exclude_ambiguous then removeAmbiguous lowercase else lowercase) min_lowercase s
  let s := addClass use_uppercase
    (if exclude_ambiguous then removeAmbiguous uppercase else uppercase) min_uppercase s
  let s := addClass use_digits
    (if exclude_ambiguous then removeAmbiguous digits else digits) min_digits s
  addClass use_special special_chars min_special s

/-- The function `generatePassword` (lines 84-147). -/
def generatePassword (length : Int) (use_uppercase use_lowercase use_digits use_special
    exclude_ambiguous : Bool) (min_uppercase min_lowercase min_digits min_special : Int)
    (g : Gen) : Except Exception (List Char × Gen) :=
  if length < 4 then
    .error (.invalid_argument "Password too short")
  else
    let s := classBlocks use_uppercase use_lowercase use_digits use_special exclude_ambiguous
      min_uppercase min_lowercase min_digits min_special g
    if s.char_pool.isEmpty then
      .error (.invalid_argument "No character types selected")
    else if (s.required_chars.length : Int) > length then
      .error (.invalid_argument "Requirements exceed password length")
    else
      let remaining_length : Int := length - s.required_chars.length
      let d := pushRandomChars s.char_pool remaining_length.toNat s.required_chars s.gen
      .ok (shuffle d.1 d.2)

/-! ## Complexity mapper (main.cpp 452-521) -/

/-- The ten arguments of `generatePassword`, in the order of its parameter list. -/
structure Request where
  length : Int
  use_uppercase : Bool
  use_lowercase : Bool
  use_digits : Bool
  use_special : Bool
  exclude_ambiguous : Bool
  min_uppercase : Int
  min_lowercase : Int
  min_digits : Int
  min_special : Int
deriving DecidableEq, Repr

/-- Calls `generatePassword` with the fields of a request as its arguments. -/
def Request.generate (r : Request) (g : Gen) : Except Exception (List Char × Gen) :=
  generatePassword r.length r.use_uppercase r.use_lowercase r.use_digits r.use_special
    r.exclude_ambiguous r.min_uppercase r.min_lowercase r.min_digits r.min_special g

/-- The if-chain of `generatePasswordByComplexity` (lines 461-516) that sets the locals
passed to `generatePassword`. -/
def complexityParams (complexity : Int) : Request :=
  if complexity ≤ 2 then
    let use_uppercase := decide (complexity ≥ 2)
    let use_digits := decide (complexity ≥ 2)
    { length := 8 + complexity
      use_uppercase := use_uppercase
      use_lowercase := true
      use_digits := use_digits
      use_special := false
      exclude_ambiguous := true
      min_uppercase := if use_uppercase then 1 else 0
      min_lowercase := 2
      min_digits := if use_digits then 1 else 0
      min_special := 0 }
  else if complexity ≤ 4 then
    let use_special := decide (complexity ≥ 4)
    { length := 10 + complexity
      use_uppercase := true
      use_lowercase := true
      use_digits := true
      use_special := use_special
      exclude_ambiguous := decide (complexity ≤ 3)
      min_uppercase := 1
      min_lowercase := 2
      min_digits := 1
      min_special := if use_special then 1 else 0 }
  else if complexity ≤ 6 then
    { length := 12 + complexity
      use_uppercase := true
      use_lowercase := true
      use_digits := true
      use_special := true
      exclude_ambiguous := false
      min_uppercase := 2
      min_lowercase := 2
      min_digits := 2
      min_special := 1 }
  else if complexity ≤ 8 then
    { length := 16 + (complexity - 6) * 2
      use_uppercase := true
      use_lowercase := true
      use_digits := true
      use_special := true
      exclude_ambiguous := false
      min_uppercase := 2
      min_lowercase := 3
      min_digits := 2
      min_special := 2 }
  else
    { length := 20 + (complexity - 8) * 4
      use_uppercase := true
      use_lowercase := true
      use_digits := true
      use_special := true
      exclude_ambiguous := false
      min_uppercase := 3
      min_lowercase := 4
      min_digits := 3
      min_special := 3 }

/-- The function `generatePasswordByComplexity` (lines 452-521). -/
def generatePasswordByComplexity (complexity : Int) (g : Gen) :
    Except Exception (List Char × Gen) :=
  if complexity < 1 ∨ complexity > 10 then
    .error (.invalid_argument "Complexity must be 1-10")
  else
    (complexityParams complexity).generate g

/-! ## Level descriptions (main.cpp 523-539) -/

/-- The map `descriptions` of `getComplexityDescription`. -/
def descriptions : List (Int × String) :=
  [(1, "Very Simple - lowercase only (9 chars)"),
   (2, "Simple - letters and digits (10 chars)"),
   (3, "Basic - letters and digits, no ambiguous (13 chars)"),
   (4, "Medium - all types, no ambiguous (14 chars)"),
   (5, "Good - all character types (17 chars)"),
   (6, "Strong - all types, more requirements (18 chars)"),
   (7, "Very Strong - increased length (18 chars)"),
   (8, "Excellent - high requirements (20 chars)"),
   (9, "Maximum - very long and complex (24 chars)"),
   (10, "Extreme - maximum protection (28 chars)")]

/-- The function `getComplexityDescription`: the entry that `descriptions.find` returns for
the level, or "Unknown level" when there is none. -/
def getComplexityDescription (complexity : Int) : String :=
  match descriptions.lookup complexity with
  | some description => description
  | none => "Unknown level"

/-! ## Word corpus and `getRandomWord` (main.cpp 22-72) -/

def fallback_words : List (List Char) :=
  ["apple", "mountain", "river", "sunset", "forest", "ocean", "thunder",
    "crystal", "dragon", "phoenix", "wizard", "castle", "garden", "rainbow",
    "butterfly", "diamond", "golden", "silver", "storm", "cloud", "moon",
    "star", "fire", "water", "earth", "wind", "light", "shadow", "dream",
    "magic", "knight", "sword", "shield", "crown", "tower", "bridge", "flower",
    "tiger", "eagle", "wolf", "bear", "lion", "shark", "falcon", "panther",
    "ruby", "emerald", "sapphire", "topaz", "pearl", "jade", "amber", "coral",
    "hammer", "blade", "arrow", "spear", "axe", "bow", "staff", "wand",
    "winter", "summer", "spring", "autumn", "frost", "blaze", "mist", "dawn"].map String.toList

/-- Conversion of an `int` to `size_t` (64 bits), as the comparisons of `word.length()`
with an `int` bound apply it to the bound. -/
def toSizeT (i : Int) : Nat :=
  (i % 2 ^ 64).toNat

/-- The function `getRandomWord` (lines 58-72). -/
def getRandomWord (min_length max_length : Int) (g : Gen) : List Char × Gen :=
  let suitable_words := fallback_words.filter (fun word =>
    decide (word.length ≥ toSizeT min_length) && decide (word.length ≤ toSizeT max_length))
  let suitable_words := if suitable_words.isEmpty then fallback_words else suitable_words
  let d := uniformInt 0 ((suitable_words.length : Int) - 1) g
  (suitable_words.getD d.1.toNat [], d.2)

/-! ## Component builder (main.cpp 40-56, 284-450) -/

/-- The enum `Component::Type`. -/
inductive ComponentType where
  | TEXT
  | WORD
  | RANDOM_CHARS
  | NUMBER
  | SEPARATOR
deriving DecidableEq, Repr

/-- The struct `Component`; the `std::map` `config` is the list of its entries, looked up
by key. -/
structure Component where
  type : ComponentType
  value : List Char
  config : List (String × String)
  options : List (List Char)
deriving DecidableEq, Repr

/-- The C-locale `isspace`. -/
def isspace (c : Char) : Bool :=
  c == ' ' || c == '\t' || c == '\n' || c == '\x0b' || c == '\x0c' || c == '\r'

/-- The characters `strtol` looks at for digits: the string after leading white space
and one optional sign. -/
def afterSign (str : String) : List Char :=
  match str.toList.dropWhile isspace with
  | '-' :: t => t
  | '+' :: t => t
  | s => s

/-- Value of a run of decimal digits. -/
def digitsValue (ds : List Char) : Nat :=
  ds.foldl (fun acc d => 10 * acc + (d.toNat - 48)) 0

/-- The call `std::stoi(str)`: `strtol` in base 10 on the leading white space, sign and
digits (what follows the digits is ignored); `std::invalid_argument` when there is no
digit to convert, `std::out_of_range` when the value does not fit an `int`. -/
def stoi (str : String) : Except Exception Int :=
  let negative := (str.toList.dropWhile isspace).head? == some '-'
  let ds := (afterSign str).takeWhile Char.isDigit
  if ds.isEmpty then
    .error (.invalid_argument "stoi")
  else
    let v : Int := if negative then -(digitsValue ds : Int) else (digitsValue ds : Int)
    if v < -2147483648 ∨ v > 2147483647 then .error (.out_of_range "stoi") else .ok v

/-- The pattern `it = config.find(key); if (it != config.end()) x = std::stoi(it->second);`
on a local `x` initialised to `dflt`. -/
def intOption (config : List (String × String)) (key : String) (dflt : Int) :
    Except Exception Int :=
  match config.lookup key with
  | some v => stoi v
  | none => .ok dflt

/-- The pattern `it = config.find(key); if (it != config.end()) x = (it->second == "true");`
on a local `x` initialised to `false`. -/
def boolOption (config : List (String × String)) (key : String) : Bool :=
  match config.lookup key with
  | some v => v == "true"
  | none => false

/-- The assignment `word[0] = std::toupper(word[0])`. -/
def capitalizeFirst : List Char → List Char
  | [] => []
  | c :: t => c.toUpper :: t

/-- The loop `for (char& c : word) c = case_dis(gen) == 0 ? toupper(c) : tolower(c);` with
`case_dis(0, 1)`. -/
def randomCase : List Char → Gen → List Char × Gen
  | [], g => ([], g)
  | c :: t, g =>
    let d := uniformInt 0 1 g
    let r := randomCase t d.2
    ((if d.1 = 0 then c.toUpper else c.toLower) :: r.1, r.2)

/-- The if-chain "Apply transformations" of the WORD case (lines 339-350). -/
def caseTransform (capitalize uppercase lowercase random_case : Bool) (word : List Char)
    (g : Gen) : List Char × Gen :=
  if capitalize && !word.isEmpty then (capitalizeFirst word, g)
  else if uppercase then (word.map Char.toUpper, g)
  else if lowercase then (word.map Char.toLower, g)
  else if random_case then randomCase word g
  else (word, g)

/-- The call `std::replace(word.begin(), word.end(), old, new)`. -/
def replaceChar (old new : Char) (word : List Char) : List Char :=
  word.map (fun c => if c == old then new else c)

/-- The loop `for (pair : replacements) std::replace(..., pair.first, pair.second);` over
the entries of the `std::map<char, char>` in key order. -/
def applyReplacements (replacements : List (Char × Char)) (word : List Char) : List Char :=
  replacements.foldl (fun w pair => replaceChar pair.1 pair.2 w) word

/-- The WORD case (lines 295-359). -/
def wordComponent (config : List (String × String)) (password : List Char) (g : Gen) :
    Except Exception (List Char × Gen) :=
  match intOption config "min_length" 3 with
  | .error e => .error e
  | .ok min_length =>
    match intOption config "max_length" 10 with
    | .error e => .error e
    | .ok max_length =>
      let capitalize := boolOption config "capitalize"
      let uppercase := boolOption config "uppercase"
      let lowercase := boolOption config "lowercase"
      let random_case := boolOption config "random_case"
      let replacements : List (Char × Char) :=
        if boolOption config "replacements" then
          [('a', '4'), ('e', '3'), ('i', '1'), ('o', '0'), ('s', '5')]
        else []
      let w := getRandomWord min_length max_length g
      let t := caseTransform capitalize uppercase lowercase random_case w.1 w.2
      let word := applyReplacements replacements t.1
      .ok (password ++ word, t.2)

/-- The tokens read by `while (std::getline(iss, type, ','))`: the pieces between commas;
a last piece is read only if it is not empty. `cur` is the piece being read. -/
def getlineTokens : List Char → List Char → List (List Char)
  | [], cur => if cur.isEmpty then [] else [cur]
  | c :: rest, cur =>
    if c == ',' then cur :: getlineTokens rest [] else getlineTokens rest (cur ++ [c])

/-- The characters one entry of `types` adds to `char_pool` (lines 383-391). -/
def typePool (type : List Char) : List Char :=
  if type = "lowercase".toList then lowercase
  else if type = "uppercase".toList then uppercase
  else if type = "digits".toList then digits
  else if type = "special".toList then special_chars
  else []

/-- The vector `types` of the RANDOM_CHARS case after the config is read (lines 363,
371-379). -/
def randomCharsTypes (config : List (String × String)) : List (List Char) :=
  match config.lookup "types" with
  | some v => getlineTokens v.toList []
  | none => ["lowercase".toList, "uppercase".toList, "digits".toList]

/-- The RANDOM_CHARS case (lines 361-401). -/
def randomCharsComponent (config : List (String × String)) (password : List Char) (g : Gen) :
    Except Exception (List Char × Gen) :=
  match intOption config "length" 4 with
  | .error e => .error e
  | .ok length =>
    let types := randomCharsTypes config
    let char_pool := types.foldl (fun pool type => pool ++ typePool type) []
    if !char_pool.isEmpty then
      .ok (pushRandomChars char_pool length.toNat password g)
    else .ok (password, g)

/-- The text `oss << number` writes for an `int`. -/
def decimal (number : Int) : List Char :=
  if number < 0 then '-' :: Nat.toDigits 10 number.natAbs else Nat.toDigits 10 number.toNat

/-- The NUMBER case (lines 403-433); `std::setfill('0') << std::setw(padding)` pads the
text on the left up to `padding` characters. -/
def numberComponent (config : List (String × String)) (password : List Char) (g : Gen) :
    Except Exception (List Char × Gen) :=
  match intOption config "min" 0 with
  | .error e => .error e
  | .ok min_val =>
    match intOption config "max" 9999 with
    | .error e => .error e
    | .ok max_val =>
      match intOption config "padding" 0 with
      | .error e => .error e
      | .ok padding =>
        let d := uniformInt min_val max_val g
        let number := d.1
        let text :=
          if padding > 0 then List.leftpad padding.toNat '0' (decimal number)
          else decimal number
        .ok (password ++ text, d.2)

/-- The SEPARATOR case (lines 435-445). -/
def separatorComponent (options : List (List Char)) (password : List Char) (g : Gen) :
    List Char × Gen :=
  let separators : List (List Char) :=
    if !options.isEmpty then options
    else ["-", "_", ".", "!", "@", "#"].map String.toList
  let d := uniformInt 0 ((separators.length : Int) - 1) g
  (password ++ separators.getD d.1.toNat [], d.2)

/-- The body of the loop of `buildCustomPassword`: the `switch` on the component type. -/
def appendComponent (component : Component) (password : List Char) (g : Gen) :
    Except Exception (List Char × Gen) :=
  match component.type with
  | .TEXT => .ok (password ++ component.value, g)
  | .WORD => wordComponent component.config password g
  | .RANDOM_CHARS => randomCharsComponent component.config password g
  | .NUMBER => numberComponent component.config password g
  | .SEPARATOR => .ok (separatorComponent component.options password g)

/-- The loop `for (const auto& component : components)` on the accumulator `password`. -/
def buildLoop : List Component → List Char → Gen → Except Exception (List Char × Gen)
  | [], password, g => .ok (password, g)
  | component :: rest, password, g =>
    match appendComponent component password g with
    | .error e => .error e
    | .ok r => buildLoop rest r.1 r.2

/-- The function `buildCustomPassword` (lines 285-450). -/
def buildCustomPassword (components : List Component) (g : Gen) :
    Except Exception (List Char × Gen) :=
  buildLoop components [] g

/-! ## Passphrase generators (main.cpp 149-282) -/

/-- The first loop of `generateMemorablePassword` (lines 153-159): `n` words are drawn,
capitalised on request, and pushed onto `selected_words`. -/
def selectWords (capitalize : Bool) (word_min_length word_max_length : Int) :
    Nat → List (List Char) → Gen → List (List Char) × Gen
  | 0, selected_words, g => (selected_words, g)
  | n + 1, selected_words, g =>
    let w := getRandomWord word_min_length word_max_length g
    let word := if capitalize && !w.1.isEmpty then capitalizeFirst w.1 else w.1
    selectWords capitalize word_min_length word_max_length n (selected_words ++ [word]) w.2

/-- The joining loop (lines 162-167): each word is appended, followed by the separator
unless it is the last word. -/
def joinWords (separator : List Char) : List (List Char) → List Char → List Char
  | [], password => password
  | [word], password => password ++ word
  | word :: rest, password => joinWords separator rest (password ++ word ++ separator)

/-- The function `generateMemorablePassword` (lines 149-177). -/
def generateMemorablePassword (num_words : Int) (separator : List Char)
    (add_numbers capitalize : Bool) (word_min_length word_max_length : Int) (g : Gen) :
    List Char × Gen :=
  let sel := selectWords capitalize word_min_length word_max_length num_words.toNat [] g
  let password := joinWords separator sel.1 []
  if add_numbers then
    let d := uniformInt 0 999 sel.2
    (password ++ List.leftpad 3 '0' (decimal d.1), d.2)
  else (password, sel.2)

/-- The `switch (transform_type)` of lines 190-207. -/
def caseChoice (transform_type : Int) (word : List Char) : List Char :=
  if transform_type = 0 then capitalizeFirst word
  else if transform_type = 1 then word.map Char.toUpper
  else if transform_type = 2 then word.map Char.toLower
  else if transform_type = 3 then
    (if word.length > 4 then capitalizeFirst word else word.map Char.toUpper)
  else word

/-- The two `std::replace` calls of lines 218-219: the letter and its upper-case form are
both replaced by the digit. -/
def replaceFamily (pair : Char × Char) (word : List Char) : List Char :=
  replaceChar pair.1.toUpper pair.2 (replaceChar pair.1 pair.2 word)

/-- The loop of lines 215-222 over the entries of `replacements` in key order: each entry
draws `chance_dis(0, 1)`; the first entry that draws 0 is applied and ends the loop. -/
def leetLoop : List (Char × Char) → List Char → Gen → List Char × Gen
  | [], word, g => (word, g)
  | pair :: rest, word, g =>
    let d := uniformInt 0 1 g
    if d.1 = 0 then (replaceFamily pair word, d.2) else leetLoop rest word d.2

/-- The map `replacements` of line 211, in key order. -/
def leetTable : List (Char × Char) :=
  [('a', '4'), ('e', '3'), ('i', '1'), ('o', '0'), ('s', '5'), ('t', '7')]

/-- The block `if (transform_words)` of lines 186-224 on one word. -/
def transformWord (word : List Char) (g : Gen) : List Char × Gen :=
  let t := uniformInt 0 3 g
  let word := caseChoice t.1 word
  let r := uniformInt 0 2 t.2
  if r.1 = 0 then leetLoop leetTable word r.2 else (word, r.2)

/-- The first loop of `generateComplexMemorablePassword` (lines 183-227). -/
def complexWords (transform_words : Bool) : Nat → List (List Char) → Gen → List (List Char) × Gen
  | 0, words, g => (words, g)
  | n + 1, words, g =>
    let w := getRandomWord 4 8 g
    let t := if transform_words then transformWord w.1 w.2 else w
    complexWords transform_words n (words ++ [t.1]) t.2

/-- The vector `separators` of line 229. -/
def complexSeparators : List (List Char) :=
  ["", "-", "_", ".", "!", "@", "#"].map String.toList

/-- The choice of one separator (lines 235-247). -/
def chooseSeparator (add_special_chars : Bool) (g : Gen) : List Char × Gen :=
  if add_special_chars then
    let c := uniformInt 0 1 g
    if c.1 = 0 then
      let d := uniformInt 3 ((complexSeparators.length : Int) - 1) c.2
      (complexSeparators.getD d.1.toNat [], d.2)
    else
      let d := uniformInt 0 2 c.2
      (complexSeparators.getD d.1.toNat [], d.2)
  else
    let d := uniformInt 0 ((complexSeparators.length : Int) - 1) g
    (complexSeparators.getD d.1.toNat [], d.2)

/-- The joining loop of lines 232-249: each word is appended, followed by a chosen
separator unless it is the last word. -/
def joinComplex (add_special_chars : Bool) : List (List Char) → List Char → Gen → List Char × Gen
  | [], password, g => (password, g)
  | [word], password, g => (password ++ word, g)
  | word :: rest, password, g =>
    let s := chooseSeparator add_special_chars g
    joinComplex add_special_chars rest (password ++ word ++ s.1) s.2

/-- The block `if (add_numbers)` of lines 251-269: a position among start, middle, end is
drawn, then a number in 0..9999 written with `std::setfill('0') << std::setw(2)`. -/
def insertNumber (add_numbers : Bool) (password : List Char) (g : Gen) : List Char × Gen :=
  if add_numbers then
    let p := uniformInt 0 2 g
    let d := uniformInt 0 9999 p.2
    let number := List.leftpad 2 '0' (decimal d.1)
    if p.1 = 0 then (number ++ password, d.2)
    else if p.1 = 2 then (password ++ number, d.2)
    else
      let mid := password.length / 2
      (password.take mid ++ number ++ password.drop mid, d.2)
  else (password, g)

/-- The string `special_chars_subset` of line 272. -/
def special_chars_subset : List Char := "!@#$%^&*".toList

/-- The loop `while (password.length() < min_length && add_special_chars)` of lines
271-279, run for at most `fuel` iterations: `none` when the loop has not ended by then.
The comparison converts `min_length` to `size_t`. -/
def padLoop (add_special_chars : Bool) (min_length : Int) :
    Nat → List Char → Gen → Option (List Char × Gen)
  | 0, password, g =>
    if password.length < toSizeT min_length ∧ add_special_chars = true then none
    else some (password, g)
  | fuel + 1, password, g =>
    if password.length < toSizeT min_length ∧ add_special_chars = true then
      let c := uniformInt 0 ((special_chars_subset.length : Int) - 1) g
      let special_char := special_chars_subset.getD c.1.toNat ' '
      let p := uniformInt 0 (password.length : Int) c.2
      let position := p.1.toNat
      padLoop add_special_chars min_length fuel
        (password.take position ++ [special_char] ++ password.drop position) p.2
    else some (password, g)

/-- The string `generateComplexMemorablePassword` has assembled when it reaches the
padding loop (lines 182-269). -/
def assembleComplex (num_words : Int) (add_special_chars add_numbers transform_words : Bool)
    (g : Gen) : List Char × Gen :=
  let w := complexWords transform_words num_words.toNat [] g
  let j := joinComplex add_special_chars w.1 [] w.2
  insertNumber add_numbers j.1 j.2

/-- The function `generateComplexMemorablePassword` (lines 179-282), its padding loop run
for at most `fuel` iterations. -/
def generateComplexMemorablePassword (num_words : Int)
    (add_special_chars add_numbers transform_words : Bool) (min_length : Int)
    (fuel : Nat) (g : Gen) : Option (List Char × Gen) :=
  let s := assembleComplex num_words add_special_chars add_numbers transform_words g
  padLoop add_special_chars min_length fuel s.1 s.2

/-! ## Strength analyser (main.cpp 541-642) -/

/-- The struct `PasswordAnalysis`. -/
structure PasswordAnalysis where
  score : Int
  strength : String
  feedback : List String
  length : Int
  has_lowercase : Bool
  has_uppercase : Bool
  has_digits : Bool
  has_special : Bool
  unique_chars : Int
deriving DecidableEq, Repr

/-- The test `s.find(sub) != std::string::npos`: `sub` occurs in `s` as a contiguous run. -/
def contains (s sub : List Char) : Bool :=
  s.tails.any (fun t => sub.isPrefixOf t)

/-- Number of low-order bits of `p` beyond a 53-bit significand (`fuel` bounds the
halvings; `p` itself is always enough). -/
def excessBits : Nat → Nat → Nat
  | 0, _ => 0
  | fuel + 1, p => if p < 2 ^ 53 then 0 else excessBits fuel (p / 2) + 1

/-- Rounding of a natural number to the nearest value with a 53-bit significand, ties to
even: the IEEE-754 binary64 rounding that conversions to `double` and `double`
products apply. -/
def roundBinary64 (p : Nat) : Nat :=
  let s := excessBits p p
  let q := p / 2 ^ s
  let rem := p % 2 ^ s
  if 2 * rem < 2 ^ s ∨ (2 * rem = 2 ^ s ∧ q % 2 = 0) then q * 2 ^ s else (q + 1) * 2 ^ s

/-- The `double` literal `0.8` is `7205759403792794 / 2^53`. -/
def significand08 : Nat := 7205759403792794

/-- The `double` literal `0.6` is `5404319552844595 / 2^53`. -/
def significand06 : Nat := 5404319552844595

/-- The comparison `u >= n * c` of an `int` `u` with the `double` product of a `size_t` `n`
and the `double` constant `c = m / 2^53`: both integers are converted to `double`, the
product is rounded once, and both sides are compared after scaling by `2^53`. -/
def geTimes (u n m : Nat) : Bool :=
  decide (roundBinary64 (roundBinary64 n * m) ≤ roundBinary64 u * 2 ^ 53)

/-- The four regular expressions of `patterns`: the back-reference pattern `(.)\1{2,}`
and three alternations of literal triples. -/
inductive Pattern where
  | repeated
  | anyOf (alternatives : List (List Char))
deriving DecidableEq, Repr

/-- A match of `(.)\1{2,}` somewhere in `s`: three equal characters in a row, the
character being one that `.` matches (any but line feed and carriage return). -/
def hasRepeat : List Char → Bool
  | [] => false
  | a :: t =>
    (match t with
      | b :: c :: _ => a != '\n' && a != '\r' && a == b && a == c
      | _ => false) || hasRepeat t

/-- The call `std::regex_search(s, pattern)`. -/
def regex_search (s : List Char) : Pattern → Bool
  | .repeated => hasRepeat s
  | .anyOf alternatives => alternatives.any (fun a => contains s a)

def patterns : List Pattern :=
  [ .repeated,
    .anyOf (["012", "123", "234", "345", "456", "567", "678", "789", "890"].map String.toList),
    .anyOf (["abc", "bcd", "cde", "def", "efg", "fgh", "ghi", "hij", "ijk", "jkl", "klm",
      "lmn", "mno", "nop", "opq", "pqr", "qrs", "rst", "stu", "tuv", "uvw", "vwx", "wxy",
      "xyz"].map String.toList),
    .anyOf (["qwe", "wer", "ert", "rty", "tyu", "yui", "uio", "iop", "asd", "sdf", "dfg",
      "fgh", "ghj", "hjk", "jkl", "zxc", "xcv", "cvb", "vbn", "bnm"].map String.toList) ]

def common_passwords : List (List Char) :=
  ["password", "123456", "qwerty", "admin", "login", "welcome"].map String.toList

/-- Conversion of a `size_t` to `int` (two's complement, 32 bits). -/
def toInt32 (n : Nat) : Int :=
  ((n : Int) + 2 ^ 31) % 2 ^ 32 - 2 ^ 31

/-- Lines 558-566: the length bonus, or the advice "Too short". -/
def lengthStep (password : List Char) (analysis : PasswordAnalysis) : PasswordAnalysis :=
  if password.length ≥ 16 then { analysis with score := analysis.score + 3 }
  else if password.length ≥ 12 then { analysis with score := analysis.score + 2 }
  else if password.length ≥ 8 then { analysis with score := analysis.score + 1 }
  else { analysis with feedback := analysis.feedback ++ ["Too short"] }

/-- Lines 568-580: the four presence flags (`islower`, `isupper`, `isdigit` of the C
locale, and membership in `special_chars`), and one point per class present. -/
def classStep (password : List Char) (analysis : PasswordAnalysis) : PasswordAnalysis :=
  let analysis :=
    { analysis with
      has_lowercase := password.any Char.isLower
      has_uppercase := password.any Char.isUpper
      has_digits := password.any Char.isDigit
      has_special := password.any (fun c => special_chars.contains c) }
  let char_types : Int := (analysis.has_lowercase.toNat + analysis.has_uppercase.toNat
    + analysis.has_digits.toNat + analysis.has_special.toNat : Nat)
  let analysis := { analysis with score := analysis.score + char_types }
  if char_types < 3 then
    { analysis with feedback := analysis.feedback ++ ["Use different character types"] }
  else analysis

/-- Lines 582-591: the number of distinct characters (the size of the `std::set<char>`)
and the uniqueness bonus. -/
def uniqueStep (password : List Char) (analysis : PasswordAnalysis) : PasswordAnalysis :=
  let analysis := { analysis with unique_chars := (password.dedup.length : Nat) }
  if geTimes analysis.unique_chars.toNat password.length significand08 then
    { analysis with score := analysis.score + 2 }
  else if geTimes analysis.unique_chars.toNat password.length significand06 then
    { analysis with score := analysis.score + 1 }
  else { analysis with feedback := analysis.feedback ++ ["Too many repeated characters"] }

/-- Lines 593-614: the search for a simple sequence in the lower-cased password (the
loop stops at the first pattern that matches). -/
def patternStep (password : List Char) (analysis : PasswordAnalysis) : PasswordAnalysis :=
  let lower_password := password.map Char.toLower
  let pattern_found := patterns.any (fun pattern => regex_search lower_password pattern)
  if pattern_found then
    { analysis with
      score := analysis.score - 2
      feedback := analysis.feedback ++ ["Avoid simple sequences"] }
  else analysis

/-- Lines 616-623: the blocklist loop, which stops at the first common password found. -/
def commonStep (password : List Char) (analysis : PasswordAnalysis) : PasswordAnalysis :=
  let lower_password := password.map Char.toLower
  if common_passwords.any (fun common => contains lower_password common) then
    { analysis with
      score := analysis.score - 3
      feedback := analysis.feedback ++ ["Avoid common passwords"] }
  else analysis

/-- Lines 625-639: the clamp of the score at 0 and the label. -/
def labelStep (analysis : PasswordAnalysis) : PasswordAnalysis :=
  let analysis := { analysis with score := max 0 analysis.score }
  { analysis with
    strength :=
      if analysis.score ≥ 10 then "Excellent"
      else if analysis.score ≥ 8 then "Very Strong"
      else if analysis.score ≥ 6 then "Strong"
      else if analysis.score ≥ 4 then "Medium"
      else if analysis.score ≥ 2 then "Weak"
      else "Very Weak" }

/-- The function `checkPasswordStrength` (lines 553-642): the blocks of the function body in order,
from the freshly declared `analysis`. -/
def checkPasswordStrength (password : List Char) : PasswordAnalysis :=
  let analysis : PasswordAnalysis :=
    { score := 0, strength := "", feedback := [], length := toInt32 password.length,
      has_lowercase := false, has_uppercase := false, has_digits := false,
      has_special := false, unique_chars := 0 }
  labelStep (commonStep password (patternStep password (uniqueStep password
    (classStep password (lengthStep password analysis)))))

/-! ## Statement vocabulary for the analyser -/

/-- Length bonus: 3 from 16 characters, 2 from 12, 1 from 8, else 0. -/
def lengthBonus (n : Nat) : Int :=
  if 16 ≤ n then 3 else if 12 ≤ n then 2 else if 8 ≤ n then 1 else 0

/-- Number of character classes present in a password. -/
def classCount (password : List Char) : Int :=
  (if password.any Char.isLower then 1 else 0)
    + (if password.any Char.isUpper then 1 else 0)
    + (if password.any Char.isDigit then 1 else 0)
    + (if password.any (fun c => special_chars.contains c) then 1 else 0)

/-- Uniqueness bonus: 2, 1 or 0 by the two comparisons of the number of distinct
characters with `length * 0.8` and `length * 0.6`. -/
def uniquenessBonus (password : List Char) : Int :=
  if geTimes password.dedup.length password.length significand08 then 2
  else if geTimes password.dedup.length password.length significand06 then 1
  else 0

/-- 1 if one of the simple-sequence patterns is found in the lower-cased password. -/
def patternPenalty (password : List Char) : Int :=
  if patterns.any (fun pattern => regex_search (password.map Char.toLower) pattern) then 1
  else 0

/-- 1 if a blocklisted common password occurs in the lower-cased password. -/
def blocklistPenalty (password : List Char) : Int :=
  if common_passwords.any (fun common => contains (password.map Char.toLower) common) then 1
  else 0

/-- The label that goes with a final score. -/
def strengthLabel (score : Int) : String :=
  if 10 ≤ score then "Excellent"
  else if 8 ≤ score then "Very Strong"
  else if 6 ≤ score then "Strong"
  else if 4 ≤ score then "Medium"
  else if 2 ≤ score then "Weak"
  else "Very Weak"

/-- The string `sub` occurs in `s` as a substring. -/
def Occurs (sub s : List Char) : Prop :=
  ∃ front back : List Char, s = front ++ sub ++ back

/-- The lower-cased password contains one of the blocklisted common passwords. -/
def Blocklisted (password : List Char) : Prop :=
  ∃ w ∈ common_passwords, Occurs w (password.map Char.toLower)

/-! ## Statement vocabulary for the builder -/

/-- The substitution of a, e, i, o, s by 4, 3, 1, 0, 5 on one character. -/
def leetChar (c : Char) : Char :=
  if c = 'a' then '4' else if c = 'e' then '3' else if c = 'i' then '1'
  else if c = 'o' then '0' else if c = 's' then '5' else c

/-- The numeric options each component type reads with `std::stoi`. -/
def numericKeys : ComponentType → List String
  | .WORD => ["min_length", "max_length"]
  | .RANDOM_CHARS => ["length"]
  | .NUMBER => ["min", "max", "padding"]
  | _ => []

/-- An integer can be read at the start of the string: after optional white space and an
optional sign comes a decimal digit. -/
def startsWithInteger (v : String) : Bool :=
  match afterSign v with
  | d :: _ => d.isDigit
  | [] => false

/-- A well-formed integer string: an optional sign followed by one or more decimal
digits, and nothing else. -/
def isIntegerLiteral (v : String) : Bool :=
  match v.toList with
  | '-' :: t => !t.isEmpty && t.all Char.isDigit
  | '+' :: t => !t.isEmpty && t.all Char.isDigit
  | t => !t.isEmpty && t.all Char.isDigit

/-- The integer a well-formed integer string denotes. -/
def literalValue (v : String) : Int :=
  match v.toList with
  | '-' :: t => -(digitsValue t : Int)
  | '+' :: t => (digitsValue t : Int)
  | t => (digitsValue t : Int)

/-- The value denoted by a numeric option, or the default when the option is absent. -/
def optionValue (config : List (String × String)) (key : String) (dflt : Int) : Int :=
  match config.lookup key with
  | some v => literalValue v
  | none => dflt

/-- One of the numeric options the component reads has a value `std::stoi` cannot turn into
an `int`: no integer can be read at its start (as in "abc"), or it is a well-formed
integer string whose value lies outside the range of `int`. -/
def HasUnreadableOption (c : Component) : Prop :=
  ∃ key ∈ numericKeys c.type, ∃ v, c.config.lookup key = some v
    ∧ (startsWithInteger v = false
      ∨ (isIntegerLiteral v = true
        ∧ (literalValue v < -2147483648 ∨ 2147483647 < literalValue v)))

/-- Every numeric option the component reads, when present, is a well-formed integer
string whose value fits an `int`. -/
def AllOptionsReadable (c : Component) : Prop :=
  ∀ key ∈ numericKeys c.type, ∀ v, c.config.lookup key = some v →
    isIntegerLiteral v = true ∧ -2147483648 ≤ literalValue v ∧ literalValue v ≤ 2147483647

/-! ## Statement vocabulary for the simple sequences -/

/-- The runs of three consecutive characters of a string, in order. -/
def windows3 : List Char → List (List Char)
  | [] => []
  | a :: t =>
    (match t with
      | b :: c :: _ => [[a, b, c]]
      | _ => []) ++ windows3 t

/-- The nine digit runs 012, 123, ..., 789, 890. -/
def digitRuns : List (List Char) :=
  ["012", "123", "234", "345", "456", "567", "678", "789", "890"].map String.toList

/-- The three letter rows of a keyboard. -/
def keyboardRows : List (List Char) :=
  ["qwertyuiop", "asdfghjkl", "zxcvbnm"].map String.toList

/-- The literal triples: the digit runs, three consecutive letters of the alphabet, three
adjacent keys of a keyboard row. -/
def literalRuns : List (List Char) :=
  digitRuns ++ windows3 lowercase ++ (keyboardRows.map windows3).flatten

/-- Three identical characters in a row somewhere in `s`, or one of the literal triples. -/
def SimpleSequence (s : List Char) : Prop :=
  (∃ c : Char, Occurs [c, c, c] s) ∨ ∃ r ∈ literalRuns, Occurs r s

/-- Three identical characters in a row, other than line feeds or carriage returns,
somewhere in `s`, or one of the literal triples. -/
def PrintableSequence (s : List Char) : Prop :=
  (∃ c : Char, c ≠ '\n' ∧ c ≠ '\r' ∧ Occurs [c, c, c] s) ∨ ∃ r ∈ literalRuns, Occurs r s

/-! ## Statement vocabulary for the passphrases -/

/-- The replacement of a letter, in both cases, by its digit on one character. -/
def substitute (pair : Char × Char) (c : Char) : Char :=
  if c = pair.1 ∨ c = pair.1.toUpper then pair.2 else c

/-- A word as `generateMemorablePassword` places it: the corpus word, its first letter
upper-cased when `capitalize` is set. -/
def placedWord (capitalize : Bool) (u : List Char) : List Char :=
  if capitalize then capitalizeFirst u else u

/-- The joined word string of `generateComplexMemorablePassword` (lines 182-249), before
the numeric token and the padding. -/
def joinedWords (num_words : Int) (add_special_chars transform_words : Bool) (g : Gen) :
    List Char × Gen :=
  let w := complexWords transform_words num_words.toNat [] g
  joinComplex add_special_chars w.1 [] w.2

/-! ## Statement vocabulary for the level descriptions and the separators -/

/-- The character count a description states: the number written between "(" and
" chars)", if the description has that form. -/
def statedChars (description : String) : Option Nat :=
  let after := (description.toList.dropWhile (fun c => c != '(')).drop 1
  let ds := after.takeWhile Char.isDigit
  if !ds.isEmpty && after.drop ds.length == " chars)".toList then some (digitsValue ds)
  else none

/-- The description says "no ambiguous". -/
def saysNoAmbiguous (description : String) : Bool :=
  contains description.toList "no ambiguous".toList

/-- The punctuation-style separators. -/
def punctuationSeparators : List (List Char) :=
  [".", "!", "@", "#"].map String.toList

/-- The separators nothing, "-" and "_". -/
def plainSeparators : List (List Char) :=
  ["", "-", "_"].map String.toList

/-- Share of the outcomes `0, ..., outcomes - 1` of the group-selection draw of a gap for
which a punctuation-style separator is placed, the rest of the random source being `g`. -/
def punctuationShare (outcomes : Nat) (g : Gen) : ℚ :=
  ((List.range outcomes).countP
      (fun c => punctuationSeparators.contains (chooseSeparator true (c :: g)).1) : ℚ)
    / (outcomes : ℚ)

/-! ## Statement vocabulary for the generator -/

/-- The usable pool of a class: the class set, minus the ambiguous set when exclusion is
requested. -/
def usablePool (cls : List Char) (exclude_ambiguous : Bool) : List Char :=
  if exclude_ambiguous then removeAmbiguous cls else cls

/-- Number of characters of `s` that belong to `pool`. -/
def countIn (pool s : List Char) : Nat :=
  s.countP (fun c => pool.contains c)

/-- Number of required characters the four class blocks draw: the minimums of the enabled
classes, a negative minimum counting as zero (its loop body never runs). -/
def Request.requiredCount (r : Request) : Nat :=
  (if r.use_lowercase then r.min_lowercase.toNat else 0)
    + (if r.use_uppercase then r.min_uppercase.toNat else 0)
    + (if r.use_digits then r.min_digits.toNat else 0)
    + (if r.use_special then r.min_special.toNat else 0)

/-- A request that `generatePassword` accepts: length at least 4, at least one class
enabled, and the minimums of the enabled classes summing to at most the length. -/
def Request.Accepted (r : Request) : Prop :=
  4 ≤ r.length
    ∧ (r.use_uppercase || r.use_lowercase || r.use_digits || r.use_special) = true
    ∧ (r.requiredCount : Int) ≤ r.length

instance (r : Request) : Decidable r.Accepted := by
  unfold Request.Accepted; infer_instance

/-- The sum of the minimums of the enabled classes, as written in the request. -/
def Request.enabledMinimums (r : Request) : Int :=
  (if r.use_lowercase then r.min_lowercase else 0)
    + (if r.use_uppercase then r.min_uppercase else 0)
    + (if r.use_digits then r.min_digits else 0)
    + (if r.use_special then r.min_special else 0)

/-- The password length of a complexity level, by the bands of the level table. -/
def levelLength (level : Int) : Int :=
  if level ≤ 2 then 8 + level
  else if level ≤ 4 then 10 + level
  else if level ≤ 6 then 12 + level
  else if level ≤ 8 then 16 + 2 * (level - 6)
  else 20 + 4 * (level - 8)

/-- The union pool `char_pool` that the class blocks build for a request. -/
def Request.charPool (r : Request) : List Char :=
  (if r.use_lowercase then usablePool lowercase r.exclude_ambiguous else [])
    ++ (if r.use_uppercase then usablePool uppercase r.exclude_ambiguous else [])
    ++ (if r.use_digits then usablePool digits r.exclude_ambiguous else [])
    ++ (if r.use_special then special_chars else [])

/-! ## Lemmas on the random source and the shuffle -/

theorem uniformInt_index_lt (n : Nat) (hn : 0 < n) (g : Gen) :
    (uniformInt 0 ((n : Int) - 1) g).1.toNat < n := by
  have hpos : (0 : Int) < n := by exact_mod_cast hn
  have hlt := Int.emod_lt_of_pos ((g.headD 0 : Nat) : Int) hpos
  have hge := Int.emod_nonneg ((g.headD 0 : Nat) : Int) (ne_of_gt hpos)
  have hw : (n : Int) - 1 - 0 + 1 = n := by ring
  simp only [uniformInt, hw]
  omega

theorem uniformInt_index_le (i : Nat) (g : Gen) :
    (uniformInt 0 (i : Int) g).1.toNat ≤ i := by
  have h := uniformInt_index_lt (i + 1) (Nat.succ_pos i) g
  have hw : ((i + 1 : Nat) : Int) - 1 = (i : Int) := by push_cast; ring
  rw [hw] at h
  omega

theorem swapAt_length (v : List Char) (i j : Nat) : (swapAt v i j).length = v.length := by
  simp [swapAt]

theorem swapAt_perm (v : List Char) (i j : Nat) (hi : i < v.length) (hj : j < v.length) :
    (swapAt v i j).Perm v := by
  rw [List.perm_iff_count]
  intro b
  have hj' : j < (v.set i (v.getD j ' ')).length := by simpa using hj
  have hci : (if (v[i] == b) = true then 1 else 0) ≤ List.count b v := by
    split
    · rename_i h
      have hb : v[i] = b := by simpa using h
      exact List.count_pos_iff.mpr (hb ▸ List.getElem_mem hi)
    · exact Nat.zero_le _
  have hget : (v.set i (v.getD j ' '))[j] = v[j] := by
    rw [List.getElem_set]
    split
    · rename_i h
      subst h
      simp [List.getD_eq_getElem, hi]
    · rfl
  unfold swapAt
  rw [List.count_set _ _ _ _ hj', List.count_set _ _ _ _ hi, hget]
  simp only [List.getD_eq_getElem _ _ hi, List.getD_eq_getElem _ _ hj]
  omega

theorem shuffleLoop_perm (steps : Nat) : ∀ (i : Nat) (v : List Char) (g : Gen),
    i + steps ≤ v.length → (shuffleLoop steps i v g).1.Perm v := by
  induction steps with
  | zero => intro i v g _; exact List.Perm.refl v
  | succ n ih =>
    intro i v g h
    have hj := uniformInt_index_le i g
    have hsw := swapAt_perm v i (uniformInt 0 (i : Int) g).1.toNat (by omega) (by omega)
    have hlen := swapAt_length v i (uniformInt 0 (i : Int) g).1.toNat
    simp only [shuffleLoop]
    exact (ih (i + 1) _ _ (by omega)).trans hsw

/-- The shuffle returns a permutation of its input, whatever the engine yields. -/
theorem shuffle_perm (v : List Char) (g : Gen) : (shuffle v g).1.Perm v := by
  unfold shuffle
  cases v with
  | nil => exact List.Perm.refl _
  | cons a t => exact shuffleLoop_perm _ _ _ _ (by simp; omega)

/-! ## Lemmas on the class blocks -/

/-- The drawing loop appends exactly `n` characters, all taken from `chars`. -/
theorem pushRandomChars_spec (chars : List Char) (hne : chars ≠ []) (n : Nat) :
    ∀ (out : List Char) (g : Gen), ∃ drawn : List Char,
      (pushRandomChars chars n out g).1 = out ++ drawn ∧ drawn.length = n
        ∧ ∀ c ∈ drawn, c ∈ chars := by
  induction n with
  | zero => intro out g; exact ⟨[], by simp [pushRandomChars]⟩
  | succ k ih =>
    intro out g
    have hpos : 0 < chars.length := List.length_pos.mpr hne
    have hlt := uniformInt_index_lt chars.length hpos g
    obtain ⟨rest, h1, h2, h3⟩ := ih
      (out ++ [chars.getD (uniformInt 0 ((chars.length : Int) - 1) g).1.toNat ' '])
      (uniformInt 0 ((chars.length : Int) - 1) g).2
    refine ⟨chars.getD (uniformInt 0 ((chars.length : Int) - 1) g).1.toNat ' ' :: rest, ?_, ?_, ?_⟩
    · simp only [pushRandomChars]
      rw [h1]
      simp
    · simp [h2]
    · intro c hc
      rcases List.mem_cons.mp hc with hc | hc
      · rw [hc, List.getD_eq_getElem _ _ hlt]
        exact List.getElem_mem hlt
      · exact h3 c hc

theorem addClass_spec (use : Bool) (chars : List Char) (hne : chars ≠ []) (minimum : Int)
    (s : GenState) : ∃ drawn : List Char,
      (addClass use chars minimum s).required_chars = s.required_chars ++ drawn
        ∧ drawn.length = (if use then minimum.toNat else 0)
        ∧ (∀ c ∈ drawn, c ∈ chars)
        ∧ (addClass use chars minimum s).char_pool
            = s.char_pool ++ (if use then chars else []) := by
  cases use with
  | false => exact ⟨[], by simp [addClass]⟩
  | true =>
    obtain ⟨drawn, h1, h2, h3⟩ :=
      pushRandomChars_spec chars hne minimum.toNat s.required_chars s.gen
    exact ⟨drawn, by simp [addClass, h1], by simp [h2], h3, by simp [addClass]⟩

theorem usablePool_ne_nil_lowercase (e : Bool) : usablePool lowercase e ≠ [] := by
  cases e <;> decide

theorem usablePool_ne_nil_uppercase (e : Bool) : usablePool uppercase e ≠ [] := by
  cases e <;> decide

theorem usablePool_ne_nil_digits (e : Bool) : usablePool digits e ≠ [] := by
  cases e <;> decide

/-- The special class holds no ambiguous character, so its pool is the same with or
without exclusion. -/
theorem usablePool_special (e : Bool) : usablePool special_chars e = special_chars := by
  cases e <;> decide

/-- What the four class blocks leave behind: the required characters are four runs, one
per class, each of the class's minimum length and drawn from the class's usable pool. -/
theorem classBlocks_spec (r : Request) (g : Gen) :
    ∃ dl du dd ds : List Char,
      (classBlocks r.use_uppercase r.use_lowercase r.use_digits r.use_special
          r.exclude_ambiguous r.min_uppercase r.min_lowercase r.min_digits r.min_special
          g).required_chars = dl ++ du ++ dd ++ ds
        ∧ (classBlocks r.use_uppercase r.use_lowercase r.use_digits r.use_special
          r.exclude_ambiguous r.min_uppercase r.min_lowercase r.min_digits r.min_special
          g).char_pool = r.charPool
        ∧ dl.length = (if r.use_lowercase then r.min_lowercase.toNat else 0)
        ∧ du.length = (if r.use_uppercase then r.min_uppercase.toNat else 0)
        ∧ dd.length = (if r.use_digits then r.min_digits.toNat else 0)
        ∧ ds.length = (if r.use_special then r.min_special.toNat else 0)
        ∧ (∀ c ∈ dl, c ∈ usablePool lowercase r.exclude_ambiguous)
        ∧ (∀ c ∈ du, c ∈ usablePool uppercase r.exclude_ambiguous)
        ∧ (∀ c ∈ dd, c ∈ usablePool digits r.exclude_ambiguous)
        ∧ (∀ c ∈ ds, c ∈ special_chars) := by
  obtain ⟨dl, a1, a2, a3, a4⟩ := addClass_spec r.use_lowercase
    (usablePool lowercase r.exclude_ambiguous) (usablePool_ne_nil_lowercase _) r.min_lowercase
    { char_pool := [], required_chars := [], gen := g }
  obtain ⟨du, b1, b2, b3, b4⟩ := addClass_spec r.use_uppercase
    (usablePool uppercase r.exclude_ambiguous) (usablePool_ne_nil_uppercase _) r.min_uppercase
    (addClass r.use_lowercase (usablePool lowercase r.exclude_ambiguous) r.min_lowercase
      { char_pool := [], required_chars := [], gen := g })
  obtain ⟨dd, c1, c2, c3, c4⟩ := addClass_spec r.use_digits
    (usablePool digits r.exclude_ambiguous) (usablePool_ne_nil_digits _) r.min_digits
    (addClass r.use_uppercase (usablePool uppercase r.exclude_ambiguous) r.min_uppercase
      (addClass r.use_lowercase (usablePool lowercase r.exclude_ambiguous) r.min_lowercase
        { char_pool := [], required_chars := [], gen := g }))
  obtain ⟨ds, d1, d2, d3, d4⟩ := addClass_spec r.use_special special_chars (by decide)
    r.min_special
    (addClass r.use_digits (usablePool digits r.exclude_ambiguous) r.min_digits
      (addClass r.use_uppercase (usablePool uppercase r.exclude_ambiguous) r.min_uppercase
        (addClass r.use_lowercase (usablePool lowercase r.exclude_ambiguous) r.min_lowercase
          { char_pool := [], required_chars := [], gen := g })))
  have hcb : classBlocks r.use_uppercase r.use_lowercase r.use_digits r.use_special
      r.exclude_ambiguous r.min_uppercase r.min_lowercase r.min_digits r.min_special g
      = addClass r.use_special special_chars r.min_special
        (addClass r.use_digits (usablePool digits r.exclude_ambiguous) r.min_digits
          (addClass r.use_uppercase (usablePool uppercase r.exclude_ambiguous) r.min_uppercase
            (addClass r.use_lowercase (usablePool lowercase r.exclude_ambiguous)
              r.min_lowercase { char_pool := [], required_chars := [], gen := g }))) := rfl
  refine ⟨dl, du, dd, ds, ?_, ?_, a2, b2, c2, d2, a3, b3, c3, d3⟩
  · rw [hcb, d1, c1, b1, a1]
    simp
  · rw [hcb, d4, c4, b4, a4]
    simp [Request.charPool]

theorem requiredCount_eq (r : Request) (g : Gen) :
    (classBlocks r.use_uppercase r.use_lowercase r.use_digits r.use_special
      r.exclude_ambiguous r.min_uppercase r.min_lowercase r.min_digits r.min_special
      g).required_chars.length = r.requiredCount := by
  obtain ⟨dl, du, dd, ds, h, -, h1, h2, h3, h4, -⟩ := classBlocks_spec r g
  rw [h]
  simp only [List.length_append, h1, h2, h3, h4, Request.requiredCount]

theorem charPool_isEmpty (r : Request) :
    r.charPool.isEmpty
      = !(r.use_uppercase || r.use_lowercase || r.use_digits || r.use_special) := by
  rcases r with ⟨len, uu, ul, ud, us, ex, mu, ml, md, ms⟩
  have hl := usablePool_ne_nil_lowercase ex
  have hu := usablePool_ne_nil_uppercase ex
  have hd := usablePool_ne_nil_digits ex
  have hs : special_chars ≠ [] := by decide
  cases uu <;> cases ul <;> cases ud <;> cases us <;>
    simp [Request.charPool, List.isEmpty_iff, hl, hu, hd, hs]

/-! ## The four outcomes of `generatePassword` -/

theorem generate_too_short (r : Request) (g : Gen) (h : r.length < 4) :
    r.generate g = .error (.invalid_argument "Password too short") := by
  simp [Request.generate, generatePassword, h]

theorem generate_no_class (r : Request) (g : Gen) (h : 4 ≤ r.length)
    (hc : (r.use_uppercase || r.use_lowercase || r.use_digits || r.use_special) = false) :
    r.generate g = .error (.invalid_argument "No character types selected") := by
  have hp := (classBlocks_spec r g).choose_spec.choose_spec.choose_spec.choose_spec.2.1
  have he := charPool_isEmpty r
  rw [hc] at he
  simp only [Request.generate, generatePassword, if_neg (not_lt.mpr h), hp, he]
  rfl

theorem generate_exceed (r : Request) (g : Gen) (h : 4 ≤ r.length)
    (hc : (r.use_uppercase || r.use_lowercase || r.use_digits || r.use_special) = true)
    (hx : r.length < (r.requiredCount : Int)) :
    r.generate g = .error (.invalid_argument "Requirements exceed password length") := by
  have hp := (classBlocks_spec r g).choose_spec.choose_spec.choose_spec.choose_spec.2.1
  have he := charPool_isEmpty r
  rw [hc] at he
  have hq := requiredCount_eq r g
  simp only [Request.generate, generatePassword, if_neg (not_lt.mpr h), hp, he, hq]
  simp [hx]

/-- An accepted request yields the shuffle of the four required runs followed by the
filler, the filler being drawn from the union pool. -/
theorem generate_accepted (r : Request) (g : Gen) (h : r.Accepted) :
    ∃ (dl du dd ds filler : List Char) (g1 : Gen),
      r.generate g = .ok (shuffle (dl ++ du ++ dd ++ ds ++ filler) g1)
        ∧ ((dl ++ du ++ dd ++ ds ++ filler).length : Int) = r.length
        ∧ dl.length = (if r.use_lowercase then r.min_lowercase.toNat else 0)
        ∧ du.length = (if r.use_uppercase then r.min_uppercase.toNat else 0)
        ∧ dd.length = (if r.use_digits then r.min_digits.toNat else 0)
        ∧ ds.length = (if r.use_special then r.min_special.toNat else 0)
        ∧ (∀ c ∈ dl, c ∈ usablePool lowercase r.exclude_ambiguous)
        ∧ (∀ c ∈ du, c ∈ usablePool uppercase r.exclude_ambiguous)
        ∧ (∀ c ∈ dd, c ∈ usablePool digits r.exclude_ambiguous)
        ∧ (∀ c ∈ ds, c ∈ special_chars)
        ∧ (∀ c ∈ filler, c ∈ r.charPool) := by
  obtain ⟨h4, hc, hx⟩ := h
  obtain ⟨dl, du, dd, ds, hreq, hp, l1, l2, l3, l4, m1, m2, m3, m4⟩ := classBlocks_spec r g
  have he := charPool_isEmpty r
  rw [hc] at he
  have hq := requiredCount_eq r g
  have hne : r.charPool ≠ [] := by
    intro h0
    rw [h0] at he
    simp at he
  obtain ⟨filler, f1, f2, f3⟩ := pushRandomChars_spec r.charPool hne
    (r.length - (r.requiredCount : Int)).toNat
    (classBlocks r.use_uppercase r.use_lowercase r.use_digits r.use_special
      r.exclude_ambiguous r.min_uppercase r.min_lowercase r.min_digits r.min_special
      g).required_chars
    (classBlocks r.use_uppercase r.use_lowercase r.use_digits r.use_special
      r.exclude_ambiguous r.min_uppercase r.min_lowercase r.min_digits r.min_special g).gen
  refine ⟨dl, du, dd, ds, filler,
    (pushRandomChars r.charPool (r.length - (r.requiredCount : Int)).toNat
      (classBlocks r.use_uppercase r.use_lowercase r.use_digits r.use_special
        r.exclude_ambiguous r.min_uppercase r.min_lowercase r.min_digits r.min_special
        g).required_chars
      (classBlocks r.use_uppercase r.use_lowercase r.use_digits r.use_special
        r.exclude_ambiguous r.min_uppercase r.min_lowercase r.min_digits r.min_special
        g).gen).2, ?_, ?_, l1, l2, l3, l4, m1, m2, m3, m4, f3⟩
  · simp only [Request.generate, generatePassword, if_neg (not_lt.mpr h4), hp, he, hq]
    rw [if_neg (by simp), if_neg (by omega), f1, hreq]
  · have hl : (dl ++ du ++ dd ++ ds).length = r.requiredCount := by rw [← hreq, hq]
    rw [List.length_append, hl, f2]
    omega

theorem countIn_perm (pool : List Char) {a b : List Char} (h : a.Perm b) :
    countIn pool a = countIn pool b :=
  List.Perm.countP_eq _ h

theorem countIn_append (pool a b : List Char) :
    countIn pool (a ++ b) = countIn pool a + countIn pool b :=
  List.countP_append _ a b

theorem countIn_of_subset (pool run : List Char) (h : ∀ c ∈ run, c ∈ pool) :
    countIn pool run = run.length := by
  unfold countIn
  rw [List.countP_eq_length]
  intro c hc
  simpa using h c hc

theorem requiredCount_cast (r : Request) (hu : 0 ≤ r.min_uppercase) (hl : 0 ≤ r.min_lowercase)
    (hd : 0 ≤ r.min_digits) (hs : 0 ≤ r.min_special) :
    (r.requiredCount : Int) = r.enabledMinimums := by
  unfold Request.requiredCount Request.enabledMinimums
  push_cast
  rw [Int.toNat_of_nonneg hu, Int.toNat_of_nonneg hl, Int.toNat_of_nonneg hd,
    Int.toNat_of_nonneg hs]

theorem mem_removeAmbiguous {c : Char} {chars : List Char} (h : c ∈ removeAmbiguous chars) :
    c ∉ ambiguous_chars := by
  unfold removeAmbiguous at h
  have h2 := (List.mem_filter.mp h).2
  simpa using h2

theorem mem_special_not_ambiguous : ∀ c ∈ special_chars, c ∉ ambiguous_chars := by
  decide

theorem mem_charPool_exclude (r : Request) (hex : r.exclude_ambiguous = true) :
    ∀ c ∈ r.charPool, c ∉ ambiguous_chars := by
  intro c hc
  simp only [Request.charPool, usablePool, hex, if_true, List.mem_append] at hc
  rcases hc with ((hc | hc) | hc) | hc
  · split at hc
    · exact mem_removeAmbiguous hc
    · simp at hc
  · split at hc
    · exact mem_removeAmbiguous hc
    · simp at hc
  · split at hc
    · exact mem_removeAmbiguous hc
    · simp at hc
  · split at hc
    · exact mem_special_not_ambiguous c hc
    · simp at hc

/-! ## Claims on `generatePassword` -/

/-- C1: for every request that `generatePassword` accepts and every outcome of the random
draws and of the shuffle, the call returns a string of exactly `length` characters. -/
theorem generatePassword_length (r : Request) (g : Gen) (h : r.Accepted) :
    ∃ pw g', r.generate g = .ok (pw, g') ∧ (pw.length : Int) = r.length := by
  obtain ⟨dl, du, dd, ds, filler, g1, hgen, hlen, -⟩ := generate_accepted r g h
  refine ⟨(shuffle (dl ++ du ++ dd ++ ds ++ filler) g1).1,
    (shuffle (dl ++ du ++ dd ++ ds ++ filler) g1).2, hgen, ?_⟩
  rw [(shuffle_perm _ g1).length_eq]
  exact hlen

theorem generatePassword_length_witness :
    Request.Accepted ⟨12, true, true, true, true, false, 1, 1, 1, 1⟩
      ∧ ∃ pw g', Request.generate ⟨12, true, true, true, true, false, 1, 1, 1, 1⟩
          [3, 1, 4, 1, 5, 9, 2, 6] = .ok (pw, g') ∧ (pw.length : Int) = 12 :=
  ⟨by decide, generatePassword_length ⟨12, true, true, true, true, false, 1, 1, 1, 1⟩
    [3, 1, 4, 1, 5, 9, 2, 6] (by decide)⟩

/-- C2: for every accepted request and every outcome of the random source, the returned
string (after the final shuffle) holds, for each enabled class, at least that class's
minimum of characters from the class's usable pool. -/
theorem generatePassword_quotas (r : Request) (g : Gen) (h : r.Accepted) :
    ∃ pw g', r.generate g = .ok (pw, g')
      ∧ (r.use_lowercase = true →
          r.min_lowercase ≤ (countIn (usablePool lowercase r.exclude_ambiguous) pw : Int))
      ∧ (r.use_uppercase = true →
          r.min_uppercase ≤ (countIn (usablePool uppercase r.exclude_ambiguous) pw : Int))
      ∧ (r.use_digits = true →
          r.min_digits ≤ (countIn (usablePool digits r.exclude_ambiguous) pw : Int))
      ∧ (r.use_special = true →
          r.min_special ≤ (countIn (usablePool special_chars r.exclude_ambiguous) pw : Int)) := by
  obtain ⟨dl, du, dd, ds, filler, g1, hgen, -, l1, l2, l3, l4, m1, m2, m3, m4, -⟩ :=
    generate_accepted r g h
  have hperm := shuffle_perm (dl ++ du ++ dd ++ ds ++ filler) g1
  rw [← usablePool_special r.exclude_ambiguous] at m4
  have c1 := countIn_of_subset _ dl m1
  have c2 := countIn_of_subset _ du m2
  have c3 := countIn_of_subset _ dd m3
  have c4 := countIn_of_subset _ ds m4
  refine ⟨(shuffle (dl ++ du ++ dd ++ ds ++ filler) g1).1,
    (shuffle (dl ++ du ++ dd ++ ds ++ filler) g1).2, hgen, ?_, ?_, ?_, ?_⟩
  · intro hu
    rw [countIn_perm _ hperm]
    simp only [countIn_append, c1]
    rw [if_pos hu] at l1
    omega
  · intro hu
    rw [countIn_perm _ hperm]
    simp only [countIn_append, c2]
    rw [if_pos hu] at l2
    omega
  · intro hu
    rw [countIn_perm _ hperm]
    simp only [countIn_append, c3]
    rw [if_pos hu] at l3
    omega
  · intro hu
    rw [countIn_perm _ hperm]
    simp only [countIn_append, c4]
    rw [if_pos hu] at l4
    omega

theorem generatePassword_quotas_witness :
    Request.Accepted ⟨8, true, true, true, true, true, 2, 3, 1, 2⟩
      ∧ ∃ pw g', Request.generate ⟨8, true, true, true, true, true, 2, 3, 1, 2⟩
          [7, 2, 9, 4, 11, 6, 3, 8, 5] = .ok (pw, g')
        ∧ (true = true → (3 : Int) ≤ (countIn (usablePool lowercase true) pw : Int))
        ∧ (true = true → (2 : Int) ≤ (countIn (usablePool uppercase true) pw : Int))
        ∧ (true = true → (1 : Int) ≤ (countIn (usablePool digits true) pw : Int))
        ∧ (true = true → (2 : Int) ≤ (countIn (usablePool special_chars true) pw : Int)) :=
  ⟨by decide, generatePassword_quotas ⟨8, true, true, true, true, true, 2, 3, 1, 2⟩
    [7, 2, 9, 4, 11, 6, 3, 8, 5] (by decide)⟩

/-- C3: for every accepted request with `exclude_ambiguous = true`, whichever classes are
enabled and whatever the random source yields, the returned string holds no character
of the ambiguous set "il1Lo0O". -/
theorem generatePassword_no_ambiguous (r : Request) (g : Gen) (h : r.Accepted)
    (hex : r.exclude_ambiguous = true) :
    ∃ pw g', r.generate g = .ok (pw, g') ∧ ∀ c ∈ pw, c ∉ ambiguous_chars := by
  obtain ⟨dl, du, dd, ds, filler, g1, hgen, -, -, -, -, -, m1, m2, m3, m4, m5⟩ :=
    generate_accepted r g h
  have hperm := shuffle_perm (dl ++ du ++ dd ++ ds ++ filler) g1
  refine ⟨(shuffle (dl ++ du ++ dd ++ ds ++ filler) g1).1,
    (shuffle (dl ++ du ++ dd ++ ds ++ filler) g1).2, hgen, ?_⟩
  intro c hc
  have hc2 := hperm.mem_iff.mp hc
  simp only [usablePool, hex, if_true] at m1 m2 m3
  simp only [List.mem_append] at hc2
  rcases hc2 with (((hc2 | hc2) | hc2) | hc2) | hc2
  · exact mem_removeAmbiguous (m1 c hc2)
  · exact mem_removeAmbiguous (m2 c hc2)
  · exact mem_removeAmbiguous (m3 c hc2)
  · exact mem_special_not_ambiguous c (m4 c hc2)
  · exact mem_charPool_exclude r hex c (m5 c hc2)

theorem generatePassword_no_ambiguous_witness :
    Request.Accepted ⟨6, false, true, true, true, true, 0, 2, 1, 1⟩
      ∧ (true = true)
      ∧ ∃ pw g', Request.generate ⟨6, false, true, true, true, true, 0, 2, 1, 1⟩
          [8, 10, 1, 0, 9, 13, 2] = .ok (pw, g') ∧ ∀ c ∈ pw, c ∉ ambiguous_chars :=
  ⟨by decide, rfl, generatePassword_no_ambiguous ⟨6, false, true, true, true, true, 0, 2, 1, 1⟩
    [8, 10, 1, 0, 9, 13, 2] (by decide) rfl⟩

/-- C4: for non-negative minimums, `generatePassword` fails exactly when the length is
below 4, or no class is enabled, or the minimums of the enabled classes sum to more than
the length, and returns a string in every other case; a length below 4 fails as
"Password too short" whatever else is wrong with the request. -/
theorem generatePassword_fails_iff (r : Request) (g : Gen)
    (hu : 0 ≤ r.min_uppercase) (hl : 0 ≤ r.min_lowercase)
    (hd : 0 ≤ r.min_digits) (hs : 0 ≤ r.min_special) :
    ((∃ e, r.generate g = .error e) ↔
        (r.length < 4
          ∨ (r.use_uppercase || r.use_lowercase || r.use_digits || r.use_special) = false
          ∨ r.length < r.enabledMinimums))
      ∧ ((∃ pw g', r.generate g = .ok (pw, g')) ↔
        ¬ (r.length < 4
          ∨ (r.use_uppercase || r.use_lowercase || r.use_digits || r.use_special) = false
          ∨ r.length < r.enabledMinimums))
      ∧ (r.length < 4 →
          r.generate g = .error (.invalid_argument "Password too short")) := by
  have hcast := requiredCount_cast r hu hl hd hs
  by_cases h4 : r.length < 4
  · have he := generate_too_short r g h4
    refine ⟨⟨fun _ => Or.inl h4, fun _ => ⟨_, he⟩⟩, ⟨?_, fun hn => absurd (Or.inl h4) hn⟩,
      fun _ => he⟩
    rintro ⟨pw, g', hok⟩
    rw [he] at hok
    cases hok
  · by_cases hc : (r.use_uppercase || r.use_lowercase || r.use_digits || r.use_special) = false
    · have he := generate_no_class r g (not_lt.mp h4) hc
      refine ⟨⟨fun _ => Or.inr (Or.inl hc), fun _ => ⟨_, he⟩⟩,
        ⟨?_, fun hn => absurd (Or.inr (Or.inl hc)) hn⟩, fun h => absurd h h4⟩
      rintro ⟨pw, g', hok⟩
      rw [he] at hok
      cases hok
    · have hc' : (r.use_uppercase || r.use_lowercase || r.use_digits || r.use_special) = true :=
        Bool.of_not_eq_false hc
      by_cases hx : r.length < r.enabledMinimums
      · have he := generate_exceed r g (not_lt.mp h4) hc' (by rw [hcast]; exact hx)
        refine ⟨⟨fun _ => Or.inr (Or.inr hx), fun _ => ⟨_, he⟩⟩,
          ⟨?_, fun hn => absurd (Or.inr (Or.inr hx)) hn⟩, fun h => absurd h h4⟩
        rintro ⟨pw, g', hok⟩
        rw [he] at hok
        cases hok
      · have hacc : r.Accepted := ⟨not_lt.mp h4, hc', by rw [hcast]; exact not_lt.mp hx⟩
        obtain ⟨dl, du, dd, ds, filler, g1, hgen, -⟩ := generate_accepted r g hacc
        have hok : r.generate g = .ok ((shuffle (dl ++ du ++ dd ++ ds ++ filler) g1).1,
            (shuffle (dl ++ du ++ dd ++ ds ++ filler) g1).2) := hgen
        have hnot : ¬ (r.length < 4
            ∨ (r.use_uppercase || r.use_lowercase || r.use_digits || r.use_special) = false
            ∨ r.length < r.enabledMinimums) := by
          rintro (h | h | h)
          · exact h4 h
          · exact hc h
          · exact hx h
        refine ⟨⟨?_, fun h => absurd h hnot⟩, ⟨fun _ => hnot, fun _ => ⟨_, _, hok⟩⟩,
          fun h => absurd h h4⟩
        rintro ⟨e, he⟩
        rw [hok] at he
        cases he

theorem generatePassword_fails_iff_witness :
    (0 : Int) ≤ 1 ∧ (0 : Int) ≤ 2 ∧ (0 : Int) ≤ 3 ∧ (0 : Int) ≤ 4
      ∧ ((∃ e, Request.generate ⟨9, true, true, true, true, false, 1, 2, 3, 4⟩ [5, 6] = .error e) ↔
          ((9 : Int) < 4 ∨ (true || true || true || true) = false
            ∨ (9 : Int) < Request.enabledMinimums ⟨9, true, true, true, true, false, 1, 2, 3, 4⟩))
      ∧ ((∃ pw g', Request.generate ⟨9, true, true, true, true, false, 1, 2, 3, 4⟩ [5, 6]
            = .ok (pw, g')) ↔
          ¬ ((9 : Int) < 4 ∨ (true || true || true || true) = false
            ∨ (9 : Int) < Request.enabledMinimums ⟨9, true, true, true, true, false, 1, 2, 3, 4⟩))
      ∧ ((9 : Int) < 4 →
          Request.generate ⟨9, true, true, true, true, false, 1, 2, 3, 4⟩ [5, 6]
            = .error (.invalid_argument "Password too short")) :=
  ⟨by decide, by decide, by decide, by decide,
    generatePassword_fails_iff ⟨9, true, true, true, true, false, 1, 2, 3, 4⟩ [5, 6]
      (by decide) (by decide) (by decide) (by decide)⟩

/-! ## The score through the blocks of `checkPasswordStrength` -/

theorem lengthStep_score (password : List Char) (a : PasswordAnalysis) :
    (lengthStep password a).score = a.score + lengthBonus password.length := by
  unfold lengthStep lengthBonus
  split_ifs <;> simp

theorem classStep_score (password : List Char) (a : PasswordAnalysis) :
    (classStep password a).score = a.score + classCount password := by
  unfold classStep classCount
  cases password.any Char.isLower <;> cases password.any Char.isUpper <;>
    cases password.any Char.isDigit <;>
    cases password.any (fun c => special_chars.contains c) <;> simp

theorem uniqueStep_score (password : List Char) (a : PasswordAnalysis) :
    (uniqueStep password a).score = a.score + uniquenessBonus password := by
  unfold uniqueStep uniquenessBonus
  simp only [Int.toNat_ofNat]
  split_ifs <;> simp

theorem patternStep_score (password : List Char) (a : PasswordAnalysis) :
    (patternStep password a).score = a.score - 2 * patternPenalty password := by
  by_cases h : patterns.any (fun pattern => regex_search (password.map Char.toLower) pattern)
      = true
  · simp only [patternStep, patternPenalty, h, if_true]
    ring
  · simp only [patternStep, patternPenalty, h, Bool.false_eq_true, if_false]
    ring

theorem commonStep_score (password : List Char) (a : PasswordAnalysis) :
    (commonStep password a).score = a.score - 3 * blocklistPenalty password := by
  by_cases h : common_passwords.any (fun common => contains (password.map Char.toLower) common)
      = true
  · simp only [commonStep, blocklistPenalty, h, if_true]
    ring
  · simp only [commonStep, blocklistPenalty, h, Bool.false_eq_true, if_false]
    ring

theorem labelStep_score (a : PasswordAnalysis) : (labelStep a).score = max 0 a.score := rfl

/-! ## Claims on `checkPasswordStrength` -/

/-- C5 (as stated, refuted): on the empty string `checkPasswordStrength` does not return
score 0 with the label Very Weak, "Too short" in the feedback and all four flags false. -/
theorem checkPasswordStrength_nil_counterexample :
    ¬ ((checkPasswordStrength []).score = 0
      ∧ (checkPasswordStrength []).strength = "Very Weak"
      ∧ "Too short" ∈ (checkPasswordStrength []).feedback
      ∧ (checkPasswordStrength []).has_lowercase = false
      ∧ (checkPasswordStrength []).has_uppercase = false
      ∧ (checkPasswordStrength []).has_digits = false
      ∧ (checkPasswordStrength []).has_special = false) := by
  decide

/-- C5 (amended): on the empty string `checkPasswordStrength` returns score 2 (the
uniqueness test `0 >= 0 * 0.8` holds and earns its bonus), the label Weak, feedback
containing "Too short", and all four class-presence flags false. -/
theorem checkPasswordStrength_empty :
    (checkPasswordStrength []).score = 2
      ∧ (checkPasswordStrength []).strength = "Weak"
      ∧ "Too short" ∈ (checkPasswordStrength []).feedback
      ∧ (checkPasswordStrength []).has_lowercase = false
      ∧ (checkPasswordStrength []).has_uppercase = false
      ∧ (checkPasswordStrength []).has_digits = false
      ∧ (checkPasswordStrength []).has_special = false := by
  decide

/-- C6: for every password the score is `max 0 (L + C + U - 2 * P - 3 * B)` with `L` the
length bonus, `C` the number of classes present, `U` the uniqueness bonus (0, 1 or 2),
`P` and `B` the 0/1 indicators of a simple-sequence pattern and of a blocklisted common
password; in particular the score is never negative. -/
theorem checkPasswordStrength_score (password : List Char) :
    (checkPasswordStrength password).score
        = max 0 (lengthBonus password.length + classCount password + uniquenessBonus password
            - 2 * patternPenalty password - 3 * blocklistPenalty password)
      ∧ 0 ≤ (checkPasswordStrength password).score
      ∧ (uniquenessBonus password = 0 ∨ uniquenessBonus password = 1
          ∨ uniquenessBonus password = 2)
      ∧ (patternPenalty password = 0 ∨ patternPenalty password = 1)
      ∧ (blocklistPenalty password = 0 ∨ blocklistPenalty password = 1) := by
  refine ⟨?_, ?_, ?_, ?_, ?_⟩
  · simp only [checkPasswordStrength, labelStep_score, commonStep_score, patternStep_score,
      uniqueStep_score, classStep_score, lengthStep_score]
    congr 1
    ring
  · simp only [checkPasswordStrength, labelStep_score]
    exact le_max_left _ _
  · unfold uniquenessBonus
    split_ifs <;> simp
  · unfold patternPenalty
    split_ifs <;> simp
  · unfold blocklistPenalty
    split_ifs <;> simp

/-- C7: for every password the strength label is the one that goes with the final score:
Excellent from 10, Very Strong from 8, Strong from 6, Medium from 4, Weak from 2, and
Very Weak below. -/
theorem checkPasswordStrength_label (password : List Char) :
    (checkPasswordStrength password).strength
      = strengthLabel (checkPasswordStrength password).score := by
  rfl

/-! ## Claims on `generatePasswordByComplexity` -/

/-- Every level from 1 to 10 maps to a request that `generatePassword` accepts. -/
theorem complexityParams_accepted (complexity : Int) (h1 : 1 ≤ complexity)
    (h10 : complexity ≤ 10) : (complexityParams complexity).Accepted := by
  interval_cases complexity <;> decide

theorem complexityParams_length (complexity : Int) (h1 : 1 ≤ complexity)
    (h10 : complexity ≤ 10) : (complexityParams complexity).length = levelLength complexity := by
  interval_cases complexity <;> decide

theorem generatePasswordByComplexity_in_range (complexity : Int) (g : Gen)
    (h1 : 1 ≤ complexity) (h10 : complexity ≤ 10) :
    generatePasswordByComplexity complexity g = (complexityParams complexity).generate g := by
  unfold generatePasswordByComplexity
  rw [if_neg (by omega)]

theorem generatePasswordByComplexity_out_of_range (complexity : Int) (g : Gen)
    (h : complexity < 1 ∨ 10 < complexity) :
    generatePasswordByComplexity complexity g
      = .error (.invalid_argument "Complexity must be 1-10") := by
  unfold generatePasswordByComplexity
  rw [if_pos h]

/-- C8: `generatePasswordByComplexity` fails exactly when the level is below 1 or above 10
(so 0 and 11 fail); for every level from 1 to 10 and every outcome of the random source
it returns a password, the level's parameters being a request that `generatePassword`
accepts. -/
theorem generatePasswordByComplexity_fails_iff (complexity : Int) (g : Gen) :
    ((∃ e, generatePasswordByComplexity complexity g = .error e)
        ↔ (complexity < 1 ∨ 10 < complexity))
      ∧ ((∃ pw g', generatePasswordByComplexity complexity g = .ok (pw, g'))
        ↔ (1 ≤ complexity ∧ complexity ≤ 10))
      ∧ ((1 ≤ complexity ∧ complexity ≤ 10) → (complexityParams complexity).Accepted)
      ∧ generatePasswordByComplexity 0 g = .error (.invalid_argument "Complexity must be 1-10")
      ∧ generatePasswordByComplexity 11 g
          = .error (.invalid_argument "Complexity must be 1-10") := by
  have hbad : ∀ c : Int, (c < 1 ∨ 10 < c) → generatePasswordByComplexity c g
      = .error (.invalid_argument "Complexity must be 1-10") :=
    fun c h => generatePasswordByComplexity_out_of_range c g h
  have hgood : 1 ≤ complexity ∧ complexity ≤ 10 →
      ∃ pw g', generatePasswordByComplexity complexity g = .ok (pw, g') := by
    rintro ⟨h1, h10⟩
    obtain ⟨dl, du, dd, ds, filler, g1, hgen, -⟩ :=
      generate_accepted (complexityParams complexity) g
        (complexityParams_accepted complexity h1 h10)
    exact ⟨(shuffle (dl ++ du ++ dd ++ ds ++ filler) g1).1,
      (shuffle (dl ++ du ++ dd ++ ds ++ filler) g1).2,
      by rw [generatePasswordByComplexity_in_range complexity g h1 h10]; exact hgen⟩
  refine ⟨⟨?_, fun h => ⟨_, hbad complexity h⟩⟩, ⟨?_, hgood⟩,
    fun h => complexityParams_accepted complexity h.1 h.2,
    hbad 0 (by decide), hbad 11 (by decide)⟩
  · rintro ⟨e, he⟩
    by_contra hn
    obtain ⟨pw, g', hok⟩ := hgood ⟨by omega, by omega⟩
    rw [hok] at he
    cases he
  · rintro ⟨pw, g', hok⟩
    by_contra hn
    rw [hbad complexity (by omega)] at hok
    cases hok

theorem generatePasswordByComplexity_fails_iff_witness :
    ((∃ e, generatePasswordByComplexity 7 [2, 7, 1, 8, 2, 8] = .error e)
        ↔ ((7 : Int) < 1 ∨ (10 : Int) < 7))
      ∧ ((∃ pw g', generatePasswordByComplexity 7 [2, 7, 1, 8, 2, 8] = .ok (pw, g'))
        ↔ ((1 : Int) ≤ 7 ∧ (7 : Int) ≤ 10))
      ∧ (((1 : Int) ≤ 7 ∧ (7 : Int) ≤ 10) → (complexityParams 7).Accepted)
      ∧ generatePasswordByComplexity 0 [2, 7, 1, 8, 2, 8]
          = .error (.invalid_argument "Complexity must be 1-10")
      ∧ generatePasswordByComplexity 11 [2, 7, 1, 8, 2, 8]
          = .error (.invalid_argument "Complexity must be 1-10") :=
  generatePasswordByComplexity_fails_iff 7 [2, 7, 1, 8, 2, 8]

/-- C9: for every level from 1 to 10 and every outcome of the random source, the password
returned by `generatePasswordByComplexity` has the length of the level's band:
`8 + L` for 1-2, `10 + L` for 3-4, `12 + L` for 5-6, `16 + 2 * (L - 6)` for 7-8 and
`20 + 4 * (L - 8)` for 9-10, that is 9, 10, 13, 14, 17, 18, 18, 20, 24, 28. -/
theorem generatePasswordByComplexity_length (complexity : Int) (g : Gen)
    (h1 : 1 ≤ complexity) (h10 : complexity ≤ 10) :
    (∃ pw g', generatePasswordByComplexity complexity g = .ok (pw, g')
        ∧ (pw.length : Int) = levelLength complexity)
      ∧ [1, 2, 3, 4, 5, 6, 7, 8, 9, 10].map levelLength
          = [9, 10, 13, 14, 17, 18, 18, 20, 24, 28] := by
  refine ⟨?_, by decide⟩
  obtain ⟨dl, du, dd, ds, filler, g1, hgen, hlen, -⟩ :=
    generate_accepted (complexityParams complexity) g
      (complexityParams_accepted complexity h1 h10)
  refine ⟨(shuffle (dl ++ du ++ dd ++ ds ++ filler) g1).1,
    (shuffle (dl ++ du ++ dd ++ ds ++ filler) g1).2, ?_, ?_⟩
  · rw [generatePasswordByComplexity_in_range complexity g h1 h10]
    exact hgen
  · rw [(shuffle_perm _ g1).length_eq, hlen]
    exact complexityParams_length complexity h1 h10

theorem generatePasswordByComplexity_length_witness :
    (1 : Int) ≤ 9 ∧ (9 : Int) ≤ 10
      ∧ (∃ pw g', generatePasswordByComplexity 9 [1, 4, 1, 4, 2, 1, 3, 5, 6] = .ok (pw, g')
        ∧ (pw.length : Int) = 24)
      ∧ [1, 2, 3, 4, 5, 6, 7, 8, 9, 10].map levelLength
          = [9, 10, 13, 14, 17, 18, 18, 20, 24, 28] :=
  ⟨by decide, by decide,
    generatePasswordByComplexity_length 9 [1, 4, 1, 4, 2, 1, 3, 5, 6] (by decide) (by decide)⟩

/-- C10: the parameters `generatePasswordByComplexity` passes to `generatePassword` follow
the level table: lowercase is enabled at every level, uppercase and digits from level 2,
special characters from level 4, and ambiguous characters are excluded exactly for
levels 1 to 3. -/
theorem complexityParams_classes (complexity : Int) (g : Gen)
    (h1 : 1 ≤ complexity) (h10 : complexity ≤ 10) :
    generatePasswordByComplexity complexity g = (complexityParams complexity).generate g
      ∧ (complexityParams complexity).use_lowercase = true
      ∧ ((complexityParams complexity).use_uppercase = true ↔ 2 ≤ complexity)
      ∧ ((complexityParams complexity).use_digits = true ↔ 2 ≤ complexity)
      ∧ ((complexityParams complexity).use_special = true ↔ 4 ≤ complexity)
      ∧ ((complexityParams complexity).exclude_ambiguous = true ↔ complexity ≤ 3) := by
  refine ⟨generatePasswordByComplexity_in_range complexity g h1 h10, ?_⟩
  interval_cases complexity <;> decide

theorem complexityParams_classes_witness :
    (1 : Int) ≤ 3 ∧ (3 : Int) ≤ 10
      ∧ generatePasswordByComplexity 3 [6, 2, 8] = (complexityParams 3).generate [6, 2, 8]
      ∧ (complexityParams 3).use_lowercase = true
      ∧ ((complexityParams 3).use_uppercase = true ↔ (2 : Int) ≤ 3)
      ∧ ((complexityParams 3).use_digits = true ↔ (2 : Int) ≤ 3)
      ∧ ((complexityParams 3).use_special = true ↔ (4 : Int) ≤ 3)
      ∧ ((complexityParams 3).exclude_ambiguous = true ↔ (3 : Int) ≤ 3) :=
  ⟨by decide, by decide, complexityParams_classes 3 [6, 2, 8] (by decide) (by decide)⟩

/-! ## The `double` comparisons agree with exact arithmetic -/

theorem excessBits_le (fuel : Nat) : ∀ (p k : Nat), p < 2 ^ (53 + k) → excessBits fuel p ≤ k := by
  induction fuel with
  | zero => intro p k _; simp [excessBits]
  | succ f ih =>
    intro p k h
    unfold excessBits
    split_ifs with hp
    · exact Nat.zero_le _
    · cases k with
      | zero => exact absurd h hp
      | succ j =>
        have h2 : p / 2 < 2 ^ (53 + j) := by
          rw [Nat.div_lt_iff_lt_mul (by norm_num)]
          calc p < 2 ^ (53 + (j + 1)) := h
            _ = 2 ^ (53 + j) * 2 := by ring
        exact Nat.succ_le_succ (ih (p / 2) j h2)

theorem excessBits_div_lt (fuel : Nat) : ∀ p : Nat, p < 2 ^ 53 * 2 ^ fuel →
    p / 2 ^ excessBits fuel p < 2 ^ 53 := by
  induction fuel with
  | zero => intro p h; simpa [excessBits] using h
  | succ f ih =>
    intro p h
    unfold excessBits
    split_ifs with hp
    · simpa using hp
    · have h2 : p / 2 < 2 ^ 53 * 2 ^ f := by
        rw [Nat.div_lt_iff_lt_mul (by norm_num)]
        calc p < 2 ^ 53 * 2 ^ (f + 1) := h
          _ = 2 ^ 53 * 2 ^ f * 2 := by ring
      have := ih (p / 2) h2
      rw [Nat.pow_succ, Nat.mul_comm, ← Nat.div_div_eq_div_mul]
      exact this

theorem roundBinary64_of_lt (p : Nat) (h : p < 2 ^ 53) : roundBinary64 p = p := by
  have hs : excessBits p p = 0 := Nat.le_zero.mp (excessBits_le p p 0 h)
  simp [roundBinary64, hs, Nat.mod_one]

/-- Rounding to a multiple of `w`, nearest with ties to even: the result is next to `p`,
does not pass a multiple of `w` above `p`, and is the lower neighbour when the
discarded part is under half of `w`. -/
theorem roundTo_bounds (p w : Nat) (hw : 0 < w) :
    p < (if 2 * (p % w) < w ∨ (2 * (p % w) = w ∧ p / w % 2 = 0) then p / w * w
          else (p / w + 1) * w) + w
      ∧ (∀ D : Nat, w ∣ D → p ≤ D →
          (if 2 * (p % w) < w ∨ (2 * (p % w) = w ∧ p / w % 2 = 0) then p / w * w
            else (p / w + 1) * w) ≤ D)
      ∧ (∀ D e : Nat, w ∣ D → p = D + e → 2 * e < w →
          (if 2 * (p % w) < w ∨ (2 * (p % w) = w ∧ p / w % 2 = 0) then p / w * w
            else (p / w + 1) * w) = D) := by
  have hdm := Nat.div_add_mod p w
  have hmod := Nat.mod_lt p hw
  have hcomm := Nat.mul_comm w (p / w)
  refine ⟨?_, ?_, ?_⟩
  · split_ifs
    · omega
    · rw [Nat.add_mul]
      omega
  · rintro D ⟨k, rfl⟩ hle
    have hq : p / w ≤ k := by
      have h1 : p / w ≤ w * k / w := Nat.div_le_div_right hle
      rwa [Nat.mul_div_cancel_left k hw] at h1
    split_ifs with hc
    · rw [Nat.mul_comm]
      exact Nat.mul_le_mul_left _ hq
    · rcases Nat.lt_or_ge (p / w) k with hlt | hge
      · rw [Nat.mul_comm]
        exact Nat.mul_le_mul_left _ hlt
      · have hqk : p / w = k := le_antisymm hq hge
        rw [hqk] at hdm
        have hm0 : p % w = 0 := by omega
        exact absurd (Or.inl (by rw [hm0]; simpa using hw)) hc
  · rintro D e ⟨k, rfl⟩ hpe he
    have he' : e < w := by omega
    have hmod' : p % w = e := by
      rw [hpe, Nat.mul_add_mod, Nat.mod_eq_of_lt he']
    have hdiv' : p / w = k := by
      rw [hpe, Nat.mul_add_div hw, Nat.div_eq_of_lt he', Nat.add_zero]
    rw [hmod', hdiv', if_pos (Or.inl he), Nat.mul_comm]

theorem roundBinary64_bounds (p : Nat) :
    p < roundBinary64 p + 2 ^ excessBits p p
      ∧ (∀ D : Nat, 2 ^ excessBits p p ∣ D → p ≤ D → roundBinary64 p ≤ D)
      ∧ (∀ D e : Nat, 2 ^ excessBits p p ∣ D → p = D + e → 2 * e < 2 ^ excessBits p p →
          roundBinary64 p = D) :=
  roundTo_bounds p (2 ^ excessBits p p) (Nat.two_pow_pos _)

/-- Facts on the rounding of a product `n * m` with `n < 2^50` and `m < 2^53`, by the
width `w` of the rounding grid: `w` divides every multiple of `2^53`, is at most `2^50`,
and exceeds `p / 2^53`. -/
theorem roundBinary64_product (p : Nat) (hp : p < 2 ^ (53 + 50)) :
    ∃ w : Nat, w ≤ 2 ^ 50 ∧ p < 2 ^ 53 * w ∧ p < roundBinary64 p + w
      ∧ (∀ d : Nat, p ≤ d * 2 ^ 53 → roundBinary64 p ≤ d * 2 ^ 53)
      ∧ (∀ d e : Nat, p = d * 2 ^ 53 + e → 2 * e < w → roundBinary64 p = d * 2 ^ 53) := by
  have hs := excessBits_le p p 50 hp
  have hdvd : ∀ d : Nat, 2 ^ excessBits p p ∣ d * 2 ^ 53 := fun d =>
    Dvd.dvd.mul_left (pow_dvd_pow 2 (by omega)) d
  obtain ⟨b1, b2, b3⟩ := roundBinary64_bounds p
  have hfuel : p < 2 ^ 53 * 2 ^ p :=
    lt_of_lt_of_le (Nat.lt_two_pow p) (Nat.le_mul_of_pos_left _ (by norm_num))
  have hdiv := excessBits_div_lt p p hfuel
  rw [Nat.div_lt_iff_lt_mul (Nat.two_pow_pos _)] at hdiv
  exact ⟨2 ^ excessBits p p, Nat.pow_le_pow_right (by norm_num) hs, hdiv, b1,
    fun d h => b2 _ (hdvd d) h, fun d e h1 h2 => b3 _ e (hdvd d) h1 h2⟩

/-- For lengths below `2^50` the `double` comparison `d >= n * 0.8` holds exactly when
`4 * n ≤ 5 * d`. -/
theorem geTimes_significand08 (d n : Nat) (hn : n < 2 ^ 50) (hd : d < 2 ^ 53) :
    geTimes d n significand08 = decide (4 * n ≤ 5 * d) := by
  have hRn := roundBinary64_of_lt n (by omega)
  have hRd := roundBinary64_of_lt d hd
  obtain ⟨w, hw, hpw, b1, b2, b3⟩ := roundBinary64_product (n * significand08)
    (by unfold significand08; omega)
  unfold geTimes
  rw [hRn, hRd]
  unfold significand08 at *
  by_cases h : 4 * n ≤ 5 * d
  · rw [decide_eq_true h, decide_eq_true_iff]
    rcases Nat.eq_or_lt_of_le h with heq | hlt
    · exact le_of_eq (b3 d (n * 7205759403792794 - d * 2 ^ 53) (by omega) (by omega))
    · exact b2 d (by omega)
  · rw [decide_eq_false h, decide_eq_false_iff_not]
    omega

/-- For lengths below `2^50` the `double` comparison `d >= n * 0.6` holds exactly when
`3 * n ≤ 5 * d`. -/
theorem geTimes_significand06 (d n : Nat) (hn : n < 2 ^ 50) (hd : d < 2 ^ 53) :
    geTimes d n significand06 = decide (3 * n ≤ 5 * d) := by
  have hRn := roundBinary64_of_lt n (by omega)
  have hRd := roundBinary64_of_lt d hd
  obtain ⟨w, hw, hpw, b1, b2, b3⟩ := roundBinary64_product (n * significand06)
    (by unfold significand06; omega)
  unfold geTimes
  rw [hRn, hRd]
  unfold significand06 at *
  by_cases h : 3 * n ≤ 5 * d
  · rw [decide_eq_true h, decide_eq_true_iff]
    exact b2 d (by omega)
  · rw [decide_eq_false h, decide_eq_false_iff_not]
    omega

/-- For passwords shorter than `2^50` characters the uniqueness bonus is the one of exact
arithmetic on the ratio of distinct characters to length. -/
theorem uniquenessBonus_exact (password : List Char) (h : password.length < 2 ^ 50) :
    uniquenessBonus password
      = if 4 * password.length ≤ 5 * password.dedup.length then 2
        else if 3 * password.length ≤ 5 * password.dedup.length then 1 else 0 := by
  have hd : password.dedup.length ≤ password.length := (List.dedup_sublist password).length_le
  unfold uniquenessBonus
  rw [geTimes_significand08 _ _ h (by omega), geTimes_significand06 _ _ h (by omega)]
  simp only [decide_eq_true_eq]

/-! ## Further claims on the complexity mapper -/

/-- C11: the level-to-parameter mapping is monotone: for levels `a ≤ b` in 1..10 the length
does not decrease, every class enabled at `a` is enabled at `b`, and none of the four
per-class minimums decreases; moreover the length at level 1 is below that at level 10. -/
theorem complexityParams_monotone (a b : Int) (h1 : 1 ≤ a) (hab : a ≤ b) (h10 : b ≤ 10) :
    (complexityParams a).length ≤ (complexityParams b).length
      ∧ ((complexityParams a).use_uppercase = true → (complexityParams b).use_uppercase = true)
      ∧ ((complexityParams a).use_lowercase = true → (complexityParams b).use_lowercase = true)
      ∧ ((complexityParams a).use_digits = true → (complexityParams b).use_digits = true)
      ∧ ((complexityParams a).use_special = true → (complexityParams b).use_special = true)
      ∧ (complexityParams a).min_uppercase ≤ (complexityParams b).min_uppercase
      ∧ (complexityParams a).min_lowercase ≤ (complexityParams b).min_lowercase
      ∧ (complexityParams a).min_digits ≤ (complexityParams b).min_digits
      ∧ (complexityParams a).min_special ≤ (complexityParams b).min_special
      ∧ (complexityParams 1).length < (complexityParams 10).length := by
  have ha : a ≤ 10 := le_trans hab h10
  interval_cases a <;> interval_cases b <;> decide

theorem complexityParams_monotone_witness :
    (1 : Int) ≤ 3 ∧ (3 : Int) ≤ 8 ∧ (8 : Int) ≤ 10
      ∧ (complexityParams 3).length ≤ (complexityParams 8).length
      ∧ ((complexityParams 3).use_uppercase = true → (complexityParams 8).use_uppercase = true)
      ∧ ((complexityParams 3).use_lowercase = true → (complexityParams 8).use_lowercase = true)
      ∧ ((complexityParams 3).use_digits = true → (complexityParams 8).use_digits = true)
      ∧ ((complexityParams 3).use_special = true → (complexityParams 8).use_special = true)
      ∧ (complexityParams 3).min_uppercase ≤ (complexityParams 8).min_uppercase
      ∧ (complexityParams 3).min_lowercase ≤ (complexityParams 8).min_lowercase
      ∧ (complexityParams 3).min_digits ≤ (complexityParams 8).min_digits
      ∧ (complexityParams 3).min_special ≤ (complexityParams 8).min_special
      ∧ (complexityParams 1).length < (complexityParams 10).length :=
  ⟨by decide, by decide, by decide,
    complexityParams_monotone 3 8 (by decide) (by decide) (by decide)⟩

/-! ## Claims on `buildCustomPassword` -/

theorem buildLoop_text (components : List Component) :
    (∀ c ∈ components, c.type = ComponentType.TEXT) → ∀ (password : List Char) (g : Gen),
      buildLoop components password g
        = .ok (password ++ (components.map (fun c => c.value)).flatten, g) := by
  induction components with
  | nil => intro _ password g; simp [buildLoop]
  | cons c rest ih =>
    intro h password g
    have hc : c.type = ComponentType.TEXT := h c (List.mem_cons_self c rest)
    have hrest : ∀ x ∈ rest, x.type = ComponentType.TEXT :=
      fun x hx => h x (List.mem_cons_of_mem c hx)
    simp only [buildLoop, appendComponent, hc]
    rw [ih hrest]
    simp

/-- C12: for every component sequence made only of Text components, `buildCustomPassword`
returns the concatenation of their literals in sequence order, whatever the random
source (which is left untouched) and whatever the components' config and options; the
empty sequence yields the empty string. -/
theorem buildCustomPassword_text (components : List Component) (g : Gen)
    (h : ∀ c ∈ components, c.type = ComponentType.TEXT) :
    buildCustomPassword components g
        = .ok ((components.map (fun c => c.value)).flatten, g)
      ∧ buildCustomPassword [] g = .ok ([], g) := by
  refine ⟨?_, rfl⟩
  unfold buildCustomPassword
  rw [buildLoop_text components h [] g]
  simp

theorem buildCustomPassword_text_witness :
    (∀ c ∈ [(⟨.TEXT, "ab".toList, [("length", "x")], []⟩ : Component),
        ⟨.TEXT, "-9".toList, [], ["!".toList]⟩], c.type = ComponentType.TEXT)
      ∧ buildCustomPassword [(⟨.TEXT, "ab".toList, [("length", "x")], []⟩ : Component),
          ⟨.TEXT, "-9".toList, [], ["!".toList]⟩] [4, 2]
        = .ok (([(⟨.TEXT, "ab".toList, [("length", "x")], []⟩ : Component),
          ⟨.TEXT, "-9".toList, [], ["!".toList]⟩].map (fun c => c.value)).flatten, [4, 2])
      ∧ buildCustomPassword [] [4, 2] = .ok ([], [4, 2]) :=
  ⟨by decide, buildCustomPassword_text _ _ (by decide)⟩

/-! ## Feedback and flags through the blocks of `checkPasswordStrength` -/

theorem contains_iff (s sub : List Char) : contains s sub = true ↔ Occurs sub s := by
  unfold contains Occurs
  rw [List.any_eq_true]
  constructor
  · rintro ⟨t, ht, hp⟩
    obtain ⟨front, hfront⟩ := (List.mem_tails t s).mp ht
    obtain ⟨back, hback⟩ := List.isPrefixOf_iff_prefix.mp hp
    exact ⟨front, back, by rw [← hfront, ← hback, List.append_assoc]⟩
  · rintro ⟨front, back, h⟩
    refine ⟨sub ++ back, (List.mem_tails _ _).mpr ⟨front, by rw [h, List.append_assoc]⟩, ?_⟩
    exact List.isPrefixOf_iff_prefix.mpr ⟨back, rfl⟩

theorem blocklistPenalty_eq_one_iff (password : List Char) :
    blocklistPenalty password = 1 ↔ Blocklisted password := by
  unfold blocklistPenalty Blocklisted
  constructor
  · intro h
    split_ifs at h with hc
    · obtain ⟨w, hw, hcon⟩ := List.any_eq_true.mp hc
      exact ⟨w, hw, (contains_iff _ _).mp hcon⟩
    · exact absurd h (by decide)
  · rintro ⟨w, hw, hocc⟩
    rw [if_pos (List.any_eq_true.mpr ⟨w, hw, (contains_iff _ _).mpr hocc⟩)]

theorem lengthStep_feedback (password : List Char) (a : PasswordAnalysis) :
    (lengthStep password a).feedback
      = a.feedback ++ (if password.length < 8 then ["Too short"] else []) := by
  unfold lengthStep
  split_ifs <;> first | (exfalso; omega) | simp

theorem classStep_feedback (password : List Char) (a : PasswordAnalysis) :
    (classStep password a).feedback
      = a.feedback
        ++ (if classCount password < 3 then ["Use different character types"] else []) := by
  unfold classStep classCount
  cases password.any Char.isLower <;> cases password.any Char.isUpper <;>
    cases password.any Char.isDigit <;>
    cases password.any (fun c => special_chars.contains c) <;> simp

theorem uniqueStep_feedback (password : List Char) (a : PasswordAnalysis) :
    (uniqueStep password a).feedback
      = a.feedback
        ++ (if uniquenessBonus password = 0 then ["Too many repeated characters"] else []) := by
  unfold uniqueStep uniquenessBonus
  simp only [Int.toNat_ofNat]
  split_ifs <;> simp_all

theorem patternStep_feedback (password : List Char) (a : PasswordAnalysis) :
    (patternStep password a).feedback
      = a.feedback
        ++ (if patternPenalty password = 1 then ["Avoid simple sequences"] else []) := by
  by_cases h : patterns.any (fun pattern => regex_search (password.map Char.toLower) pattern)
      = true
  · simp [patternStep, patternPenalty, h]
  · simp [patternStep, patternPenalty, h]

theorem commonStep_feedback (password : List Char) (a : PasswordAnalysis) :
    (commonStep password a).feedback
      = a.feedback
        ++ (if blocklistPenalty password = 1 then ["Avoid common passwords"] else []) := by
  by_cases h : common_passwords.any (fun common => contains (password.map Char.toLower) common)
      = true
  · simp [commonStep, blocklistPenalty, h]
  · simp [commonStep, blocklistPenalty, h]

theorem labelStep_feedback (a : PasswordAnalysis) : (labelStep a).feedback = a.feedback := rfl

/-- The feedback of a report: the five advisory messages in the order of the blocks, each
present exactly when its block found fault. -/
theorem checkPasswordStrength_feedback_eq (password : List Char) :
    (checkPasswordStrength password).feedback
      = (if password.length < 8 then ["Too short"] else [])
        ++ (if classCount password < 3 then ["Use different character types"] else [])
        ++ (if uniquenessBonus password = 0 then ["Too many repeated characters"] else [])
        ++ (if patternPenalty password = 1 then ["Avoid simple sequences"] else [])
        ++ (if blocklistPenalty password = 1 then ["Avoid common passwords"] else []) := by
  simp only [checkPasswordStrength, labelStep_feedback, commonStep_feedback,
    patternStep_feedback, uniqueStep_feedback, classStep_feedback, lengthStep_feedback,
    List.nil_append]

/-- The score of a report before the blocklist block and the clamp are applied. -/
theorem checkPasswordStrength_score_eq (password : List Char) :
    (checkPasswordStrength password).score
      = max 0 (lengthBonus password.length + classCount password + uniquenessBonus password
          - 2 * patternPenalty password - 3 * blocklistPenalty password) := by
  simp only [checkPasswordStrength, labelStep_score, commonStep_score, patternStep_score,
    uniqueStep_score, classStep_score, lengthStep_score]
  congr 1
  ring

theorem uniqueStep_flags (password : List Char) (a : PasswordAnalysis) :
    (uniqueStep password a).has_lowercase = a.has_lowercase
      ∧ (uniqueStep password a).has_uppercase = a.has_uppercase
      ∧ (uniqueStep password a).has_digits = a.has_digits
      ∧ (uniqueStep password a).has_special = a.has_special := by
  simp only [uniqueStep]
  split_ifs <;> simp

theorem patternStep_flags (password : List Char) (a : PasswordAnalysis) :
    (patternStep password a).has_lowercase = a.has_lowercase
      ∧ (patternStep password a).has_uppercase = a.has_uppercase
      ∧ (patternStep password a).has_digits = a.has_digits
      ∧ (patternStep password a).has_special = a.has_special := by
  simp only [patternStep]
  split_ifs <;> simp

theorem commonStep_flags (password : List Char) (a : PasswordAnalysis) :
    (commonStep password a).has_lowercase = a.has_lowercase
      ∧ (commonStep password a).has_uppercase = a.has_uppercase
      ∧ (commonStep password a).has_digits = a.has_digits
      ∧ (commonStep password a).has_special = a.has_special := by
  simp only [commonStep]
  split_ifs <;> simp

theorem classStep_flags (password : List Char) (a : PasswordAnalysis) :
    (classStep password a).has_lowercase = password.any Char.isLower
      ∧ (classStep password a).has_uppercase = password.any Char.isUpper
      ∧ (classStep password a).has_digits = password.any Char.isDigit
      ∧ (classStep password a).has_special
          = password.any (fun c => special_chars.contains c) := by
  simp only [classStep]
  split_ifs <;> simp

/-- The four flags of a report are the four searches of the class block. -/
theorem checkPasswordStrength_flags_eq (password : List Char) :
    (checkPasswordStrength password).has_lowercase = password.any Char.isLower
      ∧ (checkPasswordStrength password).has_uppercase = password.any Char.isUpper
      ∧ (checkPasswordStrength password).has_digits = password.any Char.isDigit
      ∧ (checkPasswordStrength password).has_special
          = password.any (fun c => special_chars.contains c) := by
  unfold checkPasswordStrength
  simp only []
  have h1 := commonStep_flags password (patternStep password (uniqueStep password
    (classStep password (lengthStep password
      { score := 0, strength := "", feedback := [], length := toInt32 password.length,
        has_lowercase := false, has_uppercase := false, has_digits := false,
        has_special := false, unique_chars := 0 }))))
  have h2 := patternStep_flags password (uniqueStep password
    (classStep password (lengthStep password
      { score := 0, strength := "", feedback := [], length := toInt32 password.length,
        has_lowercase := false, has_uppercase := false, has_digits := false,
        has_special := false, unique_chars := 0 })))
  have h3 := uniqueStep_flags password
    (classStep password (lengthStep password
      { score := 0, strength := "", feedback := [], length := toInt32 password.length,
        has_lowercase := false, has_uppercase := false, has_digits := false,
        has_special := false, unique_chars := 0 }))
  have h4 := classStep_flags password (lengthStep password
      { score := 0, strength := "", feedback := [], length := toInt32 password.length,
        has_lowercase := false, has_uppercase := false, has_digits := false,
        has_special := false, unique_chars := 0 })
  refine ⟨?_, ?_, ?_, ?_⟩
  · exact (h1.1.trans h2.1).trans (h3.1.trans h4.1)
  · exact (h1.2.1.trans h2.2.1).trans (h3.2.1.trans h4.2.1)
  · exact (h1.2.2.1.trans h2.2.2.1).trans (h3.2.2.1.trans h4.2.2.1)
  · exact (h1.2.2.2.trans h2.2.2.2).trans (h3.2.2.2.trans h4.2.2.2)

theorem isLower_iff (c : Char) : c.isLower = true ↔ 'a' ≤ c ∧ c ≤ 'z' := by
  simp only [Char.isLower, Bool.and_eq_true, decide_eq_true_eq, ge_iff_le]
  exact Iff.rfl

theorem isUpper_iff (c : Char) : c.isUpper = true ↔ 'A' ≤ c ∧ c ≤ 'Z' := by
  simp only [Char.isUpper, Bool.and_eq_true, decide_eq_true_eq, ge_iff_le]
  exact Iff.rfl

theorem isDigit_iff (c : Char) : c.isDigit = true ↔ '0' ≤ c ∧ c ≤ '9' := by
  simp only [Char.isDigit, Bool.and_eq_true, decide_eq_true_eq, ge_iff_le]
  exact Iff.rfl

theorem commonStep_of_blocklisted (password : List Char) (h : Blocklisted password)
    (a : PasswordAnalysis) :
    commonStep password a
      = { a with score := a.score - 3, feedback := a.feedback ++ ["Avoid common passwords"] } := by
  have hp := (blocklistPenalty_eq_one_iff password).mpr h
  unfold blocklistPenalty at hp
  split_ifs at hp with hc
  · simp only [commonStep, hc, if_true]
  · exact absurd hp (by decide)

theorem commonStep_of_not_blocklisted (password : List Char) (h : ¬ Blocklisted password)
    (a : PasswordAnalysis) : commonStep password a = a := by
  have hp : ¬ blocklistPenalty password = 1 := fun h1 =>
    h ((blocklistPenalty_eq_one_iff password).mp h1)
  unfold blocklistPenalty at hp
  split_ifs at hp with hc
  · exact absurd rfl hp
  · simp only [commonStep, hc, Bool.false_eq_true, if_false]

theorem count_common_feedback (password : List Char) :
    (checkPasswordStrength password).feedback.count "Avoid common passwords"
      = if blocklistPenalty password = 1 then 1 else 0 := by
  rw [checkPasswordStrength_feedback_eq]
  simp only [List.count_append]
  split_ifs <;> decide

/-! ## Further claims on `checkPasswordStrength` -/

/-- C18: the common-password penalty is applied exactly when the lower-cased password
contains one of password, 123456, qwerty, admin, login, welcome as a substring (so the
match is case-insensitive, as for "Password123!"): then the blocklist block subtracts 3
once and adds "Avoid common passwords" once, whatever the number of blocklist words that
occur; otherwise it changes nothing. -/
theorem commonPassword_penalty (password : List Char) :
    (Blocklisted password →
        (∀ a : PasswordAnalysis, commonStep password a
          = { a with score := a.score - 3,
                     feedback := a.feedback ++ ["Avoid common passwords"] })
        ∧ (checkPasswordStrength password).feedback.count "Avoid common passwords" = 1
        ∧ (checkPasswordStrength password).score
            = max 0 (lengthBonus password.length + classCount password
                + uniquenessBonus password - 2 * patternPenalty password - 3))
      ∧ (¬ Blocklisted password →
        (∀ a : PasswordAnalysis, commonStep password a = a)
        ∧ (checkPasswordStrength password).feedback.count "Avoid common passwords" = 0
        ∧ (checkPasswordStrength password).score
            = max 0 (lengthBonus password.length + classCount password
                + uniquenessBonus password - 2 * patternPenalty password))
      ∧ Blocklisted "Password123!".toList := by
  refine ⟨fun h => ⟨commonStep_of_blocklisted password h, ?_, ?_⟩,
    fun h => ⟨commonStep_of_not_blocklisted password h, ?_, ?_⟩,
    (blocklistPenalty_eq_one_iff _).mp (by decide)⟩
  · rw [count_common_feedback, if_pos ((blocklistPenalty_eq_one_iff password).mpr h)]
  · rw [checkPasswordStrength_score_eq, (blocklistPenalty_eq_one_iff password).mpr h]
    norm_num
  · have hp : ¬ blocklistPenalty password = 1 := fun h1 =>
      h ((blocklistPenalty_eq_one_iff password).mp h1)
    rw [count_common_feedback, if_neg hp]
  · have hp : blocklistPenalty password = 0 := by
      have hn : ¬ blocklistPenalty password = 1 := fun h1 =>
        h ((blocklistPenalty_eq_one_iff password).mp h1)
      unfold blocklistPenalty at hn ⊢
      split_ifs at hn ⊢ with hc
      · exact absurd rfl hn
      · rfl
    rw [checkPasswordStrength_score_eq, hp]
    norm_num

theorem commonPassword_penalty_witness :
    Blocklisted "myADMINlogin".toList
      ∧ (∀ a : PasswordAnalysis, commonStep "myADMINlogin".toList a
          = { a with score := a.score - 3,
                     feedback := a.feedback ++ ["Avoid common passwords"] })
      ∧ (checkPasswordStrength "myADMINlogin".toList).feedback.count "Avoid common passwords" = 1
      ∧ (checkPasswordStrength "myADMINlogin".toList).score
          = max 0 (lengthBonus "myADMINlogin".toList.length + classCount "myADMINlogin".toList
              + uniquenessBonus "myADMINlogin".toList
              - 2 * patternPenalty "myADMINlogin".toList - 3) :=
  ⟨(blocklistPenalty_eq_one_iff _).mp (by decide),
    (commonPassword_penalty "myADMINlogin".toList).1
      ((blocklistPenalty_eq_one_iff _).mp (by decide))⟩

/-- C19: the four flags of a report are exact presence tests (for every password, ASCII or
not): `has_lowercase` holds iff the password contains a letter a-z, `has_uppercase` iff
it contains A-Z, `has_digits` iff it contains 0-9, `has_special` iff it contains a
character of `special_chars`; "Password123!" has all four. -/
theorem checkPasswordStrength_flags (password : List Char) :
    ((checkPasswordStrength password).has_lowercase = true
        ↔ ∃ c ∈ password, 'a' ≤ c ∧ c ≤ 'z')
      ∧ ((checkPasswordStrength password).has_uppercase = true
        ↔ ∃ c ∈ password, 'A' ≤ c ∧ c ≤ 'Z')
      ∧ ((checkPasswordStrength password).has_digits = true
        ↔ ∃ c ∈ password, '0' ≤ c ∧ c ≤ '9')
      ∧ ((checkPasswordStrength password).has_special = true
        ↔ ∃ c ∈ password, c ∈ "!@#$%^&*()_+-=[]\x7b\x7d|;:,.<>?".toList)
      ∧ (checkPasswordStrength "Password123!".toList).has_lowercase = true
      ∧ (checkPasswordStrength "Password123!".toList).has_uppercase = true
      ∧ (checkPasswordStrength "Password123!".toList).has_digits = true
      ∧ (checkPasswordStrength "Password123!".toList).has_special = true := by
  obtain ⟨h1, h2, h3, h4⟩ := checkPasswordStrength_flags_eq password
  refine ⟨?_, ?_, ?_, ?_, by decide, by decide, by decide, by decide⟩
  · rw [h1, List.any_eq_true]
    exact exists_congr fun c => and_congr_right fun _ => isLower_iff c
  · rw [h2, List.any_eq_true]
    exact exists_congr fun c => and_congr_right fun _ => isUpper_iff c
  · rw [h3, List.any_eq_true]
    exact exists_congr fun c => and_congr_right fun _ => isDigit_iff c
  · rw [h4, List.any_eq_true]
    refine exists_congr fun c => and_congr_right fun _ => ?_
    show special_chars.contains c = true ↔ c ∈ special_chars
    simp

/-! ## Strings made of one repeated character -/

theorem excessBits_pos_div (fuel : Nat) : ∀ p : Nat, 0 < excessBits fuel p →
    2 ^ 52 ≤ p / 2 ^ excessBits fuel p := by
  induction fuel with
  | zero => intro p h; simp [excessBits] at h
  | succ f ih =>
    intro p h
    unfold excessBits at h ⊢
    split_ifs at h ⊢ with hp
    · exact absurd h (lt_irrefl 0)
    · have e : p / 2 ^ (excessBits f (p / 2) + 1) = p / 2 / 2 ^ excessBits f (p / 2) := by
        rw [Nat.pow_succ, Nat.mul_comm, Nat.div_div_eq_div_mul]
      rw [e]
      rcases Nat.eq_zero_or_pos (excessBits f (p / 2)) with h0 | hpos
      · rw [h0, Nat.pow_zero, Nat.div_one]
        omega
      · exact ih (p / 2) hpos

/-- Rounding stays within one grid step `w` of its argument, and when the grid is coarser
than 1 the argument is at least `2^52` steps. -/
theorem roundBinary64_near (p : Nat) :
    ∃ w : Nat, 1 ≤ w ∧ p < roundBinary64 p + w ∧ (w = 1 ∨ 2 ^ 52 * w ≤ p) := by
  refine ⟨2 ^ excessBits p p, Nat.two_pow_pos _, (roundBinary64_bounds p).1, ?_⟩
  rcases Nat.eq_zero_or_pos (excessBits p p) with h0 | hpos
  · left
    rw [h0, Nat.pow_zero]
  · right
    have h := excessBits_pos_div p p hpos
    calc 2 ^ 52 * 2 ^ excessBits p p ≤ p / 2 ^ excessBits p p * 2 ^ excessBits p p :=
          Nat.mul_le_mul_right _ h
      _ ≤ p := Nat.div_mul_le_self p _

/-- One distinct character is fewer than `n * 0.8` and than `n * 0.6` as soon as `n` is
at least 3, for strings of any length. -/
theorem geTimes_one (n : Nat) (hn : 3 ≤ n) :
    geTimes 1 n significand08 = false ∧ geTimes 1 n significand06 = false := by
  have h1 : roundBinary64 1 = 1 := roundBinary64_of_lt 1 (by norm_num)
  obtain ⟨w, hw, hlt, hcase⟩ := roundBinary64_near n
  have hr : 3 ≤ roundBinary64 n := by
    rcases hcase with h | h <;> omega
  constructor
  · obtain ⟨v, hv, hlt2, hcase2⟩ := roundBinary64_near (roundBinary64 n * significand08)
    unfold geTimes
    rw [h1, decide_eq_false_iff_not]
    unfold significand08 at *
    rcases hcase2 with h | h <;> omega
  · obtain ⟨v, hv, hlt2, hcase2⟩ := roundBinary64_near (roundBinary64 n * significand06)
    unfold geTimes
    rw [h1, decide_eq_false_iff_not]
    unfold significand06 at *
    rcases hcase2 with h | h <;> omega

theorem dedup_replicate_succ (c : Char) (n : Nat) : (List.replicate (n + 1) c).dedup = [c] := by
  induction n with
  | zero => simp
  | succ k ih =>
    rw [List.replicate_succ, List.dedup_cons_of_mem (by simp), ih]

theorem uniquenessBonus_replicate (c : Char) (n : Nat) (hn : 3 ≤ n) :
    uniquenessBonus (List.replicate n c) = 0 := by
  obtain ⟨k, rfl⟩ : ∃ k, n = k + 1 := ⟨n - 1, by omega⟩
  obtain ⟨h8, h6⟩ := geTimes_one (k + 1) hn
  unfold uniquenessBonus
  rw [dedup_replicate_succ, List.length_replicate, List.length_singleton, h8, h6]
  simp

/-- Lower-casing maps no other character to a character below 'A' (line feed, carriage
return, digits). -/
theorem toLower_eq_low (c x : Char) (hx : x.toNat < 65) (h : c.toLower = x) : c = x := by
  unfold Char.toLower at h
  simp only at h
  split_ifs at h with hc
  · exfalso
    obtain ⟨h1, h2⟩ := hc
    generalize c.toNat = n at h h1 h2
    subst h
    interval_cases n <;> simp at hx
  · exact h

theorem hasRepeat_replicate (x : Char) (n : Nat) (hn : 3 ≤ n) (h1 : x ≠ '\n') (h2 : x ≠ '\r') :
    hasRepeat (List.replicate n x) = true := by
  obtain ⟨k, rfl⟩ : ∃ k, n = k + 3 := ⟨n - 3, by omega⟩
  simp [List.replicate_succ, hasRepeat, h1, h2]

theorem occurs_replicate (w : List Char) (x : Char) (n : Nat)
    (h : contains (List.replicate n x) w = true) : ∀ ch ∈ w, ch = x := by
  obtain ⟨front, back, hfb⟩ := (contains_iff _ _).mp h
  intro ch hch
  have hmem : ch ∈ List.replicate n x := by
    rw [hfb]
    simp [hch]
  exact (List.mem_replicate.mp hmem).2

theorem hasRepeat_line_terminators (l : List Char) (h : ∀ ch ∈ l, ch = '\n' ∨ ch = '\r') :
    hasRepeat l = false := by
  induction l with
  | nil => rfl
  | cons a t ih =>
    have ha := h a (List.mem_cons_self a t)
    have ht := ih (fun ch hch => h ch (List.mem_cons_of_mem a hch))
    rcases t with _ | ⟨b, _ | ⟨c, r⟩⟩
    · rfl
    · rfl
    · show ((a != '\n' && a != '\r' && a == b && a == c) || hasRepeat (b :: c :: r)) = false
      rw [ht]
      rcases ha with rfl | rfl <;> simp

theorem hasRepeat_line_terminator (x : Char) (hx : x = '\n' ∨ x = '\r') (n : Nat) :
    hasRepeat (List.replicate n x) = false :=
  hasRepeat_line_terminators _ (fun ch hch => by rw [(List.mem_replicate.mp hch).2]; exact hx)

theorem patternPenalty_replicate (c : Char) (n : Nat) (hn : 3 ≤ n) :
    patternPenalty (List.replicate n c) = if c ≠ '\n' ∧ c ≠ '\r' then 1 else 0 := by
  unfold patternPenalty
  rw [List.map_replicate]
  split_ifs with hany hc hc
  · rfl
  · exfalso
    have hx : c.toLower = '\n' ∨ c.toLower = '\r' := by
      by_cases h1 : c = '\n'
      · left; rw [h1]; rfl
      · right
        have h2 : c = '\r' := by
          by_contra h2
          exact hc ⟨h1, h2⟩
        rw [h2]; rfl
    obtain ⟨pat, hpat, hs⟩ := List.any_eq_true.mp hany
    have hall : ∀ alts : List (List Char), (∀ a ∈ alts, ∃ ch ∈ a, ch ≠ '\n' ∧ ch ≠ '\r') →
        alts.any (fun a => contains (List.replicate n c.toLower) a) = false := by
      intro alts halts
      rw [List.any_eq_false]
      intro a ha hcon
      obtain ⟨ch, hch, hn1, hn2⟩ := halts a ha
      have := occurs_replicate a _ n hcon ch hch
      rcases hx with hx | hx
      · exact hn1 (this.trans hx)
      · exact hn2 (this.trans hx)
    simp only [patterns, List.mem_cons, List.mem_singleton, List.not_mem_nil, or_false] at hpat
    rcases hpat with rfl | rfl | rfl | rfl
    · rw [regex_search, hasRepeat_line_terminator _ hx n] at hs
      exact Bool.noConfusion hs
    · rw [regex_search, hall _ (by decide)] at hs
      exact Bool.noConfusion hs
    · rw [regex_search, hall _ (by decide)] at hs
      exact Bool.noConfusion hs
    · rw [regex_search, hall _ (by decide)] at hs
      exact Bool.noConfusion hs
  · exfalso
    apply hany
    have h1 : c.toLower ≠ '\n' := fun h => hc.1 (toLower_eq_low c '\n' (by decide) h)
    have h2 : c.toLower ≠ '\r' := fun h => hc.2 (toLower_eq_low c '\r' (by decide) h)
    rw [List.any_eq_true]
    exact ⟨Pattern.repeated, by simp [patterns], hasRepeat_replicate _ n hn h1 h2⟩
  · rfl

/-- A character belongs to at most one of the four classes. -/
theorem char_class_le_one (c : Char) :
    (if c.isLower then 1 else 0) + (if c.isUpper then 1 else 0) + (if c.isDigit then 1 else 0)
      + (if special_chars.contains c then 1 else 0) ≤ (1 : Int) := by
  have hs : special_chars.contains c = true →
      c.isLower = false ∧ c.isUpper = false ∧ c.isDigit = false := by
    intro h
    have hm : c ∈ special_chars := by simpa using h
    have hall : ∀ x ∈ special_chars, x.isLower = false ∧ x.isUpper = false ∧ x.isDigit = false := by
      decide
    exact hall c hm
  have hlu : c.isLower = true → c.isUpper = true → False := fun h1 h2 =>
    absurd (le_trans ((isLower_iff c).mp h1).1 ((isUpper_iff c).mp h2).2) (by decide)
  have hld : c.isLower = true → c.isDigit = true → False := fun h1 h2 =>
    absurd (le_trans ((isLower_iff c).mp h1).1 ((isDigit_iff c).mp h2).2) (by decide)
  have hud : c.isUpper = true → c.isDigit = true → False := fun h1 h2 =>
    absurd (le_trans ((isUpper_iff c).mp h1).1 ((isDigit_iff c).mp h2).2) (by decide)
  cases h1 : c.isLower <;> cases h2 : c.isUpper <;> cases h3 : c.isDigit <;>
    cases h4 : special_chars.contains c <;> simp_all

theorem classCount_replicate (c : Char) (n : Nat) (hn : 3 ≤ n) :
    classCount (List.replicate n c) ≤ 1
      ∧ (c = '\n' ∨ c = '\r' → classCount (List.replicate n c) = 0) := by
  have h0 : ¬ n = 0 := by omega
  have hc := char_class_le_one c
  unfold classCount
  simp only [List.any_replicate, if_neg h0]
  refine ⟨hc, ?_⟩
  rintro (rfl | rfl) <;> decide

/-- C20 (as stated, refuted): the string of three line feeds does not report "Avoid simple
sequences" together with "Too many repeated characters" and a score within the length
bonus. -/
theorem repeated_line_feed_counterexample :
    ¬ ("Avoid simple sequences" ∈ (checkPasswordStrength (List.replicate 3 '\n')).feedback
      ∧ "Too many repeated characters"
          ∈ (checkPasswordStrength (List.replicate 3 '\n')).feedback
      ∧ (checkPasswordStrength (List.replicate 3 '\n')).score ≤ lengthBonus 3) := by
  decide

/-- C20 (amended): for every character `c` and every `n ≥ 3`, the report on `n` copies of
`c` holds "Too many repeated characters" and a score of at most the length bonus for `n`;
it holds "Avoid simple sequences" exactly when `c` is neither line feed nor carriage
return (the two characters the `.` of the repeat pattern does not match); for sixteen
'a's the score is at most 3. -/
theorem repeated_character (c : Char) (n : Nat) (hn : 3 ≤ n) :
    "Too many repeated characters" ∈ (checkPasswordStrength (List.replicate n c)).feedback
      ∧ (checkPasswordStrength (List.replicate n c)).score ≤ lengthBonus n
      ∧ ("Avoid simple sequences" ∈ (checkPasswordStrength (List.replicate n c)).feedback
          ↔ (c ≠ '\n' ∧ c ≠ '\r'))
      ∧ (checkPasswordStrength (List.replicate 16 'a')).score ≤ 3 := by
  have hU := uniquenessBonus_replicate c n hn
  have hP := patternPenalty_replicate c n hn
  obtain ⟨hC, hC0⟩ := classCount_replicate c n hn
  have hL : 0 ≤ lengthBonus n := by
    unfold lengthBonus
    split_ifs <;> norm_num
  have hB : 0 ≤ blocklistPenalty (List.replicate n c) := by
    unfold blocklistPenalty
    split_ifs <;> norm_num
  refine ⟨?_, ?_, ?_, by decide⟩
  · rw [checkPasswordStrength_feedback_eq, hU]
    simp
  · rw [checkPasswordStrength_score_eq, hU, hP, List.length_replicate]
    split_ifs with hc
    · exact max_le hL (by omega)
    · have h0 : classCount (List.replicate n c) = 0 := by
        apply hC0
        by_cases h1 : c = '\n'
        · exact Or.inl h1
        · right
          by_contra h2
          exact hc ⟨h1, h2⟩
      rw [h0]
      exact max_le hL (by omega)
  · rw [checkPasswordStrength_feedback_eq, hP]
    by_cases hc : c ≠ '\n' ∧ c ≠ '\r'
    · simp [hc]
    · have h01 : ¬ ((0 : Int) = 1) := by norm_num
      rw [if_neg hc, if_neg h01]
      refine iff_of_false ?_ hc
      simp only [List.mem_append, not_or]
      refine ⟨⟨⟨⟨?_, ?_⟩, ?_⟩, ?_⟩, ?_⟩ <;> first | decide | (split_ifs <;> decide)

theorem repeated_character_witness :
    3 ≤ 5
      ∧ "Too many repeated characters" ∈ (checkPasswordStrength (List.replicate 5 'Z')).feedback
      ∧ (checkPasswordStrength (List.replicate 5 'Z')).score ≤ lengthBonus 5
      ∧ ("Avoid simple sequences" ∈ (checkPasswordStrength (List.replicate 5 'Z')).feedback
          ↔ ('Z' ≠ '\n' ∧ 'Z' ≠ '\r'))
      ∧ (checkPasswordStrength (List.replicate 16 'a')).score ≤ 3 :=
  ⟨by decide, repeated_character 'Z' 5 (by decide)⟩

/-! ## Lemmas on the WORD component -/

theorem fallback_words_ne_nil : ∀ w ∈ fallback_words, w ≠ [] := by
  decide

/-- The word `getRandomWord` returns is a member of the corpus, and one raw value of the
engine is consumed. -/
theorem getRandomWord_mem (min_length max_length : Int) (g : Gen) :
    (getRandomWord min_length max_length g).1 ∈ fallback_words
      ∧ (getRandomWord min_length max_length g).2 = g.tail := by
  have key : ∀ l : List (List Char), l ≠ [] → (∀ w ∈ l, w ∈ fallback_words) →
      l.getD (uniformInt 0 ((l.length : Int) - 1) g).1.toNat [] ∈ fallback_words := by
    intro l hne hsub
    have hlt := uniformInt_index_lt l.length (List.length_pos.mpr hne) g
    rw [List.getD_eq_getElem _ _ hlt]
    exact hsub _ (List.getElem_mem hlt)
  refine ⟨?_, rfl⟩
  unfold getRandomWord
  simp only []
  split_ifs with he
  · exact key fallback_words (by decide) (fun w hw => hw)
  · refine key _ ?_ (fun w hw => (List.mem_filter.mp hw).1)
    intro h0
    rw [h0] at he
    exact he rfl

theorem boolOption_eq_true_iff (config : List (String × String)) (key : String) :
    boolOption config key = true ↔ config.lookup key = some "true" := by
  unfold boolOption
  cases config.lookup key with
  | none => simp
  | some v => simp

theorem boolOption_eq_false_iff (config : List (String × String)) (key : String) :
    boolOption config key = false ↔ config.lookup key ≠ some "true" := by
  rw [Ne, ← boolOption_eq_true_iff]
  cases boolOption config key <;> simp

/-- The five replacements applied in turn replace each character by its substitute. -/
theorem applyReplacements_leet (word : List Char) :
    applyReplacements [('a', '4'), ('e', '3'), ('i', '1'), ('o', '0'), ('s', '5')] word
      = word.map leetChar := by
  simp only [applyReplacements, List.foldl_cons, List.foldl_nil, replaceChar, List.map_map]
  apply List.map_congr_left
  intro c _
  simp only [Function.comp, leetChar, beq_iff_eq]
  by_cases ha : c = 'a'
  · subst ha; decide
  · by_cases he : c = 'e'
    · subst he; decide
    · by_cases hi : c = 'i'
      · subst hi; decide
      · by_cases ho : c = 'o'
        · subst ho; decide
        · by_cases hs : c = 's'
          · subst hs; decide
          · simp [ha, he, hi, ho, hs]

theorem leetChar_not_vowel (c : Char) : leetChar c ∉ ['a', 'e', 'i', 'o', 's'] := by
  unfold leetChar
  split_ifs with ha he hi ho hs
  · decide
  · decide
  · decide
  · decide
  · decide
  · simp [ha, he, hi, ho, hs]

/-- With both length options readable the WORD case never fails: it appends the chosen
word after the case transformation and the replacements. -/
theorem wordComponent_eq (config : List (String × String)) (password : List Char) (g : Gen)
    (min_length max_length : Int)
    (hmin : intOption config "min_length" 3 = .ok min_length)
    (hmax : intOption config "max_length" 10 = .ok max_length) :
    wordComponent config password g
      = .ok (password ++ applyReplacements
          (if boolOption config "replacements" then
            [('a', '4'), ('e', '3'), ('i', '1'), ('o', '0'), ('s', '5')] else [])
          (caseTransform (boolOption config "capitalize") (boolOption config "uppercase")
            (boolOption config "lowercase") (boolOption config "random_case")
            (getRandomWord min_length max_length g).1
            (getRandomWord min_length max_length g).2).1,
        (caseTransform (boolOption config "capitalize") (boolOption config "uppercase")
            (boolOption config "lowercase") (boolOption config "random_case")
            (getRandomWord min_length max_length g).1
            (getRandomWord min_length max_length g).2).2) := by
  unfold wordComponent
  rw [hmin, hmax]

/-- Each letter of the random-case loop follows its own draw: the letter at position `i`
is upper-cased when the `i`-th raw value left in the engine is even, lower-cased when
it is odd. -/
theorem randomCase_spec (word : List Char) : ∀ (g : Gen),
    (randomCase word g).1.length = word.length
      ∧ ∀ i : Nat, i < word.length →
          (randomCase word g).1.getD i ' '
            = if g.getD i 0 % 2 = 0 then (word.getD i ' ').toUpper
              else (word.getD i ' ').toLower := by
  induction word with
  | nil => intro g; exact ⟨rfl, fun i hi => absurd hi (Nat.not_lt_zero i)⟩
  | cons c t ih =>
    intro g
    obtain ⟨hl, hi⟩ := ih (uniformInt 0 1 g).2
    refine ⟨by simp [randomCase, hl], ?_⟩
    intro i hlt
    cases i with
    | zero =>
      have h0 : ((uniformInt 0 1 g).1 = 0) ↔ g.getD 0 0 % 2 = 0 := by
        cases g with
        | nil => simp [uniformInt]
        | cons r rest =>
          simp only [uniformInt, List.headD_cons, List.getD_cons_zero]
          omega
      simp only [randomCase, List.getD_cons_zero]
      by_cases hp : g.getD 0 0 % 2 = 0
      · rw [if_pos (h0.mpr hp), if_pos hp]
      · rw [if_neg (fun h => hp (h0.mp h)), if_neg hp]
    | succ j =>
      have hj := hi j (by simpa using hlt)
      have hg : (uniformInt 0 1 g).2.getD j 0 = g.getD (j + 1) 0 := by
        cases g with
        | nil => simp [uniformInt]
        | cons r rest => simp [uniformInt]
      simp only [randomCase, List.getD_cons_succ]
      rw [hj, hg]

/-- C13: for a Word component without replacements the case flags are applied by the
priority capitalize > uppercase > lowercase > random_case: with capitalize "true" the
chosen corpus word is appended with only its first letter upper-cased, whatever the other
flags; otherwise with uppercase "true" it is appended fully upper-cased; otherwise with
lowercase "true" fully lower-cased; otherwise with random_case "true" each letter is
upper- or lower-cased by its own draw; with no flag "true" it is appended unchanged. -/
theorem wordComponent_case (config : List (String × String)) (password : List Char) (g : Gen)
    (min_length max_length : Int) (w : List Char) (g1 : Gen)
    (hmin : intOption config "min_length" 3 = .ok min_length)
    (hmax : intOption config "max_length" 10 = .ok max_length)
    (hw : getRandomWord min_length max_length g = (w, g1))
    (hrep : config.lookup "replacements" ≠ some "true") :
    w ∈ fallback_words
      ∧ (config.lookup "capitalize" = some "true" →
          ∃ c t, w = c :: t
            ∧ wordComponent config password g = .ok (password ++ c.toUpper :: t, g1))
      ∧ (config.lookup "capitalize" ≠ some "true" → config.lookup "uppercase" = some "true" →
          wordComponent config password g = .ok (password ++ w.map Char.toUpper, g1))
      ∧ (config.lookup "capitalize" ≠ some "true" → config.lookup "uppercase" ≠ some "true" →
          config.lookup "lowercase" = some "true" →
          wordComponent config password g = .ok (password ++ w.map Char.toLower, g1))
      ∧ (config.lookup "capitalize" ≠ some "true" → config.lookup "uppercase" ≠ some "true" →
          config.lookup "lowercase" ≠ some "true" →
          config.lookup "random_case" = some "true" →
          ∃ text g2, wordComponent config password g = .ok (password ++ text, g2)
            ∧ text.length = w.length
            ∧ ∀ i : Nat, i < w.length →
                text.getD i ' ' = if g1.getD i 0 % 2 = 0 then (w.getD i ' ').toUpper
                  else (w.getD i ' ').toLower)
      ∧ (config.lookup "capitalize" ≠ some "true" → config.lookup "uppercase" ≠ some "true" →
          config.lookup "lowercase" ≠ some "true" →
          config.lookup "random_case" ≠ some "true" →
          wordComponent config password g = .ok (password ++ w, g1)) := by
  have hmem := (getRandomWord_mem min_length max_length g).1
  have heq := wordComponent_eq config password g min_length max_length hmin hmax
  rw [hw] at hmem heq
  simp only [(boolOption_eq_false_iff config "replacements").mpr hrep, Bool.false_eq_true,
    if_false, applyReplacements, List.foldl_nil] at heq
  have hne : w ≠ [] := fallback_words_ne_nil w hmem
  refine ⟨hmem, ?_, ?_, ?_, ?_, ?_⟩
  · intro hc
    obtain ⟨c, t, rfl⟩ := List.exists_cons_of_ne_nil hne
    refine ⟨c, t, rfl, ?_⟩
    rw [heq, (boolOption_eq_true_iff config "capitalize").mpr hc]
    simp [caseTransform, capitalizeFirst]
  · intro hc hu
    rw [heq, (boolOption_eq_false_iff config "capitalize").mpr hc,
      (boolOption_eq_true_iff config "uppercase").mpr hu]
    simp [caseTransform]
  · intro hc hu hl
    rw [heq, (boolOption_eq_false_iff config "capitalize").mpr hc,
      (boolOption_eq_false_iff config "uppercase").mpr hu,
      (boolOption_eq_true_iff config "lowercase").mpr hl]
    simp [caseTransform]
  · intro hc hu hl hr
    obtain ⟨hlen, hidx⟩ := randomCase_spec w g1
    refine ⟨(randomCase w g1).1, (randomCase w g1).2, ?_, hlen, hidx⟩
    rw [heq, (boolOption_eq_false_iff config "capitalize").mpr hc,
      (boolOption_eq_false_iff config "uppercase").mpr hu,
      (boolOption_eq_false_iff config "lowercase").mpr hl,
      (boolOption_eq_true_iff config "random_case").mpr hr]
    simp [caseTransform]
  · intro hc hu hl hr
    rw [heq, (boolOption_eq_false_iff config "capitalize").mpr hc,
      (boolOption_eq_false_iff config "uppercase").mpr hu,
      (boolOption_eq_false_iff config "lowercase").mpr hl,
      (boolOption_eq_false_iff config "random_case").mpr hr]
    simp [caseTransform]

theorem wordComponent_case_witness :
    intOption [("min_length", "4"), ("capitalize", "true"), ("uppercase", "true")]
        "min_length" 3 = .ok 4
      ∧ intOption [("min_length", "4"), ("capitalize", "true"), ("uppercase", "true")]
        "max_length" 10 = .ok 10
      ∧ getRandomWord 4 10 [1, 6] = ("mountain".toList, [6])
      ∧ (([("min_length", "4"), ("capitalize", "true"), ("uppercase", "true")] :
          List (String × String)).lookup "capitalize" = some "true" →
        ∃ c t, "mountain".toList = c :: t
          ∧ wordComponent [("min_length", "4"), ("capitalize", "true"), ("uppercase", "true")]
              "x-".toList [1, 6] = .ok ("x-".toList ++ c.toUpper :: t, [6])) :=
  ⟨rfl, rfl, rfl,
    (wordComponent_case [("min_length", "4"), ("capitalize", "true"), ("uppercase", "true")]
      "x-".toList [1, 6] 4 10 "mountain".toList [6] rfl rfl rfl (by decide)).2.1⟩

/-- C14: for a Word component whose replacements option is "true" the appended text is
the case-transformed word with every a, e, i, o, s replaced by 4, 3, 1, 0, 5, whatever
the random source yields, so it holds none of the characters a, e, i, o, s; when the
option is absent or not "true" the case-transformed word is appended as it is. -/
theorem wordComponent_replacements (config : List (String × String)) (password : List Char)
    (g : Gen) (min_length max_length : Int) (w : List Char) (g1 : Gen)
    (hmin : intOption config "min_length" 3 = .ok min_length)
    (hmax : intOption config "max_length" 10 = .ok max_length)
    (hw : getRandomWord min_length max_length g = (w, g1)) :
    (config.lookup "replacements" = some "true" →
        wordComponent config password g
          = .ok (password ++ (caseTransform (boolOption config "capitalize")
              (boolOption config "uppercase") (boolOption config "lowercase")
              (boolOption config "random_case") w g1).1.map leetChar,
            (caseTransform (boolOption config "capitalize")
              (boolOption config "uppercase") (boolOption config "lowercase")
              (boolOption config "random_case") w g1).2)
        ∧ ∀ ch ∈ (caseTransform (boolOption config "capitalize")
              (boolOption config "uppercase") (boolOption config "lowercase")
              (boolOption config "random_case") w g1).1.map leetChar,
            ch ∉ ['a', 'e', 'i', 'o', 's'])
      ∧ (config.lookup "replacements" ≠ some "true" →
        wordComponent config password g
          = .ok (password ++ (caseTransform (boolOption config "capitalize")
              (boolOption config "uppercase") (boolOption config "lowercase")
              (boolOption config "random_case") w g1).1,
            (caseTransform (boolOption config "capitalize")
              (boolOption config "uppercase") (boolOption config "lowercase")
              (boolOption config "random_case") w g1).2)) := by
  have heq := wordComponent_eq config password g min_length max_length hmin hmax
  rw [hw] at heq
  refine ⟨fun hr => ⟨?_, ?_⟩, fun hr => ?_⟩
  · rw [heq, (boolOption_eq_true_iff config "replacements").mpr hr, if_pos rfl,
      applyReplacements_leet]
  · intro ch hch
    obtain ⟨c, -, rfl⟩ := List.mem_map.mp hch
    exact leetChar_not_vowel c
  · rw [heq, (boolOption_eq_false_iff config "replacements").mpr hr]
    rfl

theorem wordComponent_replacements_witness :
    intOption [("replacements", "true"), ("lowercase", "true")] "min_length" 3 = .ok 3
      ∧ intOption [("replacements", "true"), ("lowercase", "true")] "max_length" 10 = .ok 10
      ∧ getRandomWord 3 10 [5, 2] = ("ocean".toList, [2])
      ∧ (([("replacements", "true"), ("lowercase", "true")] :
          List (String × String)).lookup "replacements" = some "true" →
        wordComponent [("replacements", "true"), ("lowercase", "true")] [] [5, 2]
          = .ok ([] ++ (caseTransform false false true false "ocean".toList [2]).1.map leetChar,
              (caseTransform false false true false "ocean".toList [2]).2)
        ∧ ∀ ch ∈ (caseTransform false false true false "ocean".toList [2]).1.map leetChar,
            ch ∉ ['a', 'e', 'i', 'o', 's']) :=
  ⟨rfl, rfl, rfl,
    (wordComponent_replacements [("replacements", "true"), ("lowercase", "true")] [] [5, 2]
      3 10 "ocean".toList [2] rfl rfl rfl).1⟩

/-! ## Lemmas on the RANDOM_CHARS and NUMBER components -/

theorem charPool_foldl (types : List (List Char)) : ∀ init : List Char,
    types.foldl (fun pool type => pool ++ typePool type) init
      = init ++ (types.map typePool).flatten := by
  induction types with
  | nil => intro init; simp
  | cons t rest ih =>
    intro init
    simp only [List.foldl_cons, List.map_cons, List.flatten_cons]
    rw [ih, List.append_assoc]

theorem mem_charPool_foldl (types : List (List Char)) (ch : Char) :
    ch ∈ types.foldl (fun pool type => pool ++ typePool type) []
      ↔ ∃ t ∈ types, ch ∈ typePool t := by
  rw [charPool_foldl, List.nil_append, List.mem_flatten]
  constructor
  · rintro ⟨l, hl, hch⟩
    obtain ⟨t, ht, rfl⟩ := List.mem_map.mp hl
    exact ⟨t, ht, hch⟩
  · rintro ⟨t, ht, hch⟩
    exact ⟨typePool t, List.mem_map.mpr ⟨t, ht, rfl⟩, hch⟩

theorem mem_typePool (t : List Char) (ch : Char) (h : ch ∈ typePool t) :
    (t = "lowercase".toList ∧ ch ∈ lowercase) ∨ (t = "uppercase".toList ∧ ch ∈ uppercase)
      ∨ (t = "digits".toList ∧ ch ∈ digits) ∨ (t = "special".toList ∧ ch ∈ special_chars) := by
  unfold typePool at h
  split_ifs at h with h1 h2 h3 h4
  · exact Or.inl ⟨h1, h⟩
  · exact Or.inr (Or.inl ⟨h2, h⟩)
  · exact Or.inr (Or.inr (Or.inl ⟨h3, h⟩))
  · exact Or.inr (Or.inr (Or.inr ⟨h4, h⟩))
  · exact absurd h (List.not_mem_nil ch)

/-- C15: for a RandomChars component whose length option reads as `n ≥ 0` (4 when absent)
and whose types are the comma-separated list of the types option (lowercase, uppercase,
digits when absent), the builder appends characters that each belong to the set of a
requested type among lowercase, uppercase, digits, special: exactly `n` of them when the
pool of the recognised requested types is not empty, and nothing when it is empty. -/
theorem randomCharsComponent_spec (config : List (String × String)) (password : List Char)
    (g : Gen) (n : Int) (hlen : intOption config "length" 4 = .ok n) (hn : 0 ≤ n) :
    (∃ text g', randomCharsComponent config password g = .ok (password ++ text, g')
        ∧ (∀ ch ∈ text,
            ("lowercase".toList ∈ randomCharsTypes config ∧ ch ∈ lowercase)
            ∨ ("uppercase".toList ∈ randomCharsTypes config ∧ ch ∈ uppercase)
            ∨ ("digits".toList ∈ randomCharsTypes config ∧ ch ∈ digits)
            ∨ ("special".toList ∈ randomCharsTypes config ∧ ch ∈ special_chars))
        ∧ ((∃ t ∈ randomCharsTypes config, typePool t ≠ []) → (text.length : Int) = n)
        ∧ ((∀ t ∈ randomCharsTypes config, typePool t = []) → text = [] ∧ g' = g))
      ∧ (config.lookup "length" = none → n = 4)
      ∧ (config.lookup "types" = none →
          randomCharsTypes config = ["lowercase".toList, "uppercase".toList, "digits".toList])
      ∧ (∀ v, config.lookup "types" = some v →
          randomCharsTypes config = getlineTokens v.toList []) := by
  refine ⟨?_, ?_, ?_, ?_⟩
  · unfold randomCharsComponent
    rw [hlen]
    simp only []
    by_cases hpool : (randomCharsTypes config).foldl (fun pool type => pool ++ typePool type) []
        = []
    · refine ⟨[], g, ?_, ?_, ?_, ?_⟩
      · simp [hpool]
      · intro ch hch
        exact absurd hch (List.not_mem_nil ch)
      · rintro ⟨t, ht, hne⟩
        exfalso
        apply hne
        apply List.eq_nil_iff_forall_not_mem.mpr
        intro ch hch
        have := (mem_charPool_foldl _ ch).mpr ⟨t, ht, hch⟩
        rw [hpool] at this
        exact absurd this (List.not_mem_nil ch)
      · intro _
        exact ⟨rfl, rfl⟩
    · obtain ⟨drawn, h1, h2, h3⟩ := pushRandomChars_spec _ hpool n.toNat password g
      refine ⟨drawn, (pushRandomChars ((randomCharsTypes config).foldl
        (fun pool type => pool ++ typePool type) []) n.toNat password g).2, ?_, ?_, ?_, ?_⟩
      · have hne : (!((randomCharsTypes config).foldl
            (fun pool type => pool ++ typePool type) []).isEmpty) = true := by
          simpa [List.isEmpty_iff] using hpool
        rw [if_pos hne, ← h1]
      · intro ch hch
        obtain ⟨t, ht, hmem⟩ := (mem_charPool_foldl _ ch).mp (h3 ch hch)
        rcases mem_typePool t ch hmem with ⟨rfl, h⟩ | ⟨rfl, h⟩ | ⟨rfl, h⟩ | ⟨rfl, h⟩
        · exact Or.inl ⟨ht, h⟩
        · exact Or.inr (Or.inl ⟨ht, h⟩)
        · exact Or.inr (Or.inr (Or.inl ⟨ht, h⟩))
        · exact Or.inr (Or.inr (Or.inr ⟨ht, h⟩))
      · intro _
        rw [h2]
        exact Int.toNat_of_nonneg hn
      · intro hall
        exfalso
        apply hpool
        apply List.eq_nil_iff_forall_not_mem.mpr
        intro ch hch
        obtain ⟨t, ht, hmem⟩ := (mem_charPool_foldl _ ch).mp hch
        rw [hall t ht] at hmem
        exact absurd hmem (List.not_mem_nil ch)
  · intro hnone
    unfold intOption at hlen
    rw [hnone] at hlen
    cases hlen
    rfl
  · intro hnone
    unfold randomCharsTypes
    rw [hnone]
  · intro v hv
    unfold randomCharsTypes
    rw [hv]

theorem randomCharsComponent_spec_witness :
    intOption [("length", "3"), ("types", "special,digits,none")] "length" 4 = .ok 3
      ∧ (0 : Int) ≤ 3
      ∧ ∃ text g', randomCharsComponent [("length", "3"), ("types", "special,digits,none")]
          "ab".toList [30, 1, 27, 9] = .ok ("ab".toList ++ text, g')
        ∧ (∀ ch ∈ text,
            ("lowercase".toList
                ∈ randomCharsTypes [("length", "3"), ("types", "special,digits,none")]
              ∧ ch ∈ lowercase)
            ∨ ("uppercase".toList
                ∈ randomCharsTypes [("length", "3"), ("types", "special,digits,none")]
              ∧ ch ∈ uppercase)
            ∨ ("digits".toList
                ∈ randomCharsTypes [("length", "3"), ("types", "special,digits,none")]
              ∧ ch ∈ digits)
            ∨ ("special".toList
                ∈ randomCharsTypes [("length", "3"), ("types", "special,digits,none")]
              ∧ ch ∈ special_chars))
        ∧ ((∃ t ∈ randomCharsTypes [("length", "3"), ("types", "special,digits,none")],
            typePool t ≠ []) → (text.length : Int) = 3)
        ∧ ((∀ t ∈ randomCharsTypes [("length", "3"), ("types", "special,digits,none")],
            typePool t = []) → text = [] ∧ g' = [30, 1, 27, 9]) :=
  ⟨rfl, by decide,
    (randomCharsComponent_spec [("length", "3"), ("types", "special,digits,none")]
      "ab".toList [30, 1, 27, 9] 3 rfl (by decide)).1⟩

theorem uniformInt_range (lo hi : Int) (h : lo ≤ hi) (g : Gen) :
    lo ≤ (uniformInt lo hi g).1 ∧ (uniformInt lo hi g).1 ≤ hi := by
  have hpos : (0 : Int) < hi - lo + 1 := by omega
  have hlt := Int.emod_lt_of_pos ((g.headD 0 : Nat) : Int) hpos
  have hge := Int.emod_nonneg ((g.headD 0 : Nat) : Int) (ne_of_gt hpos)
  simp only [uniformInt]
  omega

/-- C16: for a Number component whose options read as `0 ≤ min ≤ max` (0 and 9999 when
absent) and padding `p` (0 when absent), the builder appends the decimal digits of some
integer `n` with `min ≤ n ≤ max`, padded on the left with '0' up to `p` characters when
`p > 0` (the appended text then has length `max p (number of digits of n)`), and unpadded
when `p ≤ 0`. -/
theorem numberComponent_spec (config : List (String × String)) (password : List Char)
    (g : Gen) (lo hi p : Int)
    (hmin : intOption config "min" 0 = .ok lo)
    (hmax : intOption config "max" 9999 = .ok hi)
    (hpad : intOption config "padding" 0 = .ok p)
    (h0 : 0 ≤ lo) (hle : lo ≤ hi) :
    (∃ (n : Nat) (g' : Gen), lo ≤ (n : Int) ∧ (n : Int) ≤ hi
        ∧ (0 < p → numberComponent config password g
              = .ok (password ++ List.leftpad p.toNat '0' (Nat.toDigits 10 n), g')
            ∧ (List.leftpad p.toNat '0' (Nat.toDigits 10 n)).length
                = max p.toNat (Nat.toDigits 10 n).length)
        ∧ (p ≤ 0 → numberComponent config password g
              = .ok (password ++ Nat.toDigits 10 n, g')))
      ∧ (config.lookup "min" = none → lo = 0)
      ∧ (config.lookup "max" = none → hi = 9999)
      ∧ (config.lookup "padding" = none → p = 0) := by
  refine ⟨?_, ?_, ?_, ?_⟩
  · obtain ⟨hge, hle2⟩ := uniformInt_range lo hi hle g
    have hnn : 0 ≤ (uniformInt lo hi g).1 := le_trans h0 hge
    have hdec : decimal (uniformInt lo hi g).1 = Nat.toDigits 10 (uniformInt lo hi g).1.toNat := by
      unfold decimal
      rw [if_neg (not_lt.mpr hnn)]
    refine ⟨(uniformInt lo hi g).1.toNat, (uniformInt lo hi g).2, ?_, ?_, ?_, ?_⟩
    · rw [Int.toNat_of_nonneg hnn]
      exact hge
    · rw [Int.toNat_of_nonneg hnn]
      exact hle2
    · intro hp
      refine ⟨?_, List.leftpad_length _ _ _⟩
      unfold numberComponent
      rw [hmin, hmax, hpad]
      simp only []
      rw [if_pos hp, hdec]
    · intro hp
      unfold numberComponent
      rw [hmin, hmax, hpad]
      simp only []
      rw [if_neg (not_lt.mpr hp), hdec]
  · intro hnone
    unfold intOption at hmin
    rw [hnone] at hmin
    cases hmin
    rfl
  · intro hnone
    unfold intOption at hmax
    rw [hnone] at hmax
    cases hmax
    rfl
  · intro hnone
    unfold intOption at hpad
    rw [hnone] at hpad
    cases hpad
    rfl

theorem numberComponent_spec_witness :
    intOption [("min", "5"), ("max", "50"), ("padding", "4")] "min" 0 = .ok 5
      ∧ intOption [("min", "5"), ("max", "50"), ("padding", "4")] "max" 9999 = .ok 50
      ∧ intOption [("min", "5"), ("max", "50"), ("padding", "4")] "padding" 0 = .ok 4
      ∧ (0 : Int) ≤ 5 ∧ (5 : Int) ≤ 50
      ∧ ∃ (n : Nat) (g' : Gen), (5 : Int) ≤ (n : Int) ∧ (n : Int) ≤ 50
        ∧ ((0 : Int) < 4 → numberComponent [("min", "5"), ("max", "50"), ("padding", "4")]
              "id".toList [7, 3] = .ok ("id".toList ++ List.leftpad (4 : Int).toNat '0'
                (Nat.toDigits 10 n), g')
            ∧ (List.leftpad (4 : Int).toNat '0' (Nat.toDigits 10 n)).length
                = max (4 : Int).toNat (Nat.toDigits 10 n).length)
        ∧ ((4 : Int) ≤ 0 → numberComponent [("min", "5"), ("max", "50"), ("padding", "4")]
              "id".toList [7, 3] = .ok ("id".toList ++ Nat.toDigits 10 n, g')) :=
  ⟨rfl, rfl, rfl, by decide, by decide,
    (numberComponent_spec [("min", "5"), ("max", "50"), ("padding", "4")] "id".toList [7, 3]
      5 50 4 rfl rfl rfl (by decide) (by decide)).1⟩

/-! ## Reading numeric options -/

theorem stoi_no_integer (v : String) (h : startsWithInteger v = false) :
    stoi v = .error (.invalid_argument "stoi") := by
  have hds : (afterSign v).takeWhile Char.isDigit = [] := by
    unfold startsWithInteger at h
    cases hs : afterSign v with
    | nil => rfl
    | cons d t =>
      rw [hs] at h
      simp only at h
      simp [List.takeWhile, h]
  unfold stoi
  simp only [hds, List.isEmpty_nil, if_true]

theorem isspace_of_isDigit (c : Char) (h : c.isDigit = true) : isspace c = false := by
  have h0 := ((isDigit_iff c).mp h).1
  cases hsp : isspace c with
  | false => rfl
  | true =>
    exfalso
    simp only [isspace, Bool.or_eq_true, beq_iff_eq] at hsp
    rcases hsp with ((((rfl | rfl) | rfl) | rfl) | rfl) | rfl <;> exact absurd h0 (by decide)

theorem takeWhile_all (p : Char → Bool) (l : List Char) (h : l.all p = true) :
    l.takeWhile p = l := by
  induction l with
  | nil => rfl
  | cons a t ih =>
    simp only [List.all_cons, Bool.and_eq_true] at h
    simp [List.takeWhile, h.1, ih h.2]

theorem sign_match_other (v : String) (c : Char) (t : List Char) (hm : c ≠ '-') (hp : c ≠ '+') :
    (v.toList.dropWhile isspace = c :: t → afterSign v = c :: t)
      ∧ (v.toList = c :: t → literalValue v = (digitsValue (c :: t) : Int))
      ∧ (v.toList = c :: t →
          isIntegerLiteral v = (!(c :: t).isEmpty && (c :: t).all Char.isDigit)) := by
  refine ⟨fun hv => ?_, fun hv => ?_, fun hv => ?_⟩
  · unfold afterSign
    rw [hv]
    split
    · rename_i heq
      exact absurd (List.cons.inj heq).1 hm
    · rename_i heq
      exact absurd (List.cons.inj heq).1 hp
    · rfl
  · unfold literalValue
    rw [hv]
    split
    · rename_i heq
      exact absurd (List.cons.inj heq).1 hm
    · rename_i heq
      exact absurd (List.cons.inj heq).1 hp
    · rfl
  · unfold isIntegerLiteral
    rw [hv]
    split
    · rename_i heq
      exact absurd (List.cons.inj heq).1 hm
    · rename_i heq
      exact absurd (List.cons.inj heq).1 hp
    · rfl

/-- On a well-formed integer string `std::stoi` returns the integer it denotes, or throws
`std::out_of_range` when that integer does not fit an `int`. -/
theorem stoi_literal (v : String) (h : isIntegerLiteral v = true) :
    stoi v = if literalValue v < -2147483648 ∨ literalValue v > 2147483647 then
        .error (.out_of_range "stoi")
      else .ok (literalValue v) := by
  cases hl : v.toList with
  | nil =>
    unfold isIntegerLiteral at h
    rw [hl] at h
    simp at h
  | cons c t =>
    by_cases hm : c = '-'
    · subst hm
      have hlit : literalValue v = -(digitsValue t : Int) := by
        unfold literalValue
        rw [hl]
        rfl
      have hd : v.toList.dropWhile isspace = '-' :: t := by
        rw [hl]
        simp [List.dropWhile, isspace]
      have hafter : afterSign v = t := by
        unfold afterSign
        rw [hd]
        rfl
      unfold isIntegerLiteral at h
      rw [hl] at h
      simp only [Bool.and_eq_true, Bool.not_eq_true', List.isEmpty_eq_false] at h
      have hne : t.isEmpty = false := by simpa [List.isEmpty_iff] using h.1
      unfold stoi
      simp only [hd, hafter, hlit, takeWhile_all _ _ h.2, List.head?_cons, beq_self_eq_true,
        if_true, hne, Bool.false_eq_true, if_false]
    · by_cases hp : c = '+'
      · subst hp
        have hlit : literalValue v = (digitsValue t : Int) := by
          unfold literalValue
          rw [hl]
          rfl
        have hd : v.toList.dropWhile isspace = '+' :: t := by
          rw [hl]
          simp [List.dropWhile, isspace]
        have hafter : afterSign v = t := by
          unfold afterSign
          rw [hd]
          rfl
        unfold isIntegerLiteral at h
        rw [hl] at h
        simp only [Bool.and_eq_true, Bool.not_eq_true', List.isEmpty_eq_false] at h
        have hne : t.isEmpty = false := by simpa [List.isEmpty_iff] using h.1
        have hneg : (some '+' == some '-') = false := by decide
        unfold stoi
        simp only [hd, hafter, hlit, takeWhile_all _ _ h.2, List.head?_cons, hneg,
          Bool.false_eq_true, if_false, hne]
      · obtain ⟨e1, e2, e3⟩ := sign_match_other v c t hm hp
        rw [e3 hl] at h
        simp only [Bool.and_eq_true] at h
        have hall := h.2
        have hc : c.isDigit = true := by
          simp only [List.all_cons, Bool.and_eq_true] at hall
          exact hall.1
        have hd : v.toList.dropWhile isspace = c :: t := by
          rw [hl]
          simp [List.dropWhile, isspace_of_isDigit c hc]
        have hneg : (some c == some '-') = false := by
          simp [hm]
        unfold stoi
        simp only [hd, e1 hd, e2 hl, takeWhile_all _ _ hall, List.head?_cons, hneg,
          Bool.false_eq_true, if_false, List.isEmpty_cons]

theorem intOption_unreadable (config : List (String × String)) (key v : String) (dflt : Int)
    (hv : config.lookup key = some v)
    (h : startsWithInteger v = false
      ∨ (isIntegerLiteral v = true
        ∧ (literalValue v < -2147483648 ∨ 2147483647 < literalValue v))) :
    ∃ e, intOption config key dflt = .error e := by
  unfold intOption
  rw [hv]
  show ∃ e, stoi v = Except.error e
  rcases h with h | ⟨h1, h2⟩
  · exact ⟨_, stoi_no_integer v h⟩
  · rw [stoi_literal v h1, if_pos h2]
    exact ⟨_, rfl⟩

theorem intOption_readable (config : List (String × String)) (key : String) (dflt : Int)
    (h : ∀ v, config.lookup key = some v →
      isIntegerLiteral v = true ∧ -2147483648 ≤ literalValue v ∧ literalValue v ≤ 2147483647) :
    intOption config key dflt = .ok (optionValue config key dflt) := by
  unfold intOption optionValue
  cases hl : config.lookup key with
  | none => rfl
  | some v =>
    obtain ⟨h1, h2, h3⟩ := h v hl
    simp only []
    rw [stoi_literal v h1, if_neg (by omega)]

theorem appendComponent_unreadable (c : Component) (h : HasUnreadableOption c)
    (password : List Char) (g : Gen) : ∃ e, appendComponent c password g = .error e := by
  obtain ⟨key, hkey, v, hv, hbad⟩ := h
  have herr := fun dflt => intOption_unreadable c.config key v dflt hv hbad
  unfold appendComponent
  cases ht : c.type with
  | TEXT => rw [ht] at hkey; simp [numericKeys] at hkey
  | SEPARATOR => rw [ht] at hkey; simp [numericKeys] at hkey
  | WORD =>
    rw [ht] at hkey
    simp only [numericKeys, List.mem_cons, List.mem_singleton, List.not_mem_nil, or_false] at hkey
    simp only [wordComponent]
    rcases hkey with rfl | rfl
    · obtain ⟨e, he⟩ := herr 3
      rw [he]
      exact ⟨e, rfl⟩
    · obtain ⟨e, he⟩ := herr 10
      rw [he]
      cases intOption c.config "min_length" 3 with
      | error e1 => exact ⟨e1, rfl⟩
      | ok m => exact ⟨e, rfl⟩
  | RANDOM_CHARS =>
    rw [ht] at hkey
    simp only [numericKeys, List.mem_cons, List.mem_singleton, List.not_mem_nil, or_false] at hkey
    simp only [randomCharsComponent]
    subst hkey
    obtain ⟨e, he⟩ := herr 4
    rw [he]
    exact ⟨e, rfl⟩
  | NUMBER =>
    rw [ht] at hkey
    simp only [numericKeys, List.mem_cons, List.mem_singleton, List.not_mem_nil, or_false] at hkey
    simp only [numberComponent]
    rcases hkey with rfl | rfl | rfl
    · obtain ⟨e, he⟩ := herr 0
      rw [he]
      exact ⟨e, rfl⟩
    · obtain ⟨e, he⟩ := herr 9999
      rw [he]
      cases intOption c.config "min" 0 with
      | error e1 => exact ⟨e1, rfl⟩
      | ok m => exact ⟨e, rfl⟩
    · obtain ⟨e, he⟩ := herr 0
      rw [he]
      cases intOption c.config "min" 0 with
      | error e1 => exact ⟨e1, rfl⟩
      | ok m =>
        cases intOption c.config "max" 9999 with
        | error e2 => exact ⟨e2, rfl⟩
        | ok n => exact ⟨e, rfl⟩

theorem appendComponent_readable (c : Component) (h : AllOptionsReadable c)
    (password : List Char) (g : Gen) : ∃ r, appendComponent c password g = .ok r := by
  have hok := fun key (hk : key ∈ numericKeys c.type) dflt =>
    intOption_readable c.config key dflt (h key hk)
  unfold appendComponent
  cases ht : c.type with
  | TEXT => exact ⟨_, rfl⟩
  | SEPARATOR => exact ⟨_, rfl⟩
  | WORD =>
    rw [ht] at hok
    simp only [wordComponent]
    rw [hok "min_length" (by simp [numericKeys]) 3, hok "max_length" (by simp [numericKeys]) 10]
    exact ⟨_, rfl⟩
  | RANDOM_CHARS =>
    rw [ht] at hok
    simp only [randomCharsComponent]
    rw [hok "length" (by simp [numericKeys]) 4]
    simp only []
    split_ifs
    · exact ⟨_, rfl⟩
    · exact ⟨_, rfl⟩
  | NUMBER =>
    rw [ht] at hok
    simp only [numberComponent]
    rw [hok "min" (by simp [numericKeys]) 0, hok "max" (by simp [numericKeys]) 9999,
      hok "padding" (by simp [numericKeys]) 0]
    exact ⟨_, rfl⟩

theorem buildLoop_error (components : List Component) :
    (∃ c ∈ components, ∀ password g, ∃ e, appendComponent c password g = .error e) →
      ∀ (password : List Char) (g : Gen), ∃ e, buildLoop components password g = .error e := by
  induction components with
  | nil => rintro ⟨c, hc, -⟩; exact absurd hc (List.not_mem_nil c)
  | cons c rest ih =>
    rintro ⟨b, hb, hbad⟩ password g
    simp only [buildLoop]
    cases hstep : appendComponent c password g with
    | error e => exact ⟨e, rfl⟩
    | ok r =>
      rcases List.mem_cons.mp hb with rfl | hmem
      · obtain ⟨e, he⟩ := hbad password g
        rw [he] at hstep
        cases hstep
      · exact ih ⟨b, hmem, hbad⟩ r.1 r.2

theorem buildLoop_ok (components : List Component) :
    (∀ c ∈ components, ∀ password g, ∃ r, appendComponent c password g = .ok r) →
      ∀ (password : List Char) (g : Gen), ∃ r, buildLoop components password g = .ok r := by
  induction components with
  | nil => intro _ password g; exact ⟨_, rfl⟩
  | cons c rest ih =>
    intro h password g
    obtain ⟨r, hr⟩ := h c (List.mem_cons_self c rest) password g
    simp only [buildLoop, hr]
    exact ih (fun b hb => h b (List.mem_cons_of_mem c hb)) r.1 r.2

/-- C17 (as stated, refuted): a Number component whose max option is the well-formed
integer string "99999999999" (min absent, so min ≤ max) makes `buildCustomPassword`
fail. -/
theorem buildCustomPassword_large_literal_counterexample :
    isIntegerLiteral "99999999999" = true
      ∧ optionValue [("max", "99999999999")] "min" 0
          ≤ optionValue [("max", "99999999999")] "max" 9999
      ∧ buildCustomPassword [⟨.NUMBER, [], [("max", "99999999999")], []⟩] [3, 1]
          = .error (.out_of_range "stoi")
      ∧ ¬ ∃ pw g', buildCustomPassword [⟨.NUMBER, [], [("max", "99999999999")], []⟩] [3, 1]
          = .ok (pw, g') := by
  refine ⟨by decide, by decide, rfl, ?_⟩
  rintro ⟨pw, g', h⟩
  have he : buildCustomPassword [⟨.NUMBER, [], [("max", "99999999999")], []⟩] [3, 1]
      = .error (.out_of_range "stoi") := rfl
  rw [he] at h
  cases h

/-- C17 (amended): `buildCustomPassword` fails, returning no string, whenever a Word,
RandomChars or Number component carries one of its numeric options with a value in which
no integer can be read (such as "abc") or with a well-formed integer string whose value
does not fit an `int`; it does not fail when every numeric option present is a
well-formed integer string whose value fits an `int` (with min ≤ max for Number). -/
theorem buildCustomPassword_options (components : List Component) (g : Gen) :
    ((∃ c ∈ components, HasUnreadableOption c) →
        ∃ e, buildCustomPassword components g = .error e)
      ∧ ((∀ c ∈ components, AllOptionsReadable c
            ∧ (c.type = ComponentType.NUMBER →
                optionValue c.config "min" 0 ≤ optionValue c.config "max" 9999)) →
        ∃ pw g', buildCustomPassword components g = .ok (pw, g'))
      ∧ startsWithInteger "abc" = false := by
  refine ⟨?_, ?_, by decide⟩
  · rintro ⟨c, hc, hbad⟩
    exact buildLoop_error components
      ⟨c, hc, fun password g => appendComponent_unreadable c hbad password g⟩ [] g
  · intro h
    obtain ⟨r, hr⟩ := buildLoop_ok components
      (fun c hc password g => appendComponent_readable c (h c hc).1 password g) [] g
    exact ⟨r.1, r.2, hr⟩

theorem buildCustomPassword_options_witness :
    ((∃ c ∈ [(⟨.TEXT, "k".toList, [], []⟩ : Component),
          ⟨.RANDOM_CHARS, [], [("length", "abc")], []⟩], HasUnreadableOption c)
        ∧ ∃ e, buildCustomPassword [(⟨.TEXT, "k".toList, [], []⟩ : Component),
          ⟨.RANDOM_CHARS, [], [("length", "abc")], []⟩] [2, 4] = .error e)
      ∧ ((∀ c ∈ [(⟨.NUMBER, [], [("min", "-3"), ("max", "+6")], []⟩ : Component)],
          AllOptionsReadable c
            ∧ (c.type = ComponentType.NUMBER →
                optionValue c.config "min" 0 ≤ optionValue c.config "max" 9999))
        ∧ ∃ pw g', buildCustomPassword
          [(⟨.NUMBER, [], [("min", "-3"), ("max", "+6")], []⟩ : Component)] [2, 4]
            = .ok (pw, g')) := by
  have hbad : ∃ c ∈ [(⟨.TEXT, "k".toList, [], []⟩ : Component),
      ⟨.RANDOM_CHARS, [], [("length", "abc")], []⟩], HasUnreadableOption c :=
    ⟨⟨.RANDOM_CHARS, [], [("length", "abc")], []⟩, by simp,
      "length", by simp [numericKeys], "abc", rfl, Or.inl (by decide)⟩
  have hgood : ∀ c ∈ [(⟨.NUMBER, [], [("min", "-3"), ("max", "+6")], []⟩ : Component)],
      AllOptionsReadable c
        ∧ (c.type = ComponentType.NUMBER →
            optionValue c.config "min" 0 ≤ optionValue c.config "max" 9999) := by
    intro c hc
    rw [List.mem_singleton] at hc
    subst hc
    refine ⟨?_, fun _ => by decide⟩
    intro key hkey v hv
    simp only [numericKeys, List.mem_cons, List.mem_singleton, List.not_mem_nil, or_false]
      at hkey
    rcases hkey with rfl | rfl | rfl
    · have : v = "-3" := by
        have h2 : (some "-3" : Option String) = some v := hv
        exact (Option.some.inj h2).symm
      subst this
      decide
    · have : v = "+6" := by
        have h2 : (some "+6" : Option String) = some v := hv
        exact (Option.some.inj h2).symm
      subst this
      decide
    · have h2 : (none : Option String) = some v := hv
      cases h2
  exact ⟨⟨hbad, (buildCustomPassword_options _ [2, 4]).1 hbad⟩,
    ⟨hgood, (buildCustomPassword_options _ [2, 4]).2.1 hgood⟩⟩

/-! ## Score ceiling, minimum table and word window -/

theorem lengthBonus_le (n : Nat) : 0 ≤ lengthBonus n ∧ lengthBonus n ≤ 3 := by
  unfold lengthBonus
  split_ifs <;> norm_num

theorem classCount_le (password : List Char) : 0 ≤ classCount password ∧ classCount password ≤ 4 := by
  unfold classCount
  constructor <;> split_ifs <;> norm_num

theorem uniquenessBonus_le (password : List Char) :
    0 ≤ uniquenessBonus password ∧ uniquenessBonus password ≤ 2 := by
  unfold uniquenessBonus
  constructor <;> split_ifs <;> norm_num

theorem patternPenalty_nonneg (password : List Char) : 0 ≤ patternPenalty password := by
  unfold patternPenalty
  split_ifs <;> norm_num

theorem blocklistPenalty_nonneg (password : List Char) : 0 ≤ blocklistPenalty password := by
  unfold blocklistPenalty
  split_ifs <;> norm_num

/-- C27: for every password the score is at most 9 (length bonus at most 3, class count at
most 4, uniqueness bonus at most 2), so the label "Excellent" (score 10 or more) is never
returned and the score stays below the nominal ceiling of 15 shown to the user. -/
theorem checkPasswordStrength_score_le (password : List Char) :
    (checkPasswordStrength password).score ≤ 9
      ∧ lengthBonus password.length ≤ 3 ∧ classCount password ≤ 4
      ∧ uniquenessBonus password ≤ 2
      ∧ (checkPasswordStrength password).strength ≠ "Excellent"
      ∧ (checkPasswordStrength password).score < 15 := by
  have hL := lengthBonus_le password.length
  have hC := classCount_le password
  have hU := uniquenessBonus_le password
  have hP := patternPenalty_nonneg password
  have hB := blocklistPenalty_nonneg password
  have hs : (checkPasswordStrength password).score ≤ 9 := by
    rw [checkPasswordStrength_score_eq]
    exact max_le (by norm_num) (by omega)
  have hlabel : (checkPasswordStrength password).strength
      = strengthLabel (checkPasswordStrength password).score := rfl
  refine ⟨hs, hL.2, hC.2, hU.2, ?_, by omega⟩
  rw [hlabel]
  unfold strengthLabel
  split_ifs with h10
  · omega
  all_goals decide

/-- C28 (as stated, refuted): at level 3 the minimums are not 2/2/1 for uppercase,
lowercase and digits. -/
theorem level_three_minimums_counterexample :
    ¬ ((complexityParams 3).min_uppercase = 2 ∧ (complexityParams 3).min_lowercase = 2
      ∧ (complexityParams 3).min_digits = 1) := by
  decide

/-- C28 (amended): reading each tuple as uppercase/lowercase/digit/special, the minimums
are 1/2/1/1 for levels 1-4, a minimum other than the lowercase one being 0 where its
class is not enabled (uppercase and digits at level 1, special at levels 1-3), then
2/2/2/1 for levels 5-6, 2/3/2/2 for levels 7-8 and 3/4/3/3 for levels 9-10. -/
theorem complexityParams_minimums (level : Int) (h1 : 1 ≤ level) (h10 : level ≤ 10) :
    (level ≤ 4 →
        (complexityParams level).min_uppercase
            = (if (complexityParams level).use_uppercase then 1 else 0)
        ∧ (complexityParams level).min_lowercase = 2
        ∧ (complexityParams level).min_digits
            = (if (complexityParams level).use_digits then 1 else 0)
        ∧ (complexityParams level).min_special
            = (if (complexityParams level).use_special then 1 else 0))
      ∧ (5 ≤ level → level ≤ 6 →
        (complexityParams level).min_uppercase = 2 ∧ (complexityParams level).min_lowercase = 2
        ∧ (complexityParams level).min_digits = 2 ∧ (complexityParams level).min_special = 1)
      ∧ (7 ≤ level → level ≤ 8 →
        (complexityParams level).min_uppercase = 2 ∧ (complexityParams level).min_lowercase = 3
        ∧ (complexityParams level).min_digits = 2 ∧ (complexityParams level).min_special = 2)
      ∧ (9 ≤ level →
        (complexityParams level).min_uppercase = 3 ∧ (complexityParams level).min_lowercase = 4
        ∧ (complexityParams level).min_digits = 3 ∧ (complexityParams level).min_special = 3)
      ∧ [1, 2, 3, 4, 5, 6, 7, 8, 9, 10].map (fun l : Int =>
          ((complexityParams l).min_uppercase, (complexityParams l).min_lowercase,
            (complexityParams l).min_digits, (complexityParams l).min_special))
        = [(0, 2, 0, 0), (1, 2, 1, 0), (1, 2, 1, 0), (1, 2, 1, 1), (2, 2, 2, 1), (2, 2, 2, 1),
            (2, 3, 2, 2), (2, 3, 2, 2), (3, 4, 3, 3), (3, 4, 3, 3)] := by
  refine ⟨?_, ?_, ?_, ?_, by decide⟩ <;> interval_cases level <;> decide

theorem complexityParams_minimums_witness :
    (1 : Int) ≤ 4 ∧ (4 : Int) ≤ 10
      ∧ ((4 : Int) ≤ 4 →
        (complexityParams 4).min_uppercase
            = (if (complexityParams 4).use_uppercase then 1 else 0)
        ∧ (complexityParams 4).min_lowercase = 2
        ∧ (complexityParams 4).min_digits
            = (if (complexityParams 4).use_digits then 1 else 0)
        ∧ (complexityParams 4).min_special
            = (if (complexityParams 4).use_special then 1 else 0)) :=
  ⟨by decide, by decide, (complexityParams_minimums 4 (by decide) (by decide)).1⟩

theorem toSizeT_of_nonneg (i : Int) (h0 : 0 ≤ i) (h : i < 2 ^ 64) : toSizeT i = i.toNat := by
  unfold toSizeT
  rw [Int.emod_eq_of_lt h0 h]

/-- For bounds that are not negative `getRandomWord` keeps to the window `[min, max]`
whenever some corpus word lies in it. -/
theorem getRandomWord_window (min_length max_length : Int) (g : Gen)
    (h0 : 0 ≤ min_length) (hm : min_length < 2 ^ 64) (h1 : 0 ≤ max_length)
    (hM : max_length < 2 ^ 64)
    (hex : ∃ w ∈ fallback_words, min_length ≤ (w.length : Int) ∧ (w.length : Int) ≤ max_length) :
    min_length ≤ ((getRandomWord min_length max_length g).1.length : Int)
      ∧ ((getRandomWord min_length max_length g).1.length : Int) ≤ max_length := by
  have e1 := toSizeT_of_nonneg min_length h0 hm
  have e2 := toSizeT_of_nonneg max_length h1 hM
  obtain ⟨w, hw, hlo, hhi⟩ := hex
  have hwf : w ∈ fallback_words.filter (fun word =>
      decide (word.length ≥ toSizeT min_length) && decide (word.length ≤ toSizeT max_length)) := by
    rw [List.mem_filter]
    refine ⟨hw, ?_⟩
    simp only [Bool.and_eq_true, decide_eq_true_eq, e1, e2]
    omega
  have hne : fallback_words.filter (fun word =>
      decide (word.length ≥ toSizeT min_length) && decide (word.length ≤ toSizeT max_length))
      ≠ [] := List.ne_nil_of_mem hwf
  have hlt := uniformInt_index_lt _ (List.length_pos.mpr hne) g
  have hmem : (getRandomWord min_length max_length g).1 ∈ fallback_words.filter (fun word =>
      decide (word.length ≥ toSizeT min_length) && decide (word.length ≤ toSizeT max_length)) := by
    unfold getRandomWord
    simp only []
    rw [if_neg (by simpa [List.isEmpty_iff] using hne), List.getD_eq_getElem _ _ hlt]
    exact List.getElem_mem hlt
  have hp := (List.mem_filter.mp hmem).2
  simp only [Bool.and_eq_true, decide_eq_true_eq, e1, e2] at hp
  omega

/-- C30 (the code at the failing input): with `min_length = -1` and `max_length = 4` some
corpus word has its length within the window, yet `getRandomWord` returns "mountain", of
length 8: the bound -1 is compared as an unsigned value, no word passes the filter and
the whole corpus is used. -/
theorem getRandomWord_negative_bound :
    (∃ w ∈ fallback_words, (-1 : Int) ≤ (w.length : Int) ∧ (w.length : Int) ≤ 4)
      ∧ getRandomWord (-1) 4 [1] = ("mountain".toList, [])
      ∧ ¬ (("mountain".toList.length : Int) ≤ 4)
      ∧ getRandomWord (-1) 4 [1] = getRandomWord 3 10 [1] := by
  refine ⟨⟨"moon".toList, by decide, by decide, by decide⟩, rfl, by decide, rfl⟩

/-! ## The simple-sequence patterns -/

theorem occurs_cons (sub s : List Char) (a : Char) (h : Occurs sub s) : Occurs sub (a :: s) := by
  obtain ⟨front, back, hfb⟩ := h
  exact ⟨a :: front, back, by rw [hfb]; rfl⟩

theorem occurs_length_le (sub s : List Char) (h : Occurs sub s) : sub.length ≤ s.length := by
  obtain ⟨front, back, hfb⟩ := h
  have := congrArg List.length hfb
  simp only [List.length_append] at this
  omega

theorem hasRepeat_iff (s : List Char) :
    hasRepeat s = true ↔ ∃ c : Char, c ≠ '\n' ∧ c ≠ '\r' ∧ Occurs [c, c, c] s := by
  induction s with
  | nil =>
    refine iff_of_false (by decide) ?_
    rintro ⟨c, _, _, hocc⟩
    exact absurd (occurs_length_le _ _ hocc) (by simp)
  | cons a t ih =>
    rcases t with _ | ⟨b, _ | ⟨c, r⟩⟩
    · refine iff_of_false (by simp [hasRepeat]) ?_
      rintro ⟨c, _, _, hocc⟩
      exact absurd (occurs_length_le _ _ hocc) (by simp)
    · refine iff_of_false (by simp [hasRepeat]) ?_
      rintro ⟨c, _, _, hocc⟩
      exact absurd (occurs_length_le _ _ hocc) (by simp)
    · show ((a != '\n' && a != '\r' && a == b && a == c) || hasRepeat (b :: c :: r)) = true ↔ _
      rw [Bool.or_eq_true, ih]
      constructor
      · rintro (h | ⟨x, h1, h2, hocc⟩)
        · simp only [Bool.and_eq_true, bne_iff_ne, ne_eq, beq_iff_eq] at h
          obtain ⟨⟨⟨h1, h2⟩, rfl⟩, rfl⟩ := h
          exact ⟨a, h1, h2, [], r, rfl⟩
        · exact ⟨x, h1, h2, occurs_cons _ _ a hocc⟩
      · rintro ⟨x, h1, h2, front, back, h⟩
        rcases front with _ | ⟨y, f⟩
        · left
          simp only [List.nil_append, List.cons_append, List.cons.injEq] at h
          obtain ⟨rfl, rfl, rfl, _⟩ := h
          simp [h1, h2]
        · right
          simp only [List.cons_append, List.cons.injEq] at h
          exact ⟨x, h1, h2, f, back, by rw [h.2]⟩

theorem patterns_eq : patterns = [.repeated, .anyOf digitRuns, .anyOf (windows3 lowercase),
    .anyOf (keyboardRows.map windows3).flatten] := by
  decide

theorem patternPenalty_eq_one_iff (password : List Char) :
    patternPenalty password = 1 ↔ PrintableSequence (password.map Char.toLower) := by
  have hany : (patterns.any (fun pattern => regex_search (password.map Char.toLower) pattern)
      = true) ↔ PrintableSequence (password.map Char.toLower) := by
    rw [patterns_eq]
    unfold PrintableSequence literalRuns
    simp only [List.any_cons, List.any_nil, Bool.or_false, Bool.or_eq_true, regex_search,
      hasRepeat_iff, List.any_eq_true, contains_iff, List.mem_append]
    constructor
    · rintro (h | ⟨r, hr, ho⟩ | ⟨r, hr, ho⟩ | ⟨r, hr, ho⟩)
      · exact Or.inl h
      · exact Or.inr ⟨r, Or.inl (Or.inl hr), ho⟩
      · exact Or.inr ⟨r, Or.inl (Or.inr hr), ho⟩
      · exact Or.inr ⟨r, Or.inr hr, ho⟩
    · rintro (h | ⟨r, (hr | hr) | hr, ho⟩)
      · exact Or.inl h
      · exact Or.inr (Or.inl ⟨r, hr, ho⟩)
      · exact Or.inr (Or.inr (Or.inl ⟨r, hr, ho⟩))
      · exact Or.inr (Or.inr (Or.inr ⟨r, hr, ho⟩))
  unfold patternPenalty
  rw [← hany]
  split_ifs with hc
  · exact iff_of_true rfl hc
  · exact iff_of_false (by decide) hc

theorem patternPenalty_eq_zero_iff (password : List Char) :
    patternPenalty password = 0 ↔ ¬ PrintableSequence (password.map Char.toLower) := by
  rw [← patternPenalty_eq_one_iff]
  unfold patternPenalty
  split_ifs <;> decide

theorem patternStep_of_penalty (password : List Char) (a : PasswordAnalysis) :
    patternStep password a
      = if patternPenalty password = 1 then
          { a with score := a.score - 2, feedback := a.feedback ++ ["Avoid simple sequences"] }
        else a := by
  by_cases h : patterns.any (fun pattern => regex_search (password.map Char.toLower) pattern)
      = true
  · simp [patternStep, patternPenalty, h]
  · simp [patternStep, patternPenalty, h]

theorem count_pattern_feedback (password : List Char) :
    (checkPasswordStrength password).feedback.count "Avoid simple sequences"
      = if patternPenalty password = 1 then 1 else 0 := by
  rw [checkPasswordStrength_feedback_eq]
  simp only [List.count_append]
  split_ifs <;> decide

/-- C21 (as stated, refuted): the lower-cased password of four carriage returns contains
three consecutive identical characters, yet no pattern penalty is applied: the pattern
block leaves the report unchanged and "Avoid simple sequences" is not in the feedback. -/
theorem carriage_returns_counterexample :
    SimpleSequence ("\r\r\r\r".toList.map Char.toLower)
      ∧ patternPenalty "\r\r\r\r".toList = 0
      ∧ (∀ a : PasswordAnalysis, patternStep "\r\r\r\r".toList a = a)
      ∧ "Avoid simple sequences" ∉ (checkPasswordStrength "\r\r\r\r".toList).feedback := by
  refine ⟨Or.inl ⟨'\r', [], ['\r'], by decide⟩, by decide, fun a => ?_, by decide⟩
  rw [patternStep_of_penalty, if_neg (by decide)]

/-- C21 (amended): for every password, the pattern penalty is applied exactly when the
lower-cased password contains three or more consecutive identical characters other than
line feeds or carriage returns, or one of the digit runs 012 ... 890, or three
consecutive letters of the alphabet, or one of the keyboard-row triples; when it applies,
the pattern block subtracts exactly 2 and adds "Avoid simple sequences" once, however
many patterns match, and otherwise it changes nothing. -/
theorem patternPenalty_applied (password : List Char) :
    (PrintableSequence (password.map Char.toLower) →
        (∀ a : PasswordAnalysis, patternStep password a
          = { a with score := a.score - 2,
                     feedback := a.feedback ++ ["Avoid simple sequences"] })
        ∧ (checkPasswordStrength password).feedback.count "Avoid simple sequences" = 1
        ∧ (checkPasswordStrength password).score
            = max 0 (lengthBonus password.length + classCount password
                + uniquenessBonus password - 2 - 3 * blocklistPenalty password))
      ∧ (¬ PrintableSequence (password.map Char.toLower) →
        (∀ a : PasswordAnalysis, patternStep password a = a)
        ∧ (checkPasswordStrength password).feedback.count "Avoid simple sequences" = 0
        ∧ (checkPasswordStrength password).score
            = max 0 (lengthBonus password.length + classCount password
                + uniquenessBonus password - 3 * blocklistPenalty password)) := by
  constructor
  · intro h
    have hp := (patternPenalty_eq_one_iff password).mpr h
    refine ⟨fun a => ?_, ?_, ?_⟩
    · rw [patternStep_of_penalty, if_pos hp]
    · rw [count_pattern_feedback, if_pos hp]
    · rw [checkPasswordStrength_score_eq, hp]
      norm_num
  · intro h
    have hp := (patternPenalty_eq_zero_iff password).mpr h
    have hp1 : ¬ patternPenalty password = 1 := by rw [hp]; decide
    refine ⟨fun a => ?_, ?_, ?_⟩
    · rw [patternStep_of_penalty, if_neg hp1]
    · rw [count_pattern_feedback, if_neg hp1]
    · rw [checkPasswordStrength_score_eq, hp]
      norm_num

theorem patternPenalty_applied_witness :
    PrintableSequence ("AAA123qwe".toList.map Char.toLower)
      ∧ (∀ a : PasswordAnalysis, patternStep "AAA123qwe".toList a
          = { a with score := a.score - 2,
                     feedback := a.feedback ++ ["Avoid simple sequences"] })
      ∧ (checkPasswordStrength "AAA123qwe".toList).feedback.count "Avoid simple sequences" = 1
      ∧ (checkPasswordStrength "AAA123qwe".toList).score
          = max 0 (lengthBonus "AAA123qwe".toList.length + classCount "AAA123qwe".toList
              + uniquenessBonus "AAA123qwe".toList - 2
              - 3 * blocklistPenalty "AAA123qwe".toList) :=
  ⟨(patternPenalty_eq_one_iff _).mp (by decide),
    (patternPenalty_applied "AAA123qwe".toList).1
      ((patternPenalty_eq_one_iff _).mp (by decide))⟩

/-! ## The uniqueness bonus for strings of any length -/

theorem dedup_length_le (password : List Char) : password.dedup.length ≤ 2 ^ 32 := by
  have hnd : (password.dedup.map (fun c : Char => c.val.val)).Nodup := by
    refine List.Nodup.map ?_ (List.nodup_dedup password)
    intro a b hab
    exact Char.ext (UInt32.ext (congrArg Fin.val hab))
  have h := List.Nodup.length_le_card hnd
  rw [List.length_map, Fintype.card_fin] at h
  exact h

/-- From `2^50` characters on, a number of distinct characters that fits 32 bits is below
`n * 0.8` and below `n * 0.6`. -/
theorem geTimes_long (d n : Nat) (hn : 2 ^ 50 ≤ n) (hd : d ≤ 2 ^ 32) :
    geTimes d n significand08 = false ∧ geTimes d n significand06 = false := by
  have h1 : roundBinary64 d = d := roundBinary64_of_lt d (by omega)
  obtain ⟨w, hw, hlt, hcase⟩ := roundBinary64_near n
  have hr : 2 ^ 49 ≤ roundBinary64 n := by
    rcases hcase with h | h <;> omega
  constructor
  · obtain ⟨v, hv, hlt2, hcase2⟩ := roundBinary64_near (roundBinary64 n * significand08)
    unfold geTimes
    rw [h1, decide_eq_false_iff_not]
    unfold significand08 at *
    rcases hcase2 with h | h <;> omega
  · obtain ⟨v, hv, hlt2, hcase2⟩ := roundBinary64_near (roundBinary64 n * significand06)
    unfold geTimes
    rw [h1, decide_eq_false_iff_not]
    unfold significand06 at *
    rcases hcase2 with h | h <;> omega

/-- For every password the uniqueness bonus is the one of exact arithmetic on the ratio
of distinct characters to length. -/
theorem uniquenessBonus_cases (password : List Char) :
    uniquenessBonus password
      = if 4 * password.length ≤ 5 * password.dedup.length then 2
        else if 3 * password.length ≤ 5 * password.dedup.length then 1 else 0 := by
  rcases Nat.lt_or_ge password.length (2 ^ 50) with h | h
  · exact uniquenessBonus_exact password h
  · have hd := dedup_length_le password
    obtain ⟨h8, h6⟩ := geTimes_long _ _ h hd
    have c8 : ¬ 4 * password.length ≤ 5 * password.dedup.length := by omega
    have c6 : ¬ 3 * password.length ≤ 5 * password.dedup.length := by omega
    unfold uniquenessBonus
    rw [h8, h6, if_neg c8, if_neg c6]
    rfl

theorem uniqueStep_unique_chars (password : List Char) (a : PasswordAnalysis) :
    (uniqueStep password a).unique_chars = (password.dedup.length : Nat) := by
  simp only [uniqueStep]
  split_ifs <;> rfl

theorem patternStep_unique_chars (password : List Char) (a : PasswordAnalysis) :
    (patternStep password a).unique_chars = a.unique_chars := by
  simp only [patternStep]
  split_ifs <;> rfl

theorem commonStep_unique_chars (password : List Char) (a : PasswordAnalysis) :
    (commonStep password a).unique_chars = a.unique_chars := by
  simp only [commonStep]
  split_ifs <;> rfl

theorem checkPasswordStrength_unique_chars (password : List Char) :
    (checkPasswordStrength password).unique_chars = (password.dedup.length : Nat) := by
  unfold checkPasswordStrength
  simp only []
  exact ((commonStep_unique_chars password _).trans (patternStep_unique_chars password _)).trans
    (uniqueStep_unique_chars password _)

theorem mem_repeated_feedback (password : List Char) :
    "Too many repeated characters" ∈ (checkPasswordStrength password).feedback
      ↔ uniquenessBonus password = 0 := by
  rw [checkPasswordStrength_feedback_eq]
  simp only [List.mem_append]
  constructor
  · rintro ((((h | h) | h) | h) | h)
    · split_ifs at h <;> simp at h
    · split_ifs at h <;> simp at h
    · split_ifs at h with hu
      · exact hu
      · simp at h
    · split_ifs at h <;> simp at h
    · split_ifs at h <;> simp at h
  · intro hu
    exact Or.inl (Or.inl (Or.inr (by rw [if_pos hu]; simp)))

/-- C22: for every non-empty password with `d` distinct characters and length `n`, the
uniqueness bonus that the code computes in `double` arithmetic is the one of exact
arithmetic: it is 2 iff `d/n ≥ 0.8` (`5d ≥ 4n`), 1 iff `0.6 ≤ d/n < 0.8`
(`3n ≤ 5d < 4n`), and 0 iff `d/n < 0.6`, which is also exactly when the feedback holds
"Too many repeated characters"; the bonus is what the uniqueness block adds to the score,
and the reported unique-character count equals `d`. -/
theorem uniquenessBonus_ratio (password : List Char) (hne : password ≠ []) :
    (uniquenessBonus password = 2
        ↔ (4 : ℚ) / 5 ≤ (password.toFinset.card : ℚ) / (password.length : ℚ))
      ∧ (uniquenessBonus password = 2 ↔ 4 * password.length ≤ 5 * password.toFinset.card)
      ∧ (uniquenessBonus password = 1
        ↔ (3 : ℚ) / 5 ≤ (password.toFinset.card : ℚ) / (password.length : ℚ)
          ∧ (password.toFinset.card : ℚ) / (password.length : ℚ) < (4 : ℚ) / 5)
      ∧ (uniquenessBonus password = 1
        ↔ 3 * password.length ≤ 5 * password.toFinset.card
          ∧ 5 * password.toFinset.card < 4 * password.length)
      ∧ (uniquenessBonus password = 0
        ↔ (password.toFinset.card : ℚ) / (password.length : ℚ) < (3 : ℚ) / 5)
      ∧ (uniquenessBonus password = 0 ↔ 5 * password.toFinset.card < 3 * password.length)
      ∧ ("Too many repeated characters" ∈ (checkPasswordStrength password).feedback
        ↔ (password.toFinset.card : ℚ) / (password.length : ℚ) < (3 : ℚ) / 5)
      ∧ (∀ a : PasswordAnalysis,
          (uniqueStep password a).score = a.score + uniquenessBonus password)
      ∧ (checkPasswordStrength password).unique_chars = (password.toFinset.card : Int) := by
  have hcard : password.toFinset.card = password.dedup.length := List.card_toFinset password
  have hn : 0 < password.length := List.length_pos.mpr hne
  have hnq : (0 : ℚ) < (password.length : ℚ) := by exact_mod_cast hn
  have hb := uniquenessBonus_cases password
  rw [← hcard] at hb
  have q8 : (4 : ℚ) / 5 ≤ (password.toFinset.card : ℚ) / (password.length : ℚ)
      ↔ 4 * password.length ≤ 5 * password.toFinset.card := by
    rw [div_le_div_iff₀ (by norm_num) hnq]
    constructor
    · intro h
      have h' : ((4 * password.length : Nat) : ℚ) ≤ ((5 * password.toFinset.card : Nat) : ℚ) := by
        push_cast
        linarith
      exact_mod_cast h'
    · intro h
      have h' : ((4 * password.length : Nat) : ℚ) ≤ ((5 * password.toFinset.card : Nat) : ℚ) := by
        exact_mod_cast h
      push_cast at h'
      linarith
  have q6 : (3 : ℚ) / 5 ≤ (password.toFinset.card : ℚ) / (password.length : ℚ)
      ↔ 3 * password.length ≤ 5 * password.toFinset.card := by
    rw [div_le_div_iff₀ (by norm_num) hnq]
    constructor
    · intro h
      have h' : ((3 * password.length : Nat) : ℚ) ≤ ((5 * password.toFinset.card : Nat) : ℚ) := by
        push_cast
        linarith
      exact_mod_cast h'
    · intro h
      have h' : ((3 * password.length : Nat) : ℚ) ≤ ((5 * password.toFinset.card : Nat) : ℚ) := by
        exact_mod_cast h
      push_cast at h'
      linarith
  have n2 : uniquenessBonus password = 2 ↔ 4 * password.length ≤ 5 * password.toFinset.card := by
    rw [hb]
    split_ifs <;> simp <;> omega
  have n1 : uniquenessBonus password = 1
      ↔ 3 * password.length ≤ 5 * password.toFinset.card
        ∧ 5 * password.toFinset.card < 4 * password.length := by
    rw [hb]
    split_ifs <;> simp <;> omega
  have n0 : uniquenessBonus password = 0 ↔ 5 * password.toFinset.card < 3 * password.length := by
    rw [hb]
    split_ifs <;> simp <;> omega
  have r0 : uniquenessBonus password = 0
      ↔ (password.toFinset.card : ℚ) / (password.length : ℚ) < (3 : ℚ) / 5 := by
    rw [n0, ← not_le, ← not_le, q6]
  refine ⟨n2.trans q8.symm, n2, ?_, n1, r0, n0, (mem_repeated_feedback password).trans r0,
    uniqueStep_score password, ?_⟩
  · rw [n1, ← q6, ← not_le, ← not_le, q8]
  · rw [checkPasswordStrength_unique_chars, hcard]

theorem uniquenessBonus_ratio_witness :
    "aabbc".toList ≠ []
      ∧ (uniquenessBonus "aabbc".toList = 1
        ↔ 3 * "aabbc".toList.length ≤ 5 * "aabbc".toList.toFinset.card
          ∧ 5 * "aabbc".toList.toFinset.card < 4 * "aabbc".toList.length) :=
  ⟨by decide, (uniquenessBonus_ratio "aabbc".toList (by decide)).2.2.2.1⟩

/-! ## Decimal digits -/

theorem toDigitsCore_append (n : Nat) : ∀ (fuel : Nat) (ds : List Char), n < fuel →
    Nat.toDigitsCore 10 fuel n ds = Nat.toDigits 10 n ++ ds := by
  induction n using Nat.strong_induction_on with
  | _ n ih =>
    intro fuel ds hf
    obtain ⟨f, rfl⟩ : ∃ f, fuel = f + 1 := ⟨fuel - 1, by omega⟩
    unfold Nat.toDigits
    simp only [Nat.toDigitsCore]
    by_cases h0 : n / 10 = 0
    · simp [h0]
    · have hlt : n / 10 < n := Nat.div_lt_self (by omega) (by norm_num)
      rw [if_neg h0, if_neg h0, ih (n / 10) hlt f _ (by omega), ih (n / 10) hlt n _ hlt]
      simp

theorem toDigits_step (n : Nat) :
    Nat.toDigits 10 n
      = if n < 10 then [Nat.digitChar n]
        else Nat.toDigits 10 (n / 10) ++ [Nat.digitChar (n % 10)] := by
  have h : Nat.toDigits 10 n = Nat.toDigitsCore 10 (n + 1) n [] := rfl
  rw [h]
  simp only [Nat.toDigitsCore]
  by_cases h10 : n < 10
  · rw [if_pos h10, if_pos (by omega), Nat.mod_eq_of_lt h10]
  · have hlt : n / 10 < n := Nat.div_lt_self (by omega) (by norm_num)
    rw [if_neg h10, if_neg (by omega), toDigitsCore_append (n / 10) n _ hlt]

theorem digitChar_isDigit (m : Nat) (h : m < 10) : (Nat.digitChar m).isDigit = true := by
  interval_cases m <;> decide

theorem toDigits_isDigit (n : Nat) : ∀ c ∈ Nat.toDigits 10 n, c.isDigit = true := by
  induction n using Nat.strong_induction_on with
  | _ n ih =>
    intro c hc
    rw [toDigits_step] at hc
    split_ifs at hc with h10
    · rw [List.mem_singleton] at hc
      rw [hc]
      exact digitChar_isDigit n h10
    · rcases List.mem_append.mp hc with h | h
      · exact ih (n / 10) (Nat.div_lt_self (by omega) (by norm_num)) c h
      · rw [List.mem_singleton] at h
        rw [h]
        exact digitChar_isDigit _ (Nat.mod_lt n (by norm_num))

theorem toDigits_length_pos (n : Nat) : 1 ≤ (Nat.toDigits 10 n).length := by
  rw [toDigits_step]
  split_ifs <;> simp

theorem toDigits_length_le (k : Nat) : ∀ n : Nat, n < 10 ^ (k + 1) →
    (Nat.toDigits 10 n).length ≤ k + 1 := by
  induction k with
  | zero =>
    intro n hn
    rw [toDigits_step, if_pos (by simpa using hn)]
    simp
  | succ j ih =>
    intro n hn
    rw [toDigits_step]
    split_ifs with h10
    · simp
    · have hdiv : n / 10 < 10 ^ (j + 1) := by
        rw [Nat.div_lt_iff_lt_mul (by norm_num)]
        calc n < 10 ^ (j + 1 + 1) := hn
          _ = 10 ^ (j + 1) * 10 := by ring
      have := ih (n / 10) hdiv
      simp only [List.length_append, List.length_singleton]
      omega

theorem toDigits_length_ge (k : Nat) : ∀ n : Nat, 10 ^ k ≤ n →
    k + 1 ≤ (Nat.toDigits 10 n).length := by
  induction k with
  | zero => intro n _; exact toDigits_length_pos n
  | succ j ih =>
    intro n hn
    have h10 : ¬ n < 10 := by
      have : 10 ^ 1 ≤ 10 ^ (j + 1) := Nat.pow_le_pow_right (by norm_num) (by omega)
      omega
    have hdiv : 10 ^ j ≤ n / 10 := by
      rw [Nat.le_div_iff_mul_le (by norm_num)]
      calc 10 ^ j * 10 = 10 ^ (j + 1) := by ring
        _ ≤ n := hn
    have := ih (n / 10) hdiv
    rw [toDigits_step, if_neg h10]
    simp only [List.length_append, List.length_singleton]
    omega

theorem leftpad_isDigit (w : Nat) (l : List Char) (h : ∀ c ∈ l, c.isDigit = true) :
    ∀ c ∈ List.leftpad w '0' l, c.isDigit = true := by
  intro c hc
  unfold List.leftpad at hc
  rcases List.mem_append.mp hc with h1 | h1
  · rw [(List.mem_replicate.mp h1).2]
    decide
  · exact h c h1

theorem decimal_of_nonneg (number : Int) (h : 0 ≤ number) :
    decimal number = Nat.toDigits 10 number.toNat := by
  unfold decimal
  rw [if_neg (not_lt.mpr h)]

/-! ## The plain passphrase -/

theorem placedWord_eq (capitalize : Bool) (w : List Char) :
    (if (capitalize && !w.isEmpty) = true then capitalizeFirst w else w)
      = placedWord capitalize w := by
  cases capitalize <;> cases w <;> rfl

theorem selectWords_succ (capitalize : Bool) (lo hi : Int) (n : Nat)
    (acc : List (List Char)) (g : Gen) :
    selectWords capitalize lo hi (n + 1) acc g
      = selectWords capitalize lo hi n
          (acc ++ [placedWord capitalize (getRandomWord lo hi g).1]) (getRandomWord lo hi g).2 := by
  rw [selectWords, placedWord_eq]

theorem selectWords_spec (capitalize : Bool) (lo hi : Int) :
    ∀ (n : Nat) (acc : List (List Char)) (g : Gen),
      ∃ new : List (List Char),
        (selectWords capitalize lo hi n acc g).1 = acc ++ new ∧ new.length = n
          ∧ ∀ w ∈ new, ∃ u ∈ fallback_words, w = placedWord capitalize u := by
  intro n
  induction n with
  | zero => intro acc g; exact ⟨[], by simp [selectWords], rfl, by simp⟩
  | succ k ih =>
    intro acc g
    obtain ⟨new, h1, h2, h3⟩ := ih
      (acc ++ [placedWord capitalize (getRandomWord lo hi g).1]) (getRandomWord lo hi g).2
    refine ⟨placedWord capitalize (getRandomWord lo hi g).1 :: new, ?_, by simp [h2], ?_⟩
    · rw [selectWords_succ, h1, List.append_assoc]
      rfl
    · intro w hw
      rcases List.mem_cons.mp hw with rfl | hw
      · exact ⟨(getRandomWord lo hi g).1, (getRandomWord_mem lo hi g).1, rfl⟩
      · exact h3 w hw

theorem joinWords_eq (separator : List Char) : ∀ (ws : List (List Char)) (acc : List Char),
    joinWords separator ws acc = acc ++ separator.intercalate ws := by
  intro ws
  induction ws with
  | nil => intro acc; simp [joinWords, List.intercalate]
  | cons w rest ih =>
    intro acc
    rcases rest with _ | ⟨v, r⟩
    · simp [joinWords, List.intercalate]
    · show joinWords separator (v :: r) (acc ++ w ++ separator) = _
      rw [ih]
      simp [List.intercalate, List.intersperse]

theorem intersperse_length (separator : List Char) : ∀ ws : List (List Char),
    (ws.intersperse separator).length = 2 * ws.length - 1 := by
  intro ws
  induction ws with
  | nil => rfl
  | cons w rest ih =>
    rcases rest with _ | ⟨v, r⟩
    · rfl
    · simp only [List.intersperse, List.length_cons] at ih ⊢
      omega

/-- C23: for every `num_words ≥ 1`, separator string and outcome of the random source,
`generateMemorablePassword` returns `w1 + sep + w2 + ... + sep + wn + suffix` with exactly
`n = num_words` words joined by the caller's separator (so `n - 1` copies of it), each
word a corpus word with its first letter upper-cased iff `capitalize` is set; the suffix
is three decimal digits, a number from 0 to 999 padded with zeros, when `add_numbers` is
set, and empty otherwise. -/
theorem generateMemorablePassword_shape (num_words : Int) (separator : List Char)
    (add_numbers capitalize : Bool) (word_min_length word_max_length : Int) (g : Gen)
    (h : 1 ≤ num_words) :
    ∃ (ws : List (List Char)) (suffix : List Char),
      (generateMemorablePassword num_words separator add_numbers capitalize word_min_length
          word_max_length g).1 = separator.intercalate ws ++ suffix
        ∧ (ws.length : Int) = num_words
        ∧ (ws.intersperse separator).length = 2 * ws.length - 1
        ∧ (∀ w ∈ ws, ∃ u ∈ fallback_words, w = placedWord capitalize u)
        ∧ (add_numbers = true →
            suffix.length = 3 ∧ (∀ c ∈ suffix, c.isDigit = true)
              ∧ ∃ k : Nat, k ≤ 999 ∧ suffix = List.leftpad 3 '0' (Nat.toDigits 10 k))
        ∧ (add_numbers = false → suffix = []) := by
  obtain ⟨ws, h1, h2, h3⟩ := selectWords_spec capitalize word_min_length word_max_length
    num_words.toNat [] g
  rw [List.nil_append] at h1
  have hgen : ∀ b : Bool, (generateMemorablePassword num_words separator b capitalize
      word_min_length word_max_length g).1
      = separator.intercalate ws
        ++ (if b then List.leftpad 3 '0' (decimal (uniformInt 0 999
          (selectWords capitalize word_min_length word_max_length num_words.toNat [] g).2).1)
          else []) := by
    intro b
    unfold generateMemorablePassword
    simp only []
    rw [h1, joinWords_eq, List.nil_append]
    cases b <;> simp
  have hlen := intersperse_length separator ws
  obtain ⟨r0, r1⟩ := uniformInt_range 0 999 (by norm_num)
    (selectWords capitalize word_min_length word_max_length num_words.toNat [] g).2
  have hdec := decimal_of_nonneg _ r0
  cases add_numbers
  · refine ⟨ws, [], ?_, by omega, hlen, h3, fun hc => absurd hc (by decide), fun _ => rfl⟩
    rw [hgen false]
    rfl
  · refine ⟨ws, _, hgen true, by omega, hlen, h3, fun _ => ⟨?_, ?_, ?_⟩,
      fun hc => absurd hc (by decide)⟩
    · rw [if_pos rfl, List.leftpad_length, hdec]
      have hle := toDigits_length_le 2 (uniformInt 0 999
        (selectWords capitalize word_min_length word_max_length num_words.toNat [] g).2).1.toNat
        (by omega)
      omega
    · rw [if_pos rfl, hdec]
      exact leftpad_isDigit 3 _ (toDigits_isDigit _)
    · refine ⟨_, ?_, by rw [if_pos rfl, hdec]⟩
      omega

theorem generateMemorablePassword_shape_witness :
    (1 : Int) ≤ 3
      ∧ ∃ (ws : List (List Char)) (suffix : List Char),
        (generateMemorablePassword 3 "--".toList true true 3 8 [0, 1, 2, 7, 9]).1
            = "--".toList.intercalate ws ++ suffix
          ∧ (ws.length : Int) = 3
          ∧ (ws.intersperse "--".toList).length = 2 * ws.length - 1
          ∧ (∀ w ∈ ws, ∃ u ∈ fallback_words, w = placedWord true u)
          ∧ (true = true →
              suffix.length = 3 ∧ (∀ c ∈ suffix, c.isDigit = true)
                ∧ ∃ k : Nat, k ≤ 999 ∧ suffix = List.leftpad 3 '0' (Nat.toDigits 10 k))
          ∧ (true = false → suffix = []) :=
  ⟨by decide, generateMemorablePassword_shape 3 "--".toList true true 3 8 [0, 1, 2, 7, 9]
    (by decide)⟩

/-! ## The numeric token of the complex passphrase -/

theorem insertNumber_true (password : List Char) (g : Gen) :
    ∃ k i : Nat, k ≤ 9999 ∧ (i = 0 ∨ i = password.length / 2 ∨ i = password.length)
      ∧ (insertNumber true password g).1
          = password.take i ++ List.leftpad 2 '0' (Nat.toDigits 10 k) ++ password.drop i
      ∧ 2 ≤ (List.leftpad 2 '0' (Nat.toDigits 10 k)).length
      ∧ (List.leftpad 2 '0' (Nat.toDigits 10 k)).length ≤ 4
      ∧ ∀ c ∈ List.leftpad 2 '0' (Nat.toDigits 10 k), c.isDigit = true := by
  obtain ⟨r0, r1⟩ := uniformInt_range 0 9999 (by norm_num) (uniformInt 0 2 g).2
  have hdec := decimal_of_nonneg _ r0
  have hle := toDigits_length_le 3 (uniformInt 0 9999 (uniformInt 0 2 g).2).1.toNat (by omega)
  have hshape : ∃ i : Nat, (i = 0 ∨ i = password.length / 2 ∨ i = password.length)
      ∧ (insertNumber true password g).1
        = password.take i
          ++ List.leftpad 2 '0' (Nat.toDigits 10 (uniformInt 0 9999 (uniformInt 0 2 g).2).1.toNat)
          ++ password.drop i := by
    unfold insertNumber
    simp only [if_true]
    rw [hdec]
    split_ifs with h0 h2
    · exact ⟨0, Or.inl rfl, by simp⟩
    · exact ⟨password.length, Or.inr (Or.inr rfl), by simp⟩
    · exact ⟨password.length / 2, Or.inr (Or.inl rfl), rfl⟩
  obtain ⟨i, hi, hres⟩ := hshape
  refine ⟨_, i, by omega, hi, hres, ?_, ?_, leftpad_isDigit 2 _ (toDigits_isDigit _)⟩
  · rw [List.leftpad_length]
    exact le_max_left _ _
  · rw [List.leftpad_length]
    exact max_le (by norm_num) hle

/-- C26 (as stated, refuted): for one word, draws that select "apple", the start position
and the number 1234, the string before padding is "1234apple": it is not the joined
string "apple" with a token of two characters inserted anywhere. -/
theorem four_digit_token_counterexample :
    (joinedWords 1 false false [0, 0, 1234]).1 = "apple".toList
      ∧ (assembleComplex 1 false true false [0, 0, 1234]).1 = "1234apple".toList
      ∧ ¬ ∃ (token : List Char) (i : Nat), token.length = 2
          ∧ (assembleComplex 1 false true false [0, 0, 1234]).1
              = (joinedWords 1 false false [0, 0, 1234]).1.take i ++ token
                ++ (joinedWords 1 false false [0, 0, 1234]).1.drop i := by
  have h1 : (joinedWords 1 false false [0, 0, 1234]).1 = "apple".toList := by decide
  have h2 : (assembleComplex 1 false true false [0, 0, 1234]).1 = "1234apple".toList := by
    decide
  refine ⟨h1, h2, ?_⟩
  rintro ⟨token, i, hl, h⟩
  rw [h1, h2] at h
  have hlen := congrArg List.length h
  simp only [List.length_append, List.length_take, List.length_drop, hl] at hlen
  have h9 : "1234apple".toList.length = 9 := by decide
  have h5 : "apple".toList.length = 5 := by decide
  rw [h9, h5] at hlen
  omega

/-- C26 (amended): with `add_numbers = true` the string before padding is the joined word
string `j` with one numeric token inserted at index 0, at index `⌊|j|/2⌋` or at index
`|j|`; the token is the decimal text of a number from 0 to 9999 padded with zeros to at
least 2 characters, so it has 2 to 4 digits. With `add_numbers = false` the string before
padding is `j` itself. -/
theorem assembleComplex_number (num_words : Int) (add_special_chars transform_words : Bool)
    (g : Gen) :
    (∃ k i : Nat, k ≤ 9999
        ∧ (i = 0 ∨ i = (joinedWords num_words add_special_chars transform_words g).1.length / 2
            ∨ i = (joinedWords num_words add_special_chars transform_words g).1.length)
        ∧ (assembleComplex num_words add_special_chars true transform_words g).1
            = (joinedWords num_words add_special_chars transform_words g).1.take i
              ++ List.leftpad 2 '0' (Nat.toDigits 10 k)
              ++ (joinedWords num_words add_special_chars transform_words g).1.drop i
        ∧ 2 ≤ (List.leftpad 2 '0' (Nat.toDigits 10 k)).length
        ∧ (List.leftpad 2 '0' (Nat.toDigits 10 k)).length ≤ 4
        ∧ ∀ c ∈ List.leftpad 2 '0' (Nat.toDigits 10 k), c.isDigit = true)
      ∧ assembleComplex num_words add_special_chars false transform_words g
          = joinedWords num_words add_special_chars transform_words g :=
  ⟨insertNumber_true _ _, rfl⟩

/-- C25 (the code at the failing input): with `add_special_chars = false`, two words and
the draws 0, 1 for the words and 4 for the separator, the separator placed between the
two words is "!": the draw ranges over all seven separators. -/
theorem punctuation_separator_without_special :
    chooseSeparator false [4] = ("!".toList, [])
      ∧ generateComplexMemorablePassword 2 false false false 0 0 [0, 1, 4]
          = some ("apple!mountain".toList, [])
      ∧ (∀ g : Gen, (chooseSeparator false g).1
          = complexSeparators.getD ((g.headD 0) % 7) []) := by
  refine ⟨by decide, by decide, fun g => ?_⟩
  have h7 : ((complexSeparators.length : Int) - 1) = 6 := by decide
  have hd : (0 + ((g.headD 0 : Nat) : Int) % (6 - 0 + 1)).toNat = g.headD 0 % 7 := by omega
  simp only [chooseSeparator, uniformInt, h7, Bool.false_eq_true, if_false]
  rw [hd]

/-! ## The padding loop of the complex passphrase -/

theorem padLoop_done (add_special_chars : Bool) (min_length : Int) (fuel : Nat)
    (password : List Char) (g : Gen)
    (h : ¬ (password.length < toSizeT min_length ∧ add_special_chars = true)) :
    padLoop add_special_chars min_length fuel password g = some (password, g) := by
  cases fuel with
  | zero => rw [padLoop, if_neg h]
  | succ f => rw [padLoop, if_neg h]

/-- One pass of the padding loop: a character of `special_chars_subset` inserted at a
drawn position. -/
theorem padLoop_step (min_length : Int) (password : List Char) (g : Gen)
    (h : password.length < toSizeT min_length) :
    ∃ (c : Char) (position : Nat) (g1 : Gen), c ∈ special_chars_subset
      ∧ position ≤ password.length
      ∧ ∀ fuel : Nat, padLoop true min_length (fuel + 1) password g
          = padLoop true min_length fuel
              (password.take position ++ [c] ++ password.drop position) g1 := by
  have hidx := uniformInt_index_lt special_chars_subset.length (by decide) g
  refine ⟨special_chars_subset.getD
      (uniformInt 0 ((special_chars_subset.length : Int) - 1) g).1.toNat ' ',
    (uniformInt 0 (password.length : Int)
      (uniformInt 0 ((special_chars_subset.length : Int) - 1) g).2).1.toNat,
    (uniformInt 0 (password.length : Int)
      (uniformInt 0 ((special_chars_subset.length : Int) - 1) g).2).2, ?_, ?_, ?_⟩
  · rw [List.getD_eq_getElem _ _ hidx]
    exact List.getElem_mem hidx
  · exact uniformInt_index_le _ _
  · intro fuel
    rw [padLoop, if_pos ⟨h, rfl⟩]

theorem insert_length (password : List Char) (position : Nat) (c : Char) :
    (password.take position ++ [c] ++ password.drop position).length = password.length + 1 := by
  simp only [List.length_append, List.length_take, List.length_drop, List.length_singleton]
  omega

theorem insert_sublist (password : List Char) (position : Nat) (c : Char) :
    password.Sublist (password.take position ++ [c] ++ password.drop position) := by
  have h : password = password.take position ++ [] ++ password.drop position := by simp
  conv_lhs => rw [h]
  exact List.Sublist.append (List.Sublist.append (List.Sublist.refl _) (List.nil_sublist _))
    (List.Sublist.refl _)

theorem insert_perm (password : List Char) (position : Nat) (c : Char) :
    (password.take position ++ [c] ++ password.drop position).Perm (password ++ [c]) := by
  have h : (password.take position ++ [c] ++ password.drop position).Perm
      (password.take position ++ password.drop position ++ [c]) := by
    rw [List.append_assoc, List.append_assoc]
    exact List.Perm.append_left _ List.perm_append_comm
  rwa [List.take_append_drop] at h

/-- The padding loop with special characters allowed: with fuel for every missing
character it returns, and what it returns is the password with characters of
`special_chars_subset` inserted up to the minimum length. -/
theorem padLoop_spec (min_length : Int) : ∀ (fuel : Nat) (password : List Char) (g : Gen),
    toSizeT min_length - password.length ≤ fuel →
    ∃ (result : List Char) (g1 : Gen) (inserted : List Char),
      padLoop true min_length fuel password g = some (result, g1)
        ∧ padLoop true min_length (toSizeT min_length - password.length) password g
            = some (result, g1)
        ∧ result.length = max password.length (toSizeT min_length)
        ∧ password.Sublist result
        ∧ result.Perm (password ++ inserted)
        ∧ ∀ c ∈ inserted, c ∈ special_chars_subset := by
  intro fuel
  induction fuel with
  | zero =>
    intro password g hf
    have hnot : ¬ (password.length < toSizeT min_length ∧ true = true) := by omega
    refine ⟨password, g, [], padLoop_done _ _ _ _ _ hnot, padLoop_done _ _ _ _ _ hnot, ?_,
      List.Sublist.refl _, by simp, by simp⟩
    omega
  | succ f ih =>
    intro password g hf
    by_cases hlt : password.length < toSizeT min_length
    · obtain ⟨c, position, g1, hc, _, hstep⟩ := padLoop_step min_length password g hlt
      obtain ⟨k, hk⟩ : ∃ k, toSizeT min_length - password.length = k + 1 :=
        ⟨toSizeT min_length - password.length - 1, by omega⟩
      have hlen := insert_length password position c
      obtain ⟨result, g3, inserted, e1, e2, e3, e4, e5, e6⟩ :=
        ih (password.take position ++ [c] ++ password.drop position) g1 (by omega)
      have hk2 : toSizeT min_length
          - (password.take position ++ [c] ++ password.drop position).length = k := by omega
      rw [hk2] at e2
      refine ⟨result, g3, c :: inserted, ?_, ?_, ?_, (insert_sublist password position c).trans e4,
        ?_, ?_⟩
      · rw [hstep f, e1]
      · rw [hk, hstep k, e2]
      · rw [e3, hlen]
        omega
      · refine e5.trans ?_
        have hp := (insert_perm password position c).append_right inserted
        refine hp.trans ?_
        rw [List.append_assoc]
        rfl
      · intro x hx
        rcases List.mem_cons.mp hx with rfl | hx
        · exact hc
        · exact e6 x hx
    · have hnot : ¬ (password.length < toSizeT min_length ∧ true = true) := fun h => hlt h.1
      refine ⟨password, g, [], padLoop_done _ _ _ _ _ hnot, padLoop_done _ _ _ _ _ hnot, ?_,
        List.Sublist.refl _, by simp, by simp⟩
      omega

/-- C24: let `s` be the string assembled before padding. With `add_special_chars = true`,
for every `min_length ≥ 0` and every outcome of the random source the padding loop
terminates (with fuel for every missing character the model returns, and always the same
result), the result has length `max(|s|, min_length)`, and it is `s` with inserted
characters, each one of "!@#$%^&*", so that removing them gives back `s`. With
`add_special_chars = false` the result is `s` itself whatever `min_length` is, and no
error is raised. -/
theorem generateComplexMemorablePassword_padding (num_words : Int)
    (add_numbers transform_words : Bool) (min_length : Int) (g : Gen)
    (h0 : 0 ≤ min_length) (hmax : min_length ≤ 2147483647) :
    (∃ (result : List Char) (g1 : Gen) (inserted : List Char),
        (∀ fuel : Nat,
          min_length.toNat - (assembleComplex num_words true add_numbers transform_words g).1.length
            ≤ fuel →
          generateComplexMemorablePassword num_words true add_numbers transform_words min_length
            fuel g = some (result, g1))
        ∧ result.length
            = max (assembleComplex num_words true add_numbers transform_words g).1.length
                min_length.toNat
        ∧ (assembleComplex num_words true add_numbers transform_words g).1.Sublist result
        ∧ result.Perm
            ((assembleComplex num_words true add_numbers transform_words g).1 ++ inserted)
        ∧ ∀ c ∈ inserted, c ∈ "!@#$%^&*".toList)
      ∧ ∀ fuel : Nat,
          generateComplexMemorablePassword num_words false add_numbers transform_words min_length
            fuel g = some (assembleComplex num_words false add_numbers transform_words g) := by
  have hsz := toSizeT_of_nonneg min_length h0 (by omega)
  constructor
  · obtain ⟨result, g1, inserted, _, e2, e3, e4, e5, e6⟩ := padLoop_spec min_length
      (toSizeT min_length - (assembleComplex num_words true add_numbers transform_words g).1.length)
      (assembleComplex num_words true add_numbers transform_words g).1
      (assembleComplex num_words true add_numbers transform_words g).2 (le_refl _)
    refine ⟨result, g1, inserted, fun fuel hf => ?_, by rw [e3, hsz], e4, e5, e6⟩
    obtain ⟨result2, g2, _, d1, d2, _⟩ := padLoop_spec min_length fuel
      (assembleComplex num_words true add_numbers transform_words g).1
      (assembleComplex num_words true add_numbers transform_words g).2 (by rw [hsz]; exact hf)
    unfold generateComplexMemorablePassword
    simp only []
    rw [d1, ← d2, e2]
  · intro fuel
    unfold generateComplexMemorablePassword
    simp only []
    rw [padLoop_done]
    rintro ⟨_, hc⟩
    exact absurd hc (by decide)

theorem generateComplexMemorablePassword_padding_witness :
    (0 : Int) ≤ 20 ∧ (20 : Int) ≤ 2147483647
      ∧ ∃ (result : List Char) (g1 : Gen) (inserted : List Char),
        (∀ fuel : Nat,
          (20 : Int).toNat - (assembleComplex 2 true true true [0, 1, 0, 0]).1.length ≤ fuel →
          generateComplexMemorablePassword 2 true true true 20 fuel [0, 1, 0, 0]
            = some (result, g1))
        ∧ result.length = max (assembleComplex 2 true true true [0, 1, 0, 0]).1.length
            (20 : Int).toNat
        ∧ (assembleComplex 2 true true true [0, 1, 0, 0]).1.Sublist result
        ∧ result.Perm ((assembleComplex 2 true true true [0, 1, 0, 0]).1 ++ inserted)
        ∧ ∀ c ∈ inserted, c ∈ "!@#$%^&*".toList :=
  ⟨by decide, by decide,
    (generateComplexMemorablePassword_padding 2 true true 20 [0, 1, 0, 0] (by decide)
      (by decide)).1⟩

/-! ## The transformations of the complex passphrase -/

theorem replaceFamily_eq (pair : Char × Char) (word : List Char) :
    replaceFamily pair word = word.map (substitute pair) := by
  unfold replaceFamily replaceChar
  rw [List.map_map]
  refine List.map_congr_left fun c _ => ?_
  unfold substitute
  simp only [Function.comp]
  by_cases h1 : c = pair.1
  · rw [if_pos (Or.inl h1)]
    simp only [h1, beq_self_eq_true, if_true]
    split_ifs <;> rfl
  · simp only [beq_iff_eq, h1, if_false, false_or]

/-- The leet pass: the entries of the table are tried in order, one draw each; the first
entry whose draw is even is applied and ends the pass, and when every draw is odd the
word is unchanged. -/
theorem leetLoop_spec : ∀ (table : List (Char × Char)) (word : List Char) (g : Gen),
    (∃ (before : List (Char × Char)) (pair : Char × Char) (after : List (Char × Char)),
        table = before ++ pair :: after
          ∧ (∀ i < before.length, g.getD i 0 % 2 = 1)
          ∧ g.getD before.length 0 % 2 = 0
          ∧ leetLoop table word g = (replaceFamily pair word, g.drop (before.length + 1)))
      ∨ ((∀ i < table.length, g.getD i 0 % 2 = 1)
          ∧ leetLoop table word g = (word, g.drop table.length)) := by
  intro table
  induction table with
  | nil => intro word g; exact Or.inr ⟨fun i hi => absurd hi (by simp), rfl⟩
  | cons pair rest ih =>
    intro word g
    have hd : (uniformInt 0 1 g).1 = ((g.headD 0 % 2 : Nat) : Int) := by
      simp only [uniformInt]
      omega
    have hg : (uniformInt 0 1 g).2 = g.tail := rfl
    have h0 : g.getD 0 0 = g.headD 0 := by cases g <;> rfl
    have hs : ∀ i : Nat, g.getD (i + 1) 0 = g.tail.getD i 0 := by
      intro i
      cases g <;> simp
    have hdrop : ∀ n : Nat, g.drop (n + 1) = g.tail.drop n := by
      intro n
      cases g <;> simp
    by_cases hz : g.headD 0 % 2 = 0
    · left
      refine ⟨[], pair, rest, rfl, fun i hi => absurd hi (by simp), by rw [List.length_nil, h0, hz], ?_⟩
      rw [leetLoop, if_pos (by rw [hd, hz]; rfl), hg, List.length_nil, hdrop]
      rfl
    · have hstep : leetLoop (pair :: rest) word g = leetLoop rest word g.tail := by
        rw [leetLoop, if_neg (by rw [hd]; omega), hg]
      rcases ih word g.tail with ⟨before, p, after, e1, e2, e3, e4⟩ | ⟨e1, e2⟩
      · left
        refine ⟨pair :: before, p, after, by rw [e1]; rfl, ?_, ?_, ?_⟩
        · intro i hi
          cases i with
          | zero => rw [h0]; omega
          | succ j =>
            rw [hs]
            exact e2 j (by simpa using hi)
        · rw [List.length_cons, hs]
          exact e3
        · rw [hstep, e4, List.length_cons, hdrop]
      · right
        refine ⟨?_, ?_⟩
        · intro i hi
          cases i with
          | zero => rw [h0]; omega
          | succ j =>
            rw [hs]
            exact e1 j (by simpa using hi)
        · rw [hstep, e2, List.length_cons, hdrop]

theorem caseChoice_cases (t : Int) (word : List Char) (h0 : 0 ≤ t) (h3 : t ≤ 3) :
    caseChoice t word = capitalizeFirst word ∨ caseChoice t word = word.map Char.toUpper
      ∨ caseChoice t word = word.map Char.toLower := by
  unfold caseChoice
  split_ifs <;> first | exact Or.inl rfl | exact Or.inr (Or.inl rfl) | exact Or.inr (Or.inr rfl) | omega

theorem transformWord_spec (word : List Char) (g : Gen) :
    ∃ cased : List Char,
      (cased = capitalizeFirst word ∨ cased = word.map Char.toUpper
          ∨ cased = word.map Char.toLower)
        ∧ ((transformWord word g).1 = cased
          ∨ ∃ pair ∈ leetTable, (transformWord word g).1 = cased.map (substitute pair)) := by
  obtain ⟨r0, r3⟩ := uniformInt_range 0 3 (by norm_num) g
  refine ⟨caseChoice (uniformInt 0 3 g).1 word, caseChoice_cases _ word r0 r3, ?_⟩
  unfold transformWord
  simp only []
  split_ifs with h
  · rcases leetLoop_spec leetTable (caseChoice (uniformInt 0 3 g).1 word)
      (uniformInt 0 2 (uniformInt 0 3 g).2).2 with ⟨before, p, after, e1, _, _, e4⟩ | ⟨_, e2⟩
    · right
      refine ⟨p, by rw [e1]; simp, ?_⟩
      rw [e4, replaceFamily_eq]
    · left
      rw [e2]
  · exact Or.inl rfl

theorem complexWords_succ (transform_words : Bool) (n : Nat) (acc : List (List Char))
    (g : Gen) :
    complexWords transform_words (n + 1) acc g
      = complexWords transform_words n
          (acc ++ [(if transform_words then
              transformWord (getRandomWord 4 8 g).1 (getRandomWord 4 8 g).2
            else getRandomWord 4 8 g).1])
          (if transform_words then
              transformWord (getRandomWord 4 8 g).1 (getRandomWord 4 8 g).2
            else getRandomWord 4 8 g).2 := by
  rw [complexWords]

theorem complexWords_spec (transform_words : Bool) (P : List Char → Prop)
    (hP : ∀ g : Gen, P (if transform_words then
        transformWord (getRandomWord 4 8 g).1 (getRandomWord 4 8 g).2
      else getRandomWord 4 8 g).1) :
    ∀ (n : Nat) (acc : List (List Char)) (g : Gen),
      ∃ new : List (List Char),
        (complexWords transform_words n acc g).1 = acc ++ new ∧ new.length = n
          ∧ ∀ w ∈ new, P w := by
  intro n
  induction n with
  | zero => intro acc g; exact ⟨[], by simp [complexWords], rfl, by simp⟩
  | succ k ih =>
    intro acc g
    obtain ⟨new, h1, h2, h3⟩ := ih
      (acc ++ [(if transform_words then
          transformWord (getRandomWord 4 8 g).1 (getRandomWord 4 8 g).2
        else getRandomWord 4 8 g).1])
      (if transform_words then
          transformWord (getRandomWord 4 8 g).1 (getRandomWord 4 8 g).2
        else getRandomWord 4 8 g).2
    refine ⟨(if transform_words then
          transformWord (getRandomWord 4 8 g).1 (getRandomWord 4 8 g).2
        else getRandomWord 4 8 g).1 :: new, ?_, by simp [h2], ?_⟩
    · rw [complexWords_succ, h1, List.append_assoc]
      rfl
    · intro w hw
      rcases List.mem_cons.mp hw with rfl | hw
      · exact hP g
      · exact h3 w hw

/-- C29: in `generateComplexMemorablePassword`, for every outcome of the random source,
each word after the leet pass is its case-transformed form (first letter upper-cased, all
upper case or all lower case) either unchanged or with all occurrences, in both cases, of
exactly one letter among a, e, i, o, s, t replaced by its digit 4, 3, 1, 0, 5, 7; the
pass tries the letters in the order a, e, i, o, s, t with one draw each, and the first
letter whose draw selects it ends the pass; with `transform_words = false` every word is
a corpus word unchanged. -/
theorem complexWords_leet (num_words : Int) (word : List Char) (g : Gen) :
    (∀ w ∈ (complexWords true num_words.toNat [] g).1,
        ∃ u ∈ fallback_words, ∃ cased : List Char,
          (cased = capitalizeFirst u ∨ cased = u.map Char.toUpper ∨ cased = u.map Char.toLower)
            ∧ (w = cased ∨ ∃ pair ∈ leetTable, w = cased.map (substitute pair)))
      ∧ ((∃ (before : List (Char × Char)) (pair : Char × Char) (after : List (Char × Char)),
            leetTable = before ++ pair :: after
              ∧ (∀ i < before.length, g.getD i 0 % 2 = 1)
              ∧ g.getD before.length 0 % 2 = 0
              ∧ leetLoop leetTable word g
                  = (word.map (substitute pair), g.drop (before.length + 1)))
          ∨ ((∀ i < 6, g.getD i 0 % 2 = 1) ∧ leetLoop leetTable word g = (word, g.drop 6)))
      ∧ leetTable = [('a', '4'), ('e', '3'), ('i', '1'), ('o', '0'), ('s', '5'), ('t', '7')]
      ∧ (∀ w ∈ (complexWords false num_words.toNat [] g).1, w ∈ fallback_words) := by
  refine ⟨?_, ?_, rfl, ?_⟩
  · obtain ⟨new, h1, _, h3⟩ := complexWords_spec true
      (fun w => ∃ u ∈ fallback_words, ∃ cased : List Char,
        (cased = capitalizeFirst u ∨ cased = u.map Char.toUpper ∨ cased = u.map Char.toLower)
          ∧ (w = cased ∨ ∃ pair ∈ leetTable, w = cased.map (substitute pair)))
      (fun g1 => by
        obtain ⟨cased, hc, hw⟩ := transformWord_spec (getRandomWord 4 8 g1).1
          (getRandomWord 4 8 g1).2
        exact ⟨(getRandomWord 4 8 g1).1, (getRandomWord_mem 4 8 g1).1, cased, hc, hw⟩)
      num_words.toNat [] g
    rw [h1, List.nil_append]
    exact h3
  · rcases leetLoop_spec leetTable word g with ⟨before, p, after, e1, e2, e3, e4⟩ | ⟨e1, e2⟩
    · left
      exact ⟨before, p, after, e1, e2, e3, by rw [e4, replaceFamily_eq]⟩
    · right
      exact ⟨e1, e2⟩
  · obtain ⟨new, h1, _, h3⟩ := complexWords_spec false (fun w => w ∈ fallback_words)
      (fun g1 => (getRandomWord_mem 4 8 g1).1) num_words.toNat [] g
    rw [h1, List.nil_append]
    exact h3

/-! ## Level descriptions against the level parameters -/

theorem getComplexityDescription_unknown (complexity : Int)
    (h : complexity < 1 ∨ 10 < complexity) :
    getComplexityDescription complexity = "Unknown level" := by
  have hne : ∀ k : Int, 1 ≤ k → k ≤ 10 → (complexity == k) = false := by
    intro k h1 h10
    rw [beq_eq_false_iff_ne]
    omega
  unfold getComplexityDescription descriptions
  simp only [List.lookup, hne 1 (by norm_num) (by norm_num), hne 2 (by norm_num) (by norm_num),
    hne 3 (by norm_num) (by norm_num), hne 4 (by norm_num) (by norm_num),
    hne 5 (by norm_num) (by norm_num), hne 6 (by norm_num) (by norm_num),
    hne 7 (by norm_num) (by norm_num), hne 8 (by norm_num) (by norm_num),
    hne 9 (by norm_num) (by norm_num), hne 10 (by norm_num) (by norm_num)]

theorem saysNoAmbiguous_iff (level : Int) :
    saysNoAmbiguous (getComplexityDescription level) = true ↔ level = 3 ∨ level = 4 := by
  by_cases h : 1 ≤ level ∧ level ≤ 10
  · obtain ⟨h1, h10⟩ := h
    interval_cases level <;> decide
  · rw [getComplexityDescription_unknown level (by omega)]
    refine iff_of_false (by decide) (by omega)

/-- An accepted request with `exclude_ambiguous` set yields a password without ambiguous
characters. -/
theorem generate_exclude_ambiguous (r : Request) (g : Gen) (h : r.Accepted)
    (hex : r.exclude_ambiguous = true) :
    ∃ pw g', r.generate g = .ok (pw, g') ∧ ∀ c ∈ pw, c ∉ ambiguous_chars := by
  obtain ⟨dl, du, dd, ds, filler, g1, hgen, -, -, -, -, -, m1, m2, m3, m4, m5⟩ :=
    generate_accepted r g h
  have hperm := shuffle_perm (dl ++ du ++ dd ++ ds ++ filler) g1
  refine ⟨(shuffle (dl ++ du ++ dd ++ ds ++ filler) g1).1,
    (shuffle (dl ++ du ++ dd ++ ds ++ filler) g1).2, hgen, ?_⟩
  intro c hc
  have hc2 := hperm.mem_iff.mp hc
  simp only [usablePool, hex, if_true] at m1 m2 m3
  simp only [List.mem_append] at hc2
  rcases hc2 with (((hc2 | hc2) | hc2) | hc2) | hc2
  · exact mem_removeAmbiguous (m1 c hc2)
  · exact mem_removeAmbiguous (m2 c hc2)
  · exact mem_removeAmbiguous (m3 c hc2)
  · exact mem_special_not_ambiguous c (m4 c hc2)
  · exact mem_charPool_exclude r hex c (m5 c hc2)

/-- C32 (the code at the failing input): the descriptions that say "no ambiguous" are those
of levels 3 and 4; at level 3 every password is free of the ambiguous characters, but
level 4 does not set `exclude_ambiguous`, and with the first draw 8 (all later draws 0)
the level-4 password is "aiaA0!aaaaaaaa", which holds the ambiguous characters i and 0. -/
theorem level_four_ambiguous :
    (∀ level : Int, saysNoAmbiguous (getComplexityDescription level) = true
        ↔ level = 3 ∨ level = 4)
      ∧ (∀ g : Gen, ∃ pw g', generatePasswordByComplexity 3 g = .ok (pw, g')
          ∧ ∀ c ∈ pw, c ∉ ambiguous_chars)
      ∧ (complexityParams 4).exclude_ambiguous = false
      ∧ generatePasswordByComplexity 4 [8] = .ok ("aiaA0!aaaaaaaa".toList, [])
      ∧ 'i' ∈ "aiaA0!aaaaaaaa".toList ∧ 'i' ∈ ambiguous_chars
      ∧ '0' ∈ "aiaA0!aaaaaaaa".toList ∧ '0' ∈ ambiguous_chars := by
  refine ⟨saysNoAmbiguous_iff, fun g => ?_, rfl, rfl, by decide, by decide, by decide,
    by decide⟩
  rw [generatePasswordByComplexity_in_range 3 g (by norm_num) (by norm_num)]
  exact generate_exclude_ambiguous _ g (complexityParams_accepted 3 (by norm_num) (by norm_num))
    rfl

theorem generate_length (r : Request) (g : Gen) (h : r.Accepted) :
    ∃ pw g', r.generate g = .ok (pw, g') ∧ (pw.length : Int) = r.length := by
  obtain ⟨dl, du, dd, ds, filler, g1, hgen, hlen, -⟩ := generate_accepted r g h
  have hperm := shuffle_perm (dl ++ du ++ dd ++ ds ++ filler) g1
  refine ⟨(shuffle (dl ++ du ++ dd ++ ds ++ filler) g1).1,
    (shuffle (dl ++ du ++ dd ++ ds ++ filler) g1).2, hgen, ?_⟩
  rw [hperm.length_eq]
  exact hlen

/-- C33: for every level from 1 to 10 the character count stated in the description of
the level ("(9 chars)", "(10 chars)", ..., "(28 chars)") is the length of every password
that `generatePasswordByComplexity` returns at that level; for any other level the
description is "Unknown level". -/
theorem description_states_length (level : Int) (g : Gen) :
    (1 ≤ level ∧ level ≤ 10 →
        ∃ pw g', generatePasswordByComplexity level g = .ok (pw, g')
          ∧ statedChars (getComplexityDescription level) = some pw.length)
      ∧ (level < 1 ∨ 10 < level → getComplexityDescription level = "Unknown level")
      ∧ [1, 2, 3, 4, 5, 6, 7, 8, 9, 10].map
          (fun l : Int => statedChars (getComplexityDescription l))
        = [some 9, some 10, some 13, some 14, some 17, some 18, some 18, some 20, some 24,
            some 28] := by
  refine ⟨?_, getComplexityDescription_unknown level, by decide⟩
  rintro ⟨h1, h10⟩
  obtain ⟨pw, g', hgen, hlen⟩ := generate_length (complexityParams level) g
    (complexityParams_accepted level h1 h10)
  refine ⟨pw, g', by rw [generatePasswordByComplexity_in_range level g h1 h10]; exact hgen, ?_⟩
  rw [complexityParams_length level h1 h10] at hlen
  have hstated : statedChars (getComplexityDescription level) = some (levelLength level).toNat := by
    interval_cases level <;> decide
  rw [hstated]
  congr 1
  have hnn : 0 ≤ levelLength level := by rw [← hlen]; exact Int.natCast_nonneg _
  omega

theorem description_states_length_witness :
    ((1 : Int) ≤ 7 ∧ (7 : Int) ≤ 10)
      ∧ ∃ pw g', generatePasswordByComplexity 7 [3, 1, 4, 1, 5] = .ok (pw, g')
          ∧ statedChars (getComplexityDescription 7) = some pw.length :=
  ⟨by decide, (description_states_length 7 [3, 1, 4, 1, 5]).1 (by decide)⟩

/-! ## The separator groups of the complex passphrase -/

theorem uniformInt_cons (lo hi : Int) (r : Nat) (g : Gen) :
    uniformInt lo hi (r :: g) = (lo + (r : Int) % (hi - lo + 1), g) := rfl

theorem chooseSeparator_even (k : Nat) (g : Gen) :
    (chooseSeparator true (2 * k :: g)).1 ∈ punctuationSeparators := by
  have hc : (uniformInt 0 1 (2 * k :: g)).1 = 0 := by
    rw [uniformInt_cons]
    push_cast
    omega
  have hg : (uniformInt 0 1 (2 * k :: g)).2 = g := rfl
  have h7 : ((complexSeparators.length : Int) - 1) = 6 := by decide
  obtain ⟨r3, r6⟩ := uniformInt_range 3 6 (by norm_num) g
  simp only [chooseSeparator, if_true, hc, hg, h7]
  generalize (uniformInt 3 6 g).1 = d at r3 r6
  interval_cases d <;> decide

theorem chooseSeparator_odd (k : Nat) (g : Gen) :
    (chooseSeparator true ((2 * k + 1) :: g)).1 ∈ plainSeparators := by
  have hc : (uniformInt 0 1 ((2 * k + 1) :: g)).1 = 1 := by
    rw [uniformInt_cons]
    push_cast
    omega
  have hg : (uniformInt 0 1 ((2 * k + 1) :: g)).2 = g := rfl
  obtain ⟨r0, r2⟩ := uniformInt_range 0 2 (by norm_num) g
  simp only [chooseSeparator, if_true, hc, hg]
  rw [if_neg (by decide)]
  show complexSeparators.getD (uniformInt 0 2 g).1.toNat [] ∈ plainSeparators
  generalize (uniformInt 0 2 g).1 = d at r0 r2
  interval_cases d <;> decide

theorem separators_disjoint : ∀ s ∈ plainSeparators, s ∉ punctuationSeparators := by
  decide

theorem punctuationShare_two (g : Gen) : punctuationShare 2 g = 1 / 2 := by
  have h0 : punctuationSeparators.contains (chooseSeparator true (0 :: g)).1 = true := by
    have := chooseSeparator_even 0 g
    simpa using this
  have h1 : punctuationSeparators.contains (chooseSeparator true (1 :: g)).1 = false := by
    have := separators_disjoint _ (chooseSeparator_odd 0 g)
    simpa using this
  have hr : List.range 2 = [0, 1] := rfl
  unfold punctuationShare
  rw [hr, List.countP_cons, List.countP_cons, List.countP_nil, h0, h1]
  norm_num

/-- C36 (as stated, refuted): the group-selection draw of a gap has the two outcomes 0 and
1, and a punctuation-style separator is placed for one of them: the share is not 2/3. -/
theorem punctuation_share_counterexample :
    ¬ (punctuationShare 2 [] = 2 / 3) := by
  rw [punctuationShare_two]
  norm_num

/-- C36 (amended): with `add_special_chars = true` the group-selection draw of a gap has
two equally likely outcomes; for one of them (an even raw value, outcome 0) the
separator is one of ".", "!", "@", "#", for the other (an odd raw value, outcome 1) it is
one of nothing, "-", "_": a punctuation-style separator is selected for 1/2 of the
outcomes and a plain one for the remaining 1/2. -/
theorem chooseSeparator_share (r k : Nat) (g : Gen) :
    (uniformInt 0 1 (r :: g)).1 = ((r % 2 : Nat) : Int)
      ∧ (chooseSeparator true (2 * k :: g)).1 ∈ [".", "!", "@", "#"].map String.toList
      ∧ (chooseSeparator true ((2 * k + 1) :: g)).1 ∈ ["", "-", "_"].map String.toList
      ∧ punctuationShare 2 g = 1 / 2
      ∧ 1 - punctuationShare 2 g = 1 / 2 := by
  refine ⟨?_, chooseSeparator_even k g, chooseSeparator_odd k g, punctuationShare_two g, ?_⟩
  · rw [uniformInt_cons]
    push_cast
    omega
  · rw [punctuationShare_two]
    norm_num

/-! ## The characters of a generated password -/

theorem usablePool_subset (cls : List Char) (exclude_ambiguous : Bool) (c : Char)
    (h : c ∈ usablePool cls exclude_ambiguous) : c ∈ cls := by
  unfold usablePool at h
  split_ifs at h
  · unfold removeAmbiguous at h
    exact (List.mem_filter.mp h).1
  · exact h

theorem classes_disjoint :
    (∀ c ∈ lowercase, c ∉ uppercase ∧ c ∉ digits ∧ c ∉ special_chars)
      ∧ (∀ c ∈ uppercase, c ∉ lowercase ∧ c ∉ digits ∧ c ∉ special_chars)
      ∧ (∀ c ∈ digits, c ∉ lowercase ∧ c ∉ uppercase ∧ c ∉ special_chars)
      ∧ (∀ c ∈ special_chars, c ∉ lowercase ∧ c ∉ uppercase ∧ c ∉ digits) := by
  decide

theorem mem_charPool (r : Request) (c : Char) (h : c ∈ r.charPool) :
    (r.use_lowercase = true ∧ c ∈ usablePool lowercase r.exclude_ambiguous)
      ∨ (r.use_uppercase = true ∧ c ∈ usablePool uppercase r.exclude_ambiguous)
      ∨ (r.use_digits = true ∧ c ∈ usablePool digits r.exclude_ambiguous)
      ∨ (r.use_special = true ∧ c ∈ special_chars) := by
  simp only [Request.charPool, List.mem_append] at h
  rcases h with ((h | h) | h) | h
  · split_ifs at h with hu
    · exact Or.inl ⟨hu, h⟩
    · simp at h
  · split_ifs at h with hu
    · exact Or.inr (Or.inl ⟨hu, h⟩)
    · simp at h
  · split_ifs at h with hu
    · exact Or.inr (Or.inr (Or.inl ⟨hu, h⟩))
    · simp at h
  · split_ifs at h with hu
    · exact Or.inr (Or.inr (Or.inr ⟨hu, h⟩))
    · simp at h

theorem enabled_of_mem (b : Bool) (n : Nat) (l : List Char) (c : Char)
    (hl : l.length = if b then n else 0) (hc : c ∈ l) : b = true := by
  cases b
  · rw [if_neg (by decide)] at hl
    rw [List.length_eq_zero.mp hl] at hc
    simp at hc
  · rfl

/-- C34: for every accepted request and every outcome of the random source, the string
that `generatePassword` returns is a permutation of the characters drawn, the required
characters followed by the filler, and each of its characters belongs to the usable pool
of an enabled class; so a disabled class contributes no character (no special character
appears when `use_special` is false, and so on for each class), whatever minimum the
request gives for it. -/
theorem generatePassword_pool (r : Request) (g : Gen) (h : r.Accepted) :
    ∃ (required filler pw : List Char) (g' : Gen),
      r.generate g = .ok (pw, g')
        ∧ pw.Perm (required ++ filler)
        ∧ required.length = r.requiredCount
        ∧ ((required ++ filler).length : Int) = r.length
        ∧ (∀ c ∈ pw,
            (r.use_lowercase = true ∧ c ∈ usablePool lowercase r.exclude_ambiguous)
              ∨ (r.use_uppercase = true ∧ c ∈ usablePool uppercase r.exclude_ambiguous)
              ∨ (r.use_digits = true ∧ c ∈ usablePool digits r.exclude_ambiguous)
              ∨ (r.use_special = true ∧ c ∈ special_chars))
        ∧ (r.use_lowercase = false → ∀ c ∈ pw, c ∉ lowercase)
        ∧ (r.use_uppercase = false → ∀ c ∈ pw, c ∉ uppercase)
        ∧ (r.use_digits = false → ∀ c ∈ pw, c ∉ digits)
        ∧ (r.use_special = false → ∀ c ∈ pw, c ∉ special_chars) := by
  obtain ⟨dl, du, dd, ds, filler, g1, hgen, hlen, l1, l2, l3, l4, m1, m2, m3, m4, m5⟩ :=
    generate_accepted r g h
  have hperm := shuffle_perm (dl ++ du ++ dd ++ ds ++ filler) g1
  have hpool : ∀ c ∈ (shuffle (dl ++ du ++ dd ++ ds ++ filler) g1).1,
      (r.use_lowercase = true ∧ c ∈ usablePool lowercase r.exclude_ambiguous)
        ∨ (r.use_uppercase = true ∧ c ∈ usablePool uppercase r.exclude_ambiguous)
        ∨ (r.use_digits = true ∧ c ∈ usablePool digits r.exclude_ambiguous)
        ∨ (r.use_special = true ∧ c ∈ special_chars) := by
    intro c hc
    have hc2 := hperm.mem_iff.mp hc
    simp only [List.mem_append] at hc2
    rcases hc2 with (((hc2 | hc2) | hc2) | hc2) | hc2
    · exact Or.inl ⟨enabled_of_mem _ _ dl c l1 hc2, m1 c hc2⟩
    · exact Or.inr (Or.inl ⟨enabled_of_mem _ _ du c l2 hc2, m2 c hc2⟩)
    · exact Or.inr (Or.inr (Or.inl ⟨enabled_of_mem _ _ dd c l3 hc2, m3 c hc2⟩))
    · exact Or.inr (Or.inr (Or.inr ⟨enabled_of_mem _ _ ds c l4 hc2, m4 c hc2⟩))
    · exact mem_charPool r c (m5 c hc2)
  obtain ⟨d1, d2, d3, d4⟩ := classes_disjoint
  refine ⟨dl ++ du ++ dd ++ ds, filler, (shuffle (dl ++ du ++ dd ++ ds ++ filler) g1).1,
    (shuffle (dl ++ du ++ dd ++ ds ++ filler) g1).2, hgen, hperm, ?_, hlen, hpool, ?_, ?_, ?_, ?_⟩
  · simp only [List.length_append, l1, l2, l3, l4, Request.requiredCount]
  · intro hoff c hc hmem
    rcases hpool c hc with ⟨e, _⟩ | ⟨_, p⟩ | ⟨_, p⟩ | ⟨_, p⟩
    · rw [hoff] at e
      exact absurd e (by decide)
    · exact (d2 c (usablePool_subset _ _ c p)).1 hmem
    · exact (d3 c (usablePool_subset _ _ c p)).1 hmem
    · exact (d4 c p).1 hmem
  · intro hoff c hc hmem
    rcases hpool c hc with ⟨_, p⟩ | ⟨e, _⟩ | ⟨_, p⟩ | ⟨_, p⟩
    · exact (d1 c (usablePool_subset _ _ c p)).1 hmem
    · rw [hoff] at e
      exact absurd e (by decide)
    · exact (d3 c (usablePool_subset _ _ c p)).2.1 hmem
    · exact (d4 c p).2.1 hmem
  · intro hoff c hc hmem
    rcases hpool c hc with ⟨_, p⟩ | ⟨_, p⟩ | ⟨e, _⟩ | ⟨_, p⟩
    · exact (d1 c (usablePool_subset _ _ c p)).2.1 hmem
    · exact (d2 c (usablePool_subset _ _ c p)).2.1 hmem
    · rw [hoff] at e
      exact absurd e (by decide)
    · exact (d4 c p).2.2 hmem
  · intro hoff c hc hmem
    rcases hpool c hc with ⟨_, p⟩ | ⟨_, p⟩ | ⟨_, p⟩ | ⟨e, _⟩
    · exact (d1 c (usablePool_subset _ _ c p)).2.2 hmem
    · exact (d2 c (usablePool_subset _ _ c p)).2.2 hmem
    · exact (d3 c (usablePool_subset _ _ c p)).2.2 hmem
    · rw [hoff] at e
      exact absurd e (by decide)

theorem generatePassword_pool_witness :
    Request.Accepted ⟨8, true, true, true, false, false, 1, 2, 1, 5⟩
      ∧ ∃ (required filler pw : List Char) (g' : Gen),
        Request.generate ⟨8, true, true, true, false, false, 1, 2, 1, 5⟩ [3, 1, 4, 1, 5, 9, 2, 6]
            = .ok (pw, g')
          ∧ pw.Perm (required ++ filler)
          ∧ required.length
              = Request.requiredCount ⟨8, true, true, true, false, false, 1, 2, 1, 5⟩
          ∧ ((required ++ filler).length : Int) = 8
          ∧ (∀ c ∈ pw,
              (true = true ∧ c ∈ usablePool lowercase false)
                ∨ (true = true ∧ c ∈ usablePool uppercase false)
                ∨ (true = true ∧ c ∈ usablePool digits false)
                ∨ (false = true ∧ c ∈ special_chars))
          ∧ (true = false → ∀ c ∈ pw, c ∉ lowercase)
          ∧ (true = false → ∀ c ∈ pw, c ∉ uppercase)
          ∧ (true = false → ∀ c ∈ pw, c ∉ digits)
          ∧ (false = false → ∀ c ∈ pw, c ∉ special_chars) :=
  ⟨by decide, generatePassword_pool ⟨8, true, true, true, false, false, 1, 2, 1, 5⟩
    [3, 1, 4, 1, 5, 9, 2, 6] (by decide)⟩

/-! ## Replacements after an upper-casing transform -/

theorem corpus_lowercase : ∀ w ∈ fallback_words, ∀ c ∈ w, c ∈ lowercase := by
  decide

theorem upper_not_replaced :
    ∀ c ∈ lowercase, leetChar c.toUpper = c.toUpper ∧ c.toUpper.isDigit = false := by
  decide

theorem leetChar_ne (ch : Char) (h : leetChar ch ≠ ch) : ch ∈ ['a', 'e', 'i', 'o', 's'] := by
  unfold leetChar at h
  split_ifs at h with ha he hi ho hs
  · rw [ha]; decide
  · rw [he]; decide
  · rw [hi]; decide
  · rw [ho]; decide
  · rw [hs]; decide
  · exact absurd rfl h

/-- C35: for a Word component with replacements "true" whose effective case transform is
uppercase (capitalize not "true", uppercase "true") no substitution takes place: whatever
the random source yields, the appended text is exactly the upper-cased corpus word and
holds no digit, since only the lower-case letters a, e, i, o, s are replaced; likewise
with capitalize "true" the upper-cased first letter is never replaced (the replacements
act on the rest of the word only). -/
theorem wordComponent_uppercase_replacements (config : List (String × String))
    (password : List Char) (g : Gen) (min_length max_length : Int) (w : List Char) (g1 : Gen)
    (hmin : intOption config "min_length" 3 = .ok min_length)
    (hmax : intOption config "max_length" 10 = .ok max_length)
    (hw : getRandomWord min_length max_length g = (w, g1))
    (hrep : config.lookup "replacements" = some "true") :
    w ∈ fallback_words
      ∧ (config.lookup "capitalize" ≠ some "true" → config.lookup "uppercase" = some "true" →
          wordComponent config password g = .ok (password ++ w.map Char.toUpper, g1)
            ∧ (∀ ch ∈ w.map Char.toUpper, ch.isDigit = false)
            ∧ (∀ ch ∈ w.map Char.toUpper, leetChar ch = ch))
      ∧ (config.lookup "capitalize" = some "true" →
          ∃ c t, w = c :: t
            ∧ wordComponent config password g
                = .ok (password ++ c.toUpper :: t.map leetChar, g1)
            ∧ leetChar c.toUpper = c.toUpper ∧ c.toUpper.isDigit = false)
      ∧ (∀ ch : Char, leetChar ch ≠ ch → ch ∈ ['a', 'e', 'i', 'o', 's']) := by
  have hmem := (getRandomWord_mem min_length max_length g).1
  have heq := wordComponent_eq config password g min_length max_length hmin hmax
  rw [hw] at hmem heq
  rw [(boolOption_eq_true_iff config "replacements").mpr hrep, if_pos rfl,
    applyReplacements_leet] at heq
  have hne : w ≠ [] := fallback_words_ne_nil w hmem
  have hlow := corpus_lowercase w hmem
  refine ⟨hmem, ?_, ?_, leetChar_ne⟩
  · intro hc hu
    have hcap := (boolOption_eq_false_iff config "capitalize").mpr hc
    have hup := (boolOption_eq_true_iff config "uppercase").mpr hu
    have hfix : ∀ ch ∈ w.map Char.toUpper, leetChar ch = ch ∧ ch.isDigit = false := by
      intro ch hch
      obtain ⟨c, hcw, rfl⟩ := List.mem_map.mp hch
      exact upper_not_replaced c (hlow c hcw)
    refine ⟨?_, fun ch hch => (hfix ch hch).2, fun ch hch => (hfix ch hch).1⟩
    rw [heq]
    simp only [caseTransform, hcap, hup, Bool.false_and, Bool.false_eq_true, if_false, if_true]
    have hmap : (w.map Char.toUpper).map leetChar = w.map Char.toUpper := by
      conv_rhs => rw [← List.map_id (w.map Char.toUpper)]
      exact List.map_congr_left fun ch hch => (hfix ch hch).1
    rw [hmap]
  · intro hc
    have hcap := (boolOption_eq_true_iff config "capitalize").mpr hc
    obtain ⟨c, t, rfl⟩ := List.exists_cons_of_ne_nil hne
    have hfix := upper_not_replaced c (hlow c (List.mem_cons_self c t))
    refine ⟨c, t, rfl, ?_, hfix.1, hfix.2⟩
    rw [heq]
    simp only [caseTransform, hcap, List.isEmpty_cons, Bool.not_false, Bool.and_self, if_true,
      capitalizeFirst, List.map_cons, hfix.1]

theorem wordComponent_uppercase_replacements_witness :
    intOption [("replacements", "true"), ("uppercase", "true")] "min_length" 3 = .ok 3
      ∧ intOption [("replacements", "true"), ("uppercase", "true")] "max_length" 10 = .ok 10
      ∧ getRandomWord 3 10 [5, 2] = ("ocean".toList, [2])
      ∧ ([("replacements", "true"), ("uppercase", "true")] :
          List (String × String)).lookup "replacements" = some "true"
      ∧ (([("replacements", "true"), ("uppercase", "true")] :
            List (String × String)).lookup "capitalize" ≠ some "true" →
          ([("replacements", "true"), ("uppercase", "true")] :
            List (String × String)).lookup "uppercase" = some "true" →
          wordComponent [("replacements", "true"), ("uppercase", "true")] "x".toList [5, 2]
              = .ok ("x".toList ++ "ocean".toList.map Char.toUpper, [2])
            ∧ (∀ ch ∈ "ocean".toList.map Char.toUpper, ch.isDigit = false)
            ∧ (∀ ch ∈ "ocean".toList.map Char.toUpper, leetChar ch = ch)) :=
  ⟨rfl, rfl, rfl, rfl,
    (wordComponent_uppercase_replacements [("replacements", "true"), ("uppercase", "true")]
      "x".toList [5, 2] 3 10 "ocean".toList [2] rfl rfl rfl rfl).2.1⟩

/-! ## The builder as a concatenation -/

theorem pushRandomChars_acc (chars : List Char) (n : Nat) : ∀ (out : List Char) (g : Gen),
    pushRandomChars chars n out g
      = (out ++ (pushRandomChars chars n [] g).1, (pushRandomChars chars n [] g).2) := by
  induction n with
  | zero => intro out g; simp [pushRandomChars]
  | succ k ih =>
    intro out g
    simp only [pushRandomChars]
    rw [ih (out ++ _), ih ([] ++ _)]
    simp

/-- Every component appends its text to the accumulator: the outcome on an accumulator
`password` is the outcome on the empty accumulator with `password` in front. -/
theorem appendComponent_acc (component : Component) (password : List Char) (g : Gen) :
    appendComponent component password g
      = match appendComponent component [] g with
        | .error e => .error e
        | .ok r => .ok (password ++ r.1, r.2) := by
  unfold appendComponent
  cases component.type with
  | TEXT => simp
  | WORD =>
    simp only [wordComponent]
    cases intOption component.config "min_length" 3 with
    | error e => rfl
    | ok lo =>
      cases intOption component.config "max_length" 10 with
      | error e => rfl
      | ok hi => simp
  | RANDOM_CHARS =>
    simp only [randomCharsComponent]
    cases intOption component.config "length" 4 with
    | error e => rfl
    | ok n =>
      simp only []
      split_ifs
      · rw [pushRandomChars_acc]
      · simp
  | NUMBER =>
    simp only [numberComponent]
    cases intOption component.config "min" 0 with
    | error e => rfl
    | ok lo =>
      cases intOption component.config "max" 9999 with
      | error e => rfl
      | ok hi =>
        cases intOption component.config "padding" 0 with
        | error e => rfl
        | ok p => simp
  | SEPARATOR => simp [separatorComponent]

theorem buildLoop_acc (components : List Component) : ∀ (password : List Char) (g : Gen),
    buildLoop components password g
      = match buildLoop components [] g with
        | .error e => .error e
        | .ok r => .ok (password ++ r.1, r.2) := by
  induction components with
  | nil => intro password g; simp [buildLoop]
  | cons c rest ih =>
    intro password g
    simp only [buildLoop]
    rw [appendComponent_acc c password g]
    cases appendComponent c [] g with
    | error e => rfl
    | ok r =>
      simp only [List.nil_append]
      rw [ih (password ++ r.1) r.2, ih r.1 r.2]
      cases buildLoop rest [] r.2 with
      | error e => rfl
      | ok q => simp

theorem buildLoop_append (a b : List Component) : ∀ (password : List Char) (g : Gen),
    buildLoop (a ++ b) password g
      = match buildLoop a password g with
        | .error e => .error e
        | .ok r => buildLoop b r.1 r.2 := by
  induction a with
  | nil => intro password g; simp [buildLoop]
  | cons c rest ih =>
    intro password g
    simp only [List.cons_append, buildLoop]
    cases appendComponent c password g with
    | error e => rfl
    | ok r => exact ih r.1 r.2

/-- C31: `buildCustomPassword` is a concatenation homomorphism over the threaded random
source: when `a` builds the string `sa` from the random state `g`, leaving the state
`g1`, and `b` builds `sb` from `g1`, then `a` followed by `b` builds `sa ++ sb` from `g`
and leaves the state that `b` leaves; and each component appends its output to the text
built so far, which it never alters. -/
theorem buildCustomPassword_append (a b : List Component) (g g1 g2 : Gen)
    (sa sb : List Char)
    (ha : buildCustomPassword a g = .ok (sa, g1))
    (hb : buildCustomPassword b g1 = .ok (sb, g2)) :
    buildCustomPassword (a ++ b) g = .ok (sa ++ sb, g2)
      ∧ (∀ (component : Component) (password out : List Char) (g3 g4 : Gen),
          appendComponent component password g3 = .ok (out, g4) →
          ∃ text : List Char, out = password ++ text
            ∧ appendComponent component [] g3 = .ok (text, g4)) := by
  constructor
  · unfold buildCustomPassword at *
    rw [buildLoop_append, ha]
    simp only []
    rw [buildLoop_acc, hb]
  · intro component password out g3 g4 h
    rw [appendComponent_acc] at h
    cases hr : appendComponent component [] g3 with
    | error e =>
      rw [hr] at h
      cases h
    | ok r =>
      rw [hr] at h
      simp only [Except.ok.injEq, Prod.mk.injEq] at h
      exact ⟨r.1, h.1.symm, by rw [← h.2]⟩

theorem buildCustomPassword_append_witness :
    buildCustomPassword [(⟨.TEXT, "ab".toList, [], []⟩ : Component), ⟨.WORD, [], [], []⟩]
        [5, 2, 7] = .ok ("abocean".toList, [2, 7])
      ∧ buildCustomPassword [(⟨.SEPARATOR, [], [], []⟩ : Component),
          ⟨.NUMBER, [], [("max", "9")], []⟩] [2, 7] = .ok (".7".toList, [])
      ∧ buildCustomPassword ([(⟨.TEXT, "ab".toList, [], []⟩ : Component), ⟨.WORD, [], [], []⟩]
          ++ [(⟨.SEPARATOR, [], [], []⟩ : Component), ⟨.NUMBER, [], [("max", "9")], []⟩])
          [5, 2, 7] = .ok ("abocean".toList ++ ".7".toList, []) :=
  ⟨rfl, rfl,
    (buildCustomPassword_append
      [(⟨.TEXT, "ab".toList, [], []⟩ : Component), ⟨.WORD, [], [], []⟩]
      [(⟨.SEPARATOR, [], [], []⟩ : Component), ⟨.NUMBER, [], [("max", "9")], []⟩]
      [5, 2, 7] [2, 7] [] "abocean".toList ".7".toList rfl rfl).1⟩

end PasswordGenerator
